import Mathlib

/-!
Parallel BFS / DFS (`bfs-dfs.cpp`): shallow embedding and verified properties

The program keeps two global arrays, `adj[MAXN]` (adjacency lists) and
`visited[MAXN]`.  They are modelled as total functions on `Nat`; an index is
meaningful for the program when it is below `MAXN`.  Node identifiers are
natural numbers.  Queues, stacks and vectors are lists; the standard output is
the list of node identifiers printed so far.  The two `while` loops take a fuel
argument and return `none` when it runs out.

The `#pragma omp parallel for` regions are embedded twice: once with the
iterations taken in index order (the executable functions `bfsExpand`,
`dfsExpand`), and once as relations that range over every interleaving of the
critical sections (`Interleave`, `BfsSchedRun`, `DfsSchedRun`, and, with the
two critical sections of the DFS region as separate steps, `DfsFineRun`).

The traversals and the menu handling are also given as executable functions of
a scheduler (`parallel_bfs_sched`, `parallel_dfs_sched`, `handleChoiceSched`):
a scheduler maps the state at the start of an outer iteration to the order in
which the critical sections of that parallel region are executed, so every
region of a run can be ordered on its own.  `BfsSchedulerOk` and
`DfsSchedulerOk` say that each order is an interleaving of the region.  The
runs under a scheduler are the runs of `BfsSchedRun` and `DfsFineRun`
(`bfsLoopSched_schedRun`, `bfsSchedRun_scheduler`, `dfsLoopSched_fineRun`,
`dfsFineRun_scheduler`), and the index-order functions are the runs under the
index-order schedulers (`parallel_bfs_eq_sched`, `parallel_dfs_eq_sched`,
`handleChoice_eq_sched`).  Properties of a run that do not depend on the order
are stated for every scheduler.
-/

namespace BfsDfs

/-! ## Data model -/

/-- Line 9: `const int MAXN = 100005;`. -/
def MAXN : Nat := 100005

/-- Line 10: `vector<int> adj[MAXN]`. -/
abbrev Adj := Nat → List Nat

/-- Line 11: `bool visited[MAXN]`. -/
abbrev Visited := Nat → Bool

/-- The zero-initialised `visited` array the program starts with. -/
def allFalse : Visited := fun _ => false

/-- The empty adjacency lists the program starts with. -/
def emptyAdj : Adj := fun _ => []

/-- The assignment `visited[u] = true`. -/
def markVisited (vis : Visited) (u : Nat) : Visited :=
  fun i => if i = u then true else vis i

/-- The assignment `visited[u] = false`. -/
def clearVisited (vis : Visited) (u : Nat) : Visited :=
  fun i => if i = u then false else vis i

/-! ## `parallel_bfs` (lines 14-54) -/

/-- Lines 40-46: one critical section of the BFS, for the neighbour `u`.
The state is `visited` together with `next_level`. -/
def bfsVisit (st : Visited × List Nat) (u : Nat) : Visited × List Nat :=
  if st.1 u then st else (markVisited st.1 u, st.2 ++ [u])

/-- Lines 39-47: the scan `for (int u : adj[v])` of one node `v`. -/
def bfsNeighbors (adj : Adj) (st : Visited × List Nat) (v : Nat) : Visited × List Nat :=
  (adj v).foldl bfsVisit st

/-- Lines 31-48 with the iterations of the parallel for taken in index order:
`next_level` starts empty and every node of `current_level` is scanned. -/
def bfsExpand (adj : Adj) (vis : Visited) (current_level : List Nat) : Visited × List Nat :=
  current_level.foldl (bfsNeighbors adj) (vis, [])

/-- Lines 24-29: `level_size` times, pop the front of the queue, print it and
append it to `current_level`.  The result is `(q, output, current_level)`. -/
def drainLevel : Nat → List Nat → List Nat → List Nat → List Nat × List Nat × List Nat
  | 0, q, out, cur => (q, out, cur)
  | _ + 1, [], out, cur => ([], out, cur)
  | k + 1, v :: q, out, cur => drainLevel k q (out ++ [v]) (cur ++ [v])

/-- State of a traversal: the `visited` array, the queue (front first) or the
stack (top first), and the node identifiers printed so far. -/
structure TState where
  visited : Visited
  work : List Nat
  out : List Nat

/-- The starting state of a traversal from `start` on the array `vis`
(lines 15-17 and 58-60). -/
def initState (vis : Visited) (start : Nat) : TState :=
  { visited := markVisited vis start, work := [start], out := [] }

/-- Lines 20-52: one iteration of the outer `while` of `parallel_bfs`, for a
given way `expand` of running the parallel region. -/
def bfsIterWith (expand : Visited → List Nat → Visited × List Nat) (st : TState) : TState :=
  let level_size := st.work.length
  let d := drainLevel level_size st.work st.out []
  let r := expand st.visited d.2.2
  { visited := r.1, work := r.2.foldl (fun q u => q ++ [u]) d.1, out := d.2.1 }

/-- One iteration of the outer `while` of `parallel_bfs`, the parallel for
taken in index order. -/
def bfsIter (adj : Adj) (st : TState) : TState :=
  bfsIterWith (bfsExpand adj) st

/-- Lines 19-53: the loop `while (!q.empty())`. -/
def bfsLoop (adj : Adj) : Nat → TState → Option TState
  | 0, _ => none
  | fuel + 1, st => if st.work.isEmpty then some st else bfsLoop adj fuel (bfsIter adj st)

/-- Lines 14-54: `parallel_bfs(start)` run on the array `vis`; the result is
the final `visited` array and the sequence of printed nodes. -/
def parallel_bfs (adj : Adj) (fuel : Nat) (start : Nat) (vis : Visited) :
    Option (Visited × List Nat) :=
  (bfsLoop adj fuel (initState vis start)).map (fun st => (st.visited, st.out))

/-! ## `parallel_dfs` (lines 57-95) -/

/-- Lines 76-82: the first critical section of the DFS; returns the array
and `needs_push`. -/
def dfsClaim (vis : Visited) (u : Nat) : Visited × Bool :=
  if vis u then (vis, false) else (markVisited vis u, true)

/-- Lines 72-88: the body of the parallel for of the DFS, for the neighbour
`u`, both critical sections run back to back.  The state is `visited` together
with `neighbors`. -/
def dfsVisit (st : Visited × List Nat) (u : Nat) : Visited × List Nat :=
  let c := dfsClaim st.1 u
  if c.2 then (c.1, st.2 ++ [u]) else (c.1, st.2)

/-- Lines 67-89 with the iterations of the parallel for taken in index
order. -/
def dfsExpand (adj : Adj) (vis : Visited) (v : Nat) : Visited × List Nat :=
  (adj v).foldl dfsVisit (vis, [])

/-- Lines 92-93: `for (int u : neighbors) s.push(u);`. -/
def pushAll (s : List Nat) (neighbors : List Nat) : List Nat :=
  neighbors.foldl (fun stk u => u :: stk) s

/-- Lines 63-93: one iteration of the outer `while` of `parallel_dfs`. -/
def dfsIter (adj : Adj) (st : TState) : TState :=
  match st.work with
  | [] => st
  | v :: rest =>
    let r := dfsExpand adj st.visited v
    { visited := r.1, work := pushAll rest r.2, out := st.out ++ [v] }

/-- Lines 62-94: the loop `while (!s.empty())`. -/
def dfsLoop (adj : Adj) : Nat → TState → Option TState
  | 0, _ => none
  | fuel + 1, st => if st.work.isEmpty then some st else dfsLoop adj fuel (dfsIter adj st)

/-- Lines 57-95: `parallel_dfs(start)` run on the array `vis`. -/
def parallel_dfs (adj : Adj) (fuel : Nat) (start : Nat) (vis : Visited) :
    Option (Visited × List Nat) :=
  (dfsLoop adj fuel (initState vis start)).map (fun st => (st.visited, st.out))

/-! ## `reset_visited` and `main` (lines 98-161) -/

/-- Lines 99-100: the loop of `reset_visited`, `k` iterations left, index `i`. -/
def resetLoop : Nat → Nat → Visited → Visited
  | 0, _, vis => vis
  | k + 1, i, vis => resetLoop k (i + 1) (clearVisited vis i)

/-- Lines 98-101: `reset_visited(n)`. -/
def reset_visited (n : Nat) (vis : Visited) : Visited :=
  resetLoop n 1 vis

/-- Reduction of an integer to the range of a 32-bit signed `int`. -/
def wrap32 (x : Int) : Int :=
  (x + 2147483648) % 4294967296 - 2147483648

/-- Line 110: the test `m > n * (n - 1) / 2` on 32-bit `int`s. -/
def tooManyEdges (n m : Int) : Bool :=
  decide (m > Int.tdiv (wrap32 (n * wrap32 (n - 1))) 2)

/-- The call `adj[u].push_back(v)`. -/
def pushNeighbor (adj : Adj) (u v : Nat) : Adj :=
  fun i => if i = u then adj i ++ [v] else adj i

/-- Lines 120-121: the two `push_back`s made for the input pair `(u, v)`. -/
def addEdge (adj : Adj) (e : Nat × Nat) : Adj :=
  pushNeighbor (pushNeighbor adj e.1 e.2) e.2 e.1

/-- Lines 117-122: the edge loop over the pairs read from the input. -/
def readEdges (adj : Adj) (edges : List (Nat × Nat)) : Adj :=
  edges.foldl addEdge adj

/-- The adjacency lists `main` builds from the pairs `edges`. -/
def buildGraph (edges : List (Nat × Nat)) : Adj :=
  readEdges emptyAdj edges

/-- Lines 138-144: the initial traversal; no traversal for a choice other
than 1 and 2. -/
def runChoice (adj : Adj) (fuel : Nat) (choice start : Nat) (vis : Visited) :
    Option (Visited × List Nat) :=
  if choice = 1 then parallel_bfs adj fuel start vis
  else if choice = 2 then parallel_dfs adj fuel start vis
  else some (vis, [])

/-- Lines 150-153: the traversal of a continuation run. -/
def runAgain (adj : Adj) (fuel : Nat) (choice i : Nat) (vis : Visited) :
    Option (Visited × List Nat) :=
  if choice = 1 then parallel_bfs adj fuel i vis else parallel_dfs adj fuel i vis

/-- What one menu choice leaves behind: the `visited` array, the node
identifiers printed (initial run and continuation runs together), and the
nodes announced by "Running again from node". -/
structure ChoiceResult where
  visited : Visited
  out : List Nat
  restarts : List Nat

/-- Lines 147-155: the loop `for (int i = 1; i <= n; i++)`, `k` iterations
left, index `i`. -/
def sweep (adj : Adj) (fuel : Nat) (choice : Nat) : Nat → Nat → ChoiceResult → Option ChoiceResult
  | 0, _, r => some r
  | k + 1, i, r =>
    if !r.visited i && !(adj i).isEmpty then
      match runAgain adj fuel choice i r.visited with
      | none => none
      | some t =>
        sweep adj fuel choice k (i + 1)
          { visited := t.1, out := r.out ++ t.2, restarts := r.restarts ++ [i] }
    else sweep adj fuel choice k (i + 1) r

/-- Lines 136-155: what `main` does for one menu choice other than 3. -/
def handleChoice (adj : Adj) (fuel : Nat) (n : Nat) (choice start : Nat) (vis : Visited) :
    Option ChoiceResult :=
  match runChoice adj fuel choice start (reset_visited n vis) with
  | none => none
  | some t => sweep adj fuel choice n 1 { visited := t.1, out := t.2, restarts := [] }

/-- Lines 125-158: the menu loop over the pairs (choice, start) read from
the input; `none` when the input ends without the choice 3. -/
def menuLoop (adj : Adj) (fuel : Nat) (n : Nat) :
    List (Nat × Nat) → Visited → List ChoiceResult → Option (List ChoiceResult)
  | [], _, _ => none
  | c :: rest, vis, acc =>
    if c.1 = 3 then some acc
    else
      match handleChoice adj fuel n c.1 c.2 vis with
      | none => none
      | some r => menuLoop adj fuel n rest r.visited (acc ++ [r])

/-- Result of `main`. -/
inductive MainResult where
  | rejected : MainResult
  | finished : Adj → List ChoiceResult → MainResult

/-- Exit status of `main`: 1 at line 112, 0 at line 160. -/
def MainResult.exitStatus : MainResult → Nat
  | .rejected => 1
  | .finished _ _ => 0

/-- Lines 104-161: `main` on the input `n m`, the edge pairs and the menu
entries. -/
def mainProgram (fuel : Nat) (n m : Int) (edges : List (Nat × Nat)) (menu : List (Nat × Nat)) :
    Option MainResult :=
  if tooManyEdges n m then some MainResult.rejected
  else
    let adj := readEdges emptyAdj (edges.take m.toNat)
    (menuLoop adj fuel n.toNat menu allFalse []).map (MainResult.finished adj)

/-! ## Notions the properties are stated with -/

/-- The pairs `(a, b)` with `b` in the adjacency list of `a`. -/
def Edge (adj : Adj) (a b : Nat) : Prop := b ∈ adj a

/-- The node `x` is reached from `s` along adjacency lists. -/
def Reach (adj : Adj) (s x : Nat) : Prop := Relation.ReflTransGen (Edge adj) s x

/-- The nodes `a` and `b` are joined by an input pair, in either direction. -/
def Linked (edges : List (Nat × Nat)) (a b : Nat) : Prop :=
  (a, b) ∈ edges ∨ (b, a) ∈ edges

/-- The node `x` lies in the connected component of `s` in the undirected
graph given by the input pairs. -/
def InComponent (edges : List (Nat × Nat)) (s x : Nat) : Prop :=
  Relation.ReflTransGen (Linked edges) s x

/-- All endpoints of the input pairs lie in `[1, n]`. -/
def EndpointsIn (n : Nat) (edges : List (Nat × Nat)) : Prop :=
  ∀ e ∈ edges, (1 ≤ e.1 ∧ e.1 ≤ n) ∧ (1 ≤ e.2 ∧ e.2 ≤ n)

instance (n : Nat) (edges : List (Nat × Nat)) : Decidable (EndpointsIn n edges) := by
  unfold EndpointsIn; infer_instance

/-- The end nodes of the walks of exactly `k` edges that start at `s`. -/
def walkEnds (adj : Adj) (s : Nat) : Nat → List Nat
  | 0 => [s]
  | k + 1 => (walkEnds adj s k).flatMap adj

/-- The shortest-path distance from `s` to `x`, in edges, is `d`. -/
def HasDist (adj : Adj) (s x d : Nat) : Prop :=
  x ∈ walkEnds adj s d ∧ ∀ j, j < d → x ∉ walkEnds adj s j

instance (adj : Adj) (s x d : Nat) : Decidable (HasDist adj s x d) := by
  unfold HasDist; infer_instance

/-- The sequence `sched` is an interleaving of the lists `ls`: it takes their
elements one at a time, each list in its own order. -/
inductive Interleave : List (List Nat) → List Nat → Prop
  | done (ls : List (List Nat)) : (∀ l ∈ ls, l = []) → Interleave ls []
  | step (pre post : List (List Nat)) (u : Nat) (rest sched : List Nat) :
      Interleave (pre ++ rest :: post) sched →
      Interleave (pre ++ (u :: rest) :: post) (u :: sched)

/-- Lines 31-48 when the critical sections of the level are executed in the
order `sched`. -/
def bfsExpandSched (sched : List Nat) (vis : Visited) : Visited × List Nat :=
  sched.foldl bfsVisit (vis, [])

/-- A run of `parallel_bfs` in which every level takes some interleaving of
the neighbour scans of its nodes; it records the levels drained and the final
state. -/
inductive BfsSchedRun (adj : Adj) : TState → List (List Nat) → TState → Prop
  | done (st : TState) : st.work = [] → BfsSchedRun adj st [] st
  | step (st : TState) (sched : List Nat) (levels : List (List Nat)) (fin : TState) :
      st.work ≠ [] →
      Interleave (st.work.map adj) sched →
      BfsSchedRun adj (bfsIterWith (fun vis _ => bfsExpandSched sched vis) st) levels fin →
      BfsSchedRun adj st (st.work :: levels) fin

/-- A run of `parallel_dfs` in which the claimed neighbours of every popped
node are collected in some order: `batch` is the vector `neighbors` after the
parallel region.  It records, pop by pop, the node printed and its batch. -/
inductive DfsSchedRun (adj : Adj) : Visited → List Nat → List (Nat × List Nat) → Prop
  | done (vis : Visited) : DfsSchedRun adj vis [] []
  | step (vis : Visited) (v : Nat) (rest batch : List Nat) (t : List (Nat × List Nat)) :
      batch.Perm (dfsExpand adj vis v).2 →
      DfsSchedRun adj (dfsExpand adj vis v).1 (pushAll rest batch) t →
      DfsSchedRun adj vis (v :: rest) ((v, batch) :: t)

/-- The nodes pushed on the stack up to the end of the trace `t`, oldest
first: the seed, then the batches in the order they were pushed. -/
def pushedSoFar (s : Nat) (t : List (Nat × List Nat)) : List Nat :=
  s :: t.flatMap Prod.snd

/-- The nodes printed up to the end of the trace `t`. -/
def emittedSoFar (t : List (Nat × List Nat)) : List Nat :=
  t.map Prod.fst

/-- The most recently pushed node that has not been printed yet. -/
def latestPending (s : Nat) (t : List (Nat × List Nat)) : Option Nat :=
  ((pushedSoFar s t).filter (fun x => decide (x ∉ emittedSoFar t))).getLast?

/-- Loop invariant shared by the two traversals, for a run started from `s`
on the array `vis0`: no node is printed or queued twice, `visited` holds
exactly the nodes of `vis0` and the nodes printed or waiting, every neighbour
of a printed node is marked, and only nodes reached from `s` are handled. -/
structure WInv (adj : Adj) (vis0 : Visited) (s : Nat) (st : TState) : Prop where
  nodup : (st.out ++ st.work).Nodup
  vis_iff : ∀ x, st.visited x = true ↔ vis0 x = true ∨ x ∈ st.out ∨ x ∈ st.work
  fresh : ∀ x, x ∈ st.out ∨ x ∈ st.work → vis0 x = false
  closed : ∀ x ∈ st.out, ∀ y ∈ adj x, st.visited y = true
  reach : ∀ x, x ∈ st.out ∨ x ∈ st.work → Reach adj s x
  start : s ∈ st.out ∨ s ∈ st.work

/-- Invariant of `parallel_bfs` (run from `s` on an all-false array) at the
start of round `k`: the printed nodes are the nodes with a walk of fewer than
`k` edges, the queue holds nodes with a walk of `k` edges and, with the output,
all of them, and the output is ordered by distance. -/
structure LevelInv (adj : Adj) (s : Nat) (k : Nat) (st : TState) : Prop where
  out_iff : ∀ x, x ∈ st.out ↔ ∃ j, j < k ∧ x ∈ walkEnds adj s j
  work_sub : ∀ x, x ∈ st.work → x ∈ walkEnds adj s k
  cover : ∀ x, x ∈ walkEnds adj s k → x ∈ st.out ∨ x ∈ st.work
  sorted : st.out.Pairwise
    (fun u w => ∀ du dw, HasDist adj s u du → HasDist adj s w dw → du ≤ dw)

/-- Invariant of the component sweep of `main` (lines 147-155) when the loop
index is `i`, for a choice whose initial traversal started at `s` on the array
`vis0`: what has been printed, which nodes are marked, and which nodes a
continuation run was started from. -/
structure SweepInv (adj : Adj) (vis0 : Visited) (s : Nat) (i : Nat) (r : ChoiceResult) : Prop where
  nodup : r.out.Nodup
  vis_iff : ∀ x, r.visited x = true ↔ vis0 x = true ∨ x ∈ r.out
  out_iff : ∀ x, x ∈ r.out ↔ Reach adj s x ∨ ∃ j, j ∈ r.restarts ∧ Reach adj j x
  rs_sorted : r.restarts.Pairwise (fun a b => a < b)
  rs_sound : ∀ j, j ∈ r.restarts →
    1 ≤ j ∧ j < i ∧ adj j ≠ [] ∧ ¬ Reach adj s j ∧ ∀ j2, j2 < j → ¬ Reach adj j2 j
  rs_complete : ∀ j, 1 ≤ j → j < i → adj j ≠ [] → ¬ Reach adj s j →
    (∀ j2, j2 < j → ¬ Reach adj j2 j) → j ∈ r.restarts
  seen : ∀ j, 1 ≤ j → j < i → adj j ≠ [] → r.visited j = true

/-- Invariant of `parallel_dfs` between two pops, for the list `pushed` of the
nodes pushed so far (oldest first) and the list `emitted` of the nodes printed
so far: the stack, read from the bottom, is the list of pushed nodes that have
not been printed. -/
structure StackInv (vis : Visited) (stack pushed emitted : List Nat) : Prop where
  nodup : pushed.Nodup
  marked : ∀ x, x ∈ pushed → vis x = true
  emitted_sub : ∀ x, x ∈ emitted → x ∈ pushed
  stack_eq : stack.reverse = pushed.filter (fun x => decide (x ∉ emitted))

/-- The state of `parallel_bfs(s)`, run on the array `vis`, at the boundary
reached after `k` iterations of its outer loop. -/
def bfsBoundary (adj : Adj) (vis : Visited) (s k : Nat) : TState :=
  Nat.iterate (bfsIter adj) k (initState vis s)

/-- The state of `parallel_dfs(s)`, run on the array `vis`, at the boundary
reached after `k` iterations of its outer loop. -/
def dfsBoundary (adj : Adj) (vis : Visited) (s k : Nat) : TState :=
  Nat.iterate (dfsIter adj) k (initState vis s)

/-- The vector `current_level` that iteration `k` of the outer loop of
`parallel_bfs(s)` drains from the queue (lines 20-29), the run started on an
all-false array. -/
def currentLevel (adj : Adj) (s k : Nat) : List Nat :=
  (drainLevel (bfsBoundary adj allFalse s k).work.length (bfsBoundary adj allFalse s k).work
    (bfsBoundary adj allFalse s k).out []).2.2

/-- The list `l` without the elements of `seen` and without every occurrence
of an element after its first. -/
def dedupFrom (seen : List Nat) : List Nat → List Nat
  | [] => []
  | x :: l => if x ∈ seen then dedupFrom seen l else x :: dedupFrom (x :: seen) l

/-- The adjacency lists `adj` after deleting, in the list of each node `v`,
the identifier `v` itself and every occurrence of a neighbour after its
first. -/
def cleanAdj (adj : Adj) : Adj :=
  fun v => dedupFrom [v] (adj v)

/-- Textbook BFS, handling of one neighbour `u` of the dequeued node: an
unvisited neighbour is marked visited and enqueued. -/
def textbookVisit (st : Visited × List Nat) (u : Nat) : Visited × List Nat :=
  if st.1 u then st else (markVisited st.1 u, st.2 ++ [u])

/-- Textbook BFS, one step: dequeue one node, emit it, and enqueue each of its
unvisited neighbours in adjacency order. -/
def textbookIter (adj : Adj) (st : TState) : TState :=
  match st.work with
  | [] => st
  | v :: rest =>
    let r := (adj v).foldl textbookVisit (st.visited, rest)
    { visited := r.1, work := r.2, out := st.out ++ [v] }

/-- Textbook BFS, the loop on the single queue. -/
def textbookLoop (adj : Adj) : Nat → TState → Option TState
  | 0, _ => none
  | fuel + 1, st =>
    if st.work.isEmpty then some st else textbookLoop adj fuel (textbookIter adj st)

/-- Textbook single-queue BFS from `start` on the array `vis`: the start node
is marked and enqueued, then the loop runs. -/
def textbook_bfs (adj : Adj) (fuel : Nat) (start : Nat) (vis : Visited) :
    Option (Visited × List Nat) :=
  (textbookLoop adj fuel (initState vis start)).map (fun st => (st.visited, st.out))

/-- Recursive depth-first search over the list `todo` of nodes still to
try, `seen` being the nodes already visited: a seen node is skipped; an unseen
node `u` is printed, the search recurses over its neighbour list taken in any
order `nbrs`, and then goes on with the rest of `todo`.  The third argument is
the preorder output.  The search from `s` is the search over `[s]`. -/
inductive RecDfs (adj : Adj) : List Nat → List Nat → List Nat → Prop
  | nil (seen : List Nat) : RecDfs adj seen [] []
  | skip (seen : List Nat) (u : Nat) (todo out : List Nat) :
      u ∈ seen → RecDfs adj seen todo out → RecDfs adj seen (u :: todo) out
  | visit (seen : List Nat) (u : Nat) (todo nbrs out1 out2 : List Nat) :
      u ∉ seen → nbrs.Perm (adj u) →
      RecDfs adj (u :: seen) nbrs out1 →
      RecDfs adj (u :: out1 ++ seen) todo out2 →
      RecDfs adj seen (u :: todo) (u :: out1 ++ out2)

/-- A step of the parallel region of `parallel_dfs` (lines 70-89): the first
critical section of iteration `i` (lines 76-82) or its second one (lines
85-88). -/
inductive RegionStep where
  | claim (i : Nat) : RegionStep
  | append (i : Nat) : RegionStep

/-- State of the parallel region of `parallel_dfs`: the shared `visited` and
`neighbors`, and the local `needs_push` of every iteration. -/
structure RegionState where
  visited : Visited
  neighbors : List Nat
  needs_push : Nat → Bool

/-- The region starts with `neighbors` empty (line 67) and every `needs_push`
false (line 73). -/
def regionInit (vis : Visited) : RegionState :=
  { visited := vis, neighbors := [], needs_push := fun _ => false }

/-- Effect of one step of the region on the neighbour list `nbrs` of the
popped node. -/
def regionAct (nbrs : List Nat) (st : RegionState) : RegionStep → RegionState
  | RegionStep.claim i =>
    match nbrs[i]? with
    | none => st
    | some u =>
      if st.visited u then st
      else { visited := markVisited st.visited u, neighbors := st.neighbors,
             needs_push := fun j => if j = i then true else st.needs_push j }
  | RegionStep.append i =>
    match nbrs[i]? with
    | none => st
    | some u =>
      if st.needs_push i then
        { visited := st.visited, neighbors := st.neighbors ++ [u], needs_push := st.needs_push }
      else st

/-- The region run with its critical sections in the order `sched`. -/
def runRegion (nbrs : List Nat) (sched : List RegionStep) (vis : Visited) : RegionState :=
  sched.foldl (regionAct nbrs) (regionInit vis)

/-- Check of a schedule of the region against the indices `claimed` and
`appended` so far: every iteration below `len` runs its first critical section
once and then its second one once. -/
def schedOk (len : Nat) : List RegionStep → List Nat → List Nat → Bool
  | [], claimed, appended =>
    (List.range len).all (fun i => decide (i ∈ claimed) && decide (i ∈ appended))
  | RegionStep.claim i :: rest, claimed, appended =>
    decide (i < len) && decide (i ∉ claimed) && schedOk len rest (i :: claimed) appended
  | RegionStep.append i :: rest, claimed, appended =>
    decide (i ∈ claimed) && decide (i ∉ appended) && schedOk len rest claimed (i :: appended)

/-- The sequence `sched` is a schedule of the region over `len` neighbours. -/
def ValidRegionSched (len : Nat) (sched : List RegionStep) : Prop :=
  schedOk len sched [] [] = true

instance (len : Nat) (sched : List RegionStep) : Decidable (ValidRegionSched len sched) := by
  unfold ValidRegionSched; infer_instance

/-- A run of `parallel_dfs` in which the parallel region of every popped node
takes some schedule of its critical sections.  It records, pop by pop, the
node printed and the vector `neighbors` pushed after the region. -/
inductive DfsFineRun (adj : Adj) : Visited → List Nat → List (Nat × List Nat) → Prop
  | done (vis : Visited) : DfsFineRun adj vis [] []
  | step (vis : Visited) (v : Nat) (rest : List Nat) (sched : List RegionStep)
      (t : List (Nat × List Nat)) :
      ValidRegionSched (adj v).length sched →
      DfsFineRun adj (runRegion (adj v) sched vis).visited
        (pushAll rest (runRegion (adj v) sched vis).neighbors) t →
      DfsFineRun adj vis (v :: rest) ((v, (runRegion (adj v) sched vis).neighbors) :: t)

/-- Invariant of the parallel region of `parallel_dfs` on the neighbour list
`nbrs`, entered with the array `vis`, when the iterations `claimed` have run
their first critical section and the iterations `appended` their second. -/
structure RegionInv (nbrs : List Nat) (vis : Visited) (claimed appended : List Nat)
    (st : RegionState) : Prop where
  vis_iff : ∀ x, st.visited x = true ↔ vis x = true ∨ ∃ i, i ∈ claimed ∧ nbrs[i]? = some x
  needs : ∀ i, st.needs_push i = true → i ∈ claimed ∧ ∃ x, nbrs[i]? = some x ∧ vis x = false
  unique : ∀ i j, st.needs_push i = true → st.needs_push j = true → nbrs[i]? = nbrs[j]? → i = j
  claimed_by : ∀ i x, i ∈ claimed → nbrs[i]? = some x → vis x = false →
    ∃ j, st.needs_push j = true ∧ nbrs[j]? = some x
  nodup : st.neighbors.Nodup
  mem_iff : ∀ x, x ∈ st.neighbors ↔
    ∃ i, i ∈ appended ∧ st.needs_push i = true ∧ nbrs[i]? = some x
  app_sub : ∀ i, i ∈ appended → i ∈ claimed

/-! ## The traversals under an arbitrary schedule of their parallel regions -/

/-- A scheduler of the parallel region of `parallel_bfs` (lines 34-48): for
the state at the start of an iteration of the outer loop, the order in which
the critical sections of that level are executed. -/
abbrev BfsScheduler := TState → List Nat

/-- The scheduler gives, for every state, an interleaving of the neighbour
scans of the nodes of the level. -/
def BfsSchedulerOk (adj : Adj) (σ : BfsScheduler) : Prop :=
  ∀ st, Interleave (st.work.map adj) (σ st)

/-- Lines 20-52: one iteration of the outer loop of `parallel_bfs` under the
scheduler `σ`. -/
def bfsIterSched (σ : BfsScheduler) (st : TState) : TState :=
  bfsIterWith (fun vis _ => bfsExpandSched (σ st) vis) st

/-- Lines 19-53 under the scheduler `σ`. -/
def bfsLoopSched (σ : BfsScheduler) : Nat → TState → Option TState
  | 0, _ => none
  | fuel + 1, st =>
    if st.work.isEmpty then some st else bfsLoopSched σ fuel (bfsIterSched σ st)

/-- Lines 14-54: `parallel_bfs(start)` under the scheduler `σ`. -/
def parallel_bfs_sched (σ : BfsScheduler) (fuel : Nat) (start : Nat) (vis : Visited) :
    Option (Visited × List Nat) :=
  (bfsLoopSched σ fuel (initState vis start)).map (fun st => (st.visited, st.out))

/-- A scheduler of the parallel region of `parallel_dfs` (lines 70-89): for
the state at the start of an iteration of the outer loop, the order in which
the two critical sections of the neighbour indices are executed. -/
abbrev DfsScheduler := TState → List RegionStep

/-- The scheduler gives, for every state with a node `v` on top of the stack,
a schedule of the region over the neighbours of `v`. -/
def DfsSchedulerOk (adj : Adj) (τ : DfsScheduler) : Prop :=
  ∀ st v rest, st.work = v :: rest → ValidRegionSched (adj v).length (τ st)

/-- Lines 63-93: one iteration of the outer loop of `parallel_dfs` under the
scheduler `τ`. -/
def dfsIterSched (adj : Adj) (τ : DfsScheduler) (st : TState) : TState :=
  match st.work with
  | [] => st
  | v :: rest =>
    let r := runRegion (adj v) (τ st) st.visited
    { visited := r.visited, work := pushAll rest r.neighbors, out := st.out ++ [v] }

/-- Lines 62-94 under the scheduler `τ`. -/
def dfsLoopSched (adj : Adj) (τ : DfsScheduler) : Nat → TState → Option TState
  | 0, _ => none
  | fuel + 1, st =>
    if st.work.isEmpty then some st else dfsLoopSched adj τ fuel (dfsIterSched adj τ st)

/-- Lines 57-95: `parallel_dfs(start)` under the scheduler `τ`. -/
def parallel_dfs_sched (adj : Adj) (τ : DfsScheduler) (fuel : Nat) (start : Nat)
    (vis : Visited) : Option (Visited × List Nat) :=
  (dfsLoopSched adj τ fuel (initState vis start)).map (fun st => (st.visited, st.out))

/-- Lines 138-144 under the schedulers `σ` and `τ`. -/
def runChoiceSched (adj : Adj) (σ : BfsScheduler) (τ : DfsScheduler) (fuel : Nat)
    (choice start : Nat) (vis : Visited) : Option (Visited × List Nat) :=
  if choice = 1 then parallel_bfs_sched σ fuel start vis
  else if choice = 2 then parallel_dfs_sched adj τ fuel start vis
  else some (vis, [])

/-- Lines 150-153 under the schedulers `σ` and `τ`. -/
def runAgainSched (adj : Adj) (σ : BfsScheduler) (τ : DfsScheduler) (fuel : Nat)
    (choice i : Nat) (vis : Visited) : Option (Visited × List Nat) :=
  if choice = 1 then parallel_bfs_sched σ fuel i vis else parallel_dfs_sched adj τ fuel i vis

/-- Lines 147-155 under the schedulers `σ` and `τ`, `k` iterations left,
index `i`. -/
def sweepSched (adj : Adj) (σ : BfsScheduler) (τ : DfsScheduler) (fuel : Nat) (choice : Nat) :
    Nat → Nat → ChoiceResult → Option ChoiceResult
  | 0, _, r => some r
  | k + 1, i, r =>
    if !r.visited i && !(adj i).isEmpty then
      match runAgainSched adj σ τ fuel choice i r.visited with
      | none => none
      | some t =>
        sweepSched adj σ τ fuel choice k (i + 1)
          { visited := t.1, out := r.out ++ t.2, restarts := r.restarts ++ [i] }
    else sweepSched adj σ τ fuel choice k (i + 1) r

/-- Lines 136-155: what `main` does for one menu choice other than 3, under
the schedulers `σ` and `τ`. -/
def handleChoiceSched (adj : Adj) (σ : BfsScheduler) (τ : DfsScheduler) (fuel : Nat) (n : Nat)
    (choice start : Nat) (vis : Visited) : Option ChoiceResult :=
  match runChoiceSched adj σ τ fuel choice start (reset_visited n vis) with
  | none => none
  | some t => sweepSched adj σ τ fuel choice n 1 { visited := t.1, out := t.2, restarts := [] }

/-- The state of `parallel_bfs(s)` under the scheduler `σ`, run on the array
`vis`, at the boundary reached after `k` iterations of its outer loop. -/
def bfsBoundarySched (σ : BfsScheduler) (vis : Visited) (s k : Nat) : TState :=
  Nat.iterate (bfsIterSched σ) k (initState vis s)

/-- The state of `parallel_dfs(s)` under the scheduler `τ`, run on the array
`vis`, at the boundary reached after `k` iterations of its outer loop. -/
def dfsBoundarySched (adj : Adj) (τ : DfsScheduler) (vis : Visited) (s k : Nat) : TState :=
  Nat.iterate (dfsIterSched adj τ) k (initState vis s)

/-- The vector `current_level` that iteration `k` of the outer loop of
`parallel_bfs(s)` drains from the queue (lines 20-29) under the scheduler `σ`,
the run started on an all-false array. -/
def currentLevelSched (σ : BfsScheduler) (s k : Nat) : List Nat :=
  (drainLevel (bfsBoundarySched σ allFalse s k).work.length
    (bfsBoundarySched σ allFalse s k).work (bfsBoundarySched σ allFalse s k).out []).2.2

/-- The scheduler that takes the iterations of the parallel for of
`parallel_bfs` in index order. -/
def indexBfsScheduler (adj : Adj) : BfsScheduler :=
  fun st => st.work.flatMap adj

/-- The scheduler of `parallel_bfs` that scans the nodes of the level from the
last to the first. -/
def reverseBfsScheduler (adj : Adj) : BfsScheduler :=
  fun st => st.work.reverse.flatMap adj

/-- The schedule of the region of `parallel_dfs` that takes the iterations in
index order, each with its two critical sections back to back. -/
def indexRegionSched (len : Nat) : List RegionStep :=
  (List.range len).flatMap (fun i => [RegionStep.claim i, RegionStep.append i])

/-- The scheduler that takes the iterations of the parallel for of
`parallel_dfs` in index order. -/
def indexDfsScheduler (adj : Adj) : DfsScheduler :=
  fun st =>
    match st.work with
    | [] => []
    | v :: _ => indexRegionSched (adj v).length

/-- The sequence with all the first critical sections from the last index to
the first, and then all the second ones in the same order. -/
def reverseRegionSched (len : Nat) : List RegionStep :=
  (List.range len).reverse.map RegionStep.claim ++
    (List.range len).reverse.map RegionStep.append

/-- The scheduler of `parallel_dfs` that takes `reverseRegionSched` when it is
a schedule of the region, and the index order otherwise. -/
def reverseDfsScheduler (adj : Adj) : DfsScheduler :=
  fun st =>
    match st.work with
    | [] => []
    | v :: _ =>
      if ValidRegionSched (adj v).length (reverseRegionSched (adj v).length) then
        reverseRegionSched (adj v).length
      else indexRegionSched (adj v).length

end BfsDfs

namespace BfsDfs

/-! ## The loops in closed form -/

theorem markVisited_eq_true (vis : Visited) (u x : Nat) :
    markVisited vis u x = true ↔ x = u ∨ vis x = true := by
  unfold markVisited
  by_cases h : x = u <;> simp [h]

theorem markVisited_eq_false (vis : Visited) (u x : Nat) :
    markVisited vis u x = false ↔ x ≠ u ∧ vis x = false := by
  unfold markVisited
  by_cases h : x = u <;> simp [h]

theorem dfsVisit_eq_bfsVisit : dfsVisit = bfsVisit := by
  funext st u
  unfold dfsVisit dfsClaim bfsVisit
  by_cases h : st.1 u = true <;> simp [h]

theorem bfsVisit_seen (st : Visited × List Nat) (u : Nat) (h : st.1 u = true) :
    bfsVisit st u = st := by
  unfold bfsVisit; simp [h]

theorem bfsVisit_unseen (st : Visited × List Nat) (u : Nat) (h : ¬ st.1 u = true) :
    bfsVisit st u = (markVisited st.1 u, st.2 ++ [u]) := by
  unfold bfsVisit; simp [h]

theorem scan_visited (l : List Nat) (st : Visited × List Nat) (x : Nat) :
    (l.foldl bfsVisit st).1 x = true ↔ st.1 x = true ∨ x ∈ l := by
  induction l generalizing st with
  | nil => simp
  | cons u l ih =>
    rw [List.foldl_cons, ih, List.mem_cons]
    by_cases h : st.1 u = true
    · rw [bfsVisit_seen st u h]
      constructor
      · rintro (h1 | h1)
        · exact Or.inl h1
        · exact Or.inr (Or.inr h1)
      · rintro (h1 | h1 | h1)
        · exact Or.inl h1
        · exact Or.inl (h1 ▸ h)
        · exact Or.inr h1
    · rw [bfsVisit_unseen st u h]
      simp only [markVisited_eq_true]
      tauto

theorem scan_collected (l : List Nat) (st : Visited × List Nat) :
    ∃ fresh : List Nat, (l.foldl bfsVisit st).2 = st.2 ++ fresh ∧ fresh.Nodup ∧
      ∀ x, x ∈ fresh ↔ x ∈ l ∧ st.1 x = false := by
  induction l generalizing st with
  | nil => exact ⟨[], by simp⟩
  | cons u l ih =>
    rw [List.foldl_cons]
    by_cases h : st.1 u = true
    · rw [bfsVisit_seen st u h]
      obtain ⟨fresh, h1, h2, h3⟩ := ih st
      refine ⟨fresh, h1, h2, fun x => ?_⟩
      rw [h3, List.mem_cons]
      constructor
      · rintro ⟨a, b⟩; exact ⟨Or.inr a, b⟩
      · rintro ⟨a | a, b⟩
        · rw [a, h] at b; cases b
        · exact ⟨a, b⟩
    · rw [bfsVisit_unseen st u h]
      obtain ⟨fresh, h1, h2, h3⟩ := ih (markVisited st.1 u, st.2 ++ [u])
      simp only [markVisited_eq_false] at h3
      refine ⟨u :: fresh, by simp [h1], ?_, fun x => ?_⟩
      · refine List.nodup_cons.mpr ⟨fun hu => ?_, h2⟩
        exact ((h3 u).mp hu).2.1 rfl
      · rw [List.mem_cons, h3, List.mem_cons]
        have hf : st.1 u = false := by simpa using h
        constructor
        · rintro (a | ⟨a, _, c⟩)
          · exact ⟨Or.inl a, a ▸ hf⟩
          · exact ⟨Or.inr a, c⟩
        · rintro ⟨a | a, b⟩
          · exact Or.inl a
          · by_cases hx : x = u
            · exact Or.inl hx
            · exact Or.inr ⟨a, hx, b⟩

theorem bfsExpand_eq_scan (adj : Adj) (vis : Visited) (cur : List Nat) :
    bfsExpand adj vis cur = (cur.flatMap adj).foldl bfsVisit (vis, []) := by
  unfold bfsExpand
  generalize (vis, ([] : List Nat)) = st
  induction cur generalizing st with
  | nil => rfl
  | cons v cur ih =>
    rw [List.foldl_cons, ih, List.flatMap_cons, List.foldl_append]
    rfl

theorem drainLevel_all (q out cur : List Nat) :
    drainLevel q.length q out cur = ([], out ++ q, cur ++ q) := by
  induction q generalizing out cur with
  | nil => simp [drainLevel]
  | cons v q ih => simp [drainLevel, ih]

theorem push_loop (next q : List Nat) :
    next.foldl (fun q u => q ++ [u]) q = q ++ next := by
  induction next generalizing q with
  | nil => simp
  | cons u next ih => simp [ih]

theorem pushAll_eq (neighbors s : List Nat) : pushAll s neighbors = neighbors.reverse ++ s := by
  unfold pushAll
  induction neighbors generalizing s with
  | nil => simp
  | cons u l ih => simp [ih]

theorem bfsIterWith_eq (expand : Visited → List Nat → Visited × List Nat) (st : TState) :
    bfsIterWith expand st =
      { visited := (expand st.visited st.work).1, work := (expand st.visited st.work).2,
        out := st.out ++ st.work } := by
  unfold bfsIterWith
  simp [drainLevel_all, push_loop]

end BfsDfs

namespace BfsDfs

/-! ## The invariant of the traversals -/

theorem winv_init (adj : Adj) (vis0 : Visited) (s : Nat) (hs : vis0 s = false) :
    WInv adj vis0 s (initState vis0 s) where
  nodup := by simp [initState]
  vis_iff := fun x => by
    simp only [initState, markVisited_eq_true, List.not_mem_nil, List.mem_singleton, false_or]
    tauto
  fresh := fun x hx => by
    simp only [initState, List.not_mem_nil, List.mem_singleton, false_or] at hx
    rw [hx]; exact hs
  closed := fun x hx => by simp [initState] at hx
  reach := fun x hx => by
    simp only [initState, List.not_mem_nil, List.mem_singleton, false_or] at hx
    rw [hx]; exact Relation.ReflTransGen.refl
  start := by simp [initState]

/-- One round of either traversal keeps the invariant: the nodes `cur` leave
the work list and are printed, their neighbour lists are scanned, and the
claimed nodes join the rest of the work list in any order. -/
theorem winv_round {adj : Adj} {vis0 : Visited} {s : Nat} {st : TState}
    (h : WInv adj vis0 s st) (cur rest work : List Nat)
    (hsplit : st.work.Perm (cur ++ rest))
    (hwork : work.Perm (rest ++ ((cur.flatMap adj).foldl bfsVisit (st.visited, [])).2)) :
    WInv adj vis0 s
      { visited := ((cur.flatMap adj).foldl bfsVisit (st.visited, [])).1, work := work,
        out := st.out ++ cur } := by
  obtain ⟨fresh, hf1, hf2, hf3⟩ := scan_collected (cur.flatMap adj) (st.visited, [])
  simp only [List.nil_append] at hf1 hf3
  rw [hf1] at hwork
  have hmw : ∀ x, x ∈ st.work ↔ x ∈ cur ∨ x ∈ rest := fun x => by
    rw [hsplit.mem_iff, List.mem_append]
  have hmw2 : ∀ x, x ∈ work ↔ x ∈ rest ∨ x ∈ fresh := fun x => by
    rw [hwork.mem_iff, List.mem_append]
  have hnew : ∀ x, x ∈ fresh → vis0 x = false ∧ x ∉ st.out ∧ x ∉ st.work := fun x hx => by
    have hv := ((hf3 x).mp hx).2
    have := h.vis_iff x
    rw [hv] at this
    simp only [Bool.false_eq_true, false_iff, not_or] at this
    exact ⟨by simpa using this.1, this.2.1, this.2.2⟩
  constructor
  · show (st.out ++ cur ++ work).Nodup
    have hp : (st.out ++ cur ++ work).Perm ((st.out ++ st.work) ++ fresh) := by
      rw [List.append_assoc, List.append_assoc]
      refine List.Perm.append_left _ ?_
      refine (List.Perm.append_left _ hwork).trans ?_
      rw [← List.append_assoc]
      exact List.Perm.append_right _ hsplit.symm
    rw [hp.nodup_iff, List.nodup_append]
    refine ⟨h.nodup, hf2, fun x hx hx2 => ?_⟩
    have := hnew x hx2
    rw [List.mem_append] at hx
    tauto
  · intro x
    show ((cur.flatMap adj).foldl bfsVisit (st.visited, [])).1 x = true ↔
      vis0 x = true ∨ x ∈ st.out ++ cur ∨ x ∈ work
    rw [scan_visited, List.mem_append, hmw2, hf3]
    have h1 := h.vis_iff x
    have h2 := hmw x
    simp only at h1 ⊢
    by_cases hv : st.visited x = true
    · simp only [hv, true_iff, true_or] at h1 ⊢
      tauto
    · have hv2 : st.visited x = false := by simpa using hv
      simp only [hv, false_iff, false_or, not_or] at h1 ⊢
      simp only [hv2, and_true]
      tauto
  · intro x hx
    show vis0 x = false
    simp only [List.mem_append, hmw2] at hx
    rcases hx with (hx | hx) | hx | hx
    · exact h.fresh x (Or.inl hx)
    · exact h.fresh x (Or.inr ((hmw x).mpr (Or.inl hx)))
    · exact h.fresh x (Or.inr ((hmw x).mpr (Or.inr hx)))
    · exact (hnew x hx).1
  · intro x hx y hy
    show ((cur.flatMap adj).foldl bfsVisit (st.visited, [])).1 y = true
    rw [scan_visited]
    rcases List.mem_append.mp hx with hx | hx
    · exact Or.inl (h.closed x hx y hy)
    · exact Or.inr (List.mem_flatMap.mpr ⟨x, hx, hy⟩)
  · intro x hx
    simp only [List.mem_append, hmw2] at hx
    rcases hx with (hx | hx) | hx | hx
    · exact h.reach x (Or.inl hx)
    · exact h.reach x (Or.inr ((hmw x).mpr (Or.inl hx)))
    · exact h.reach x (Or.inr ((hmw x).mpr (Or.inr hx)))
    · obtain ⟨v, hv, hxv⟩ := List.mem_flatMap.mp ((hf3 x).mp hx).1
      exact Relation.ReflTransGen.tail (h.reach v (Or.inr ((hmw v).mpr (Or.inl hv)))) hxv
  · show s ∈ st.out ++ cur ∨ s ∈ work
    rw [List.mem_append, hmw2]
    rcases h.start with hs | hs
    · exact Or.inl (Or.inl hs)
    · rcases (hmw s).mp hs with hs | hs
      · exact Or.inl (Or.inr hs)
      · exact Or.inr (Or.inl hs)

/-- When the work list is empty the printed nodes are the nodes reached from
the start, provided none of them was marked beforehand. -/
theorem winv_final {adj : Adj} {vis0 : Visited} {s : Nat} {st : TState}
    (h : WInv adj vis0 s st) (hw : st.work = [])
    (hfree : ∀ x, Reach adj s x → vis0 x = false) (x : Nat) :
    x ∈ st.out ↔ Reach adj s x := by
  constructor
  · intro hx
    exact h.reach x (Or.inl hx)
  · intro hx
    induction hx with
    | refl =>
      rcases h.start with hs | hs
      · exact hs
      · rw [hw] at hs; cases hs
    | tail hab hbc ih =>
      rename_i b c
      have hv := h.closed b ih c hbc
      rw [h.vis_iff, hw] at hv
      rcases hv with hv | hv | hv
      · rw [hfree c (Relation.ReflTransGen.tail hab hbc)] at hv; cases hv
      · exact hv
      · cases hv

theorem winv_length_le {adj : Adj} {vis0 : Visited} {s : Nat} {st : TState}
    (h : WInv adj vis0 s st) (U : List Nat) (hU : ∀ x, Reach adj s x → x ∈ U) :
    st.out.length + st.work.length ≤ U.length := by
  rw [← List.length_append]
  exact (h.nodup.subperm (fun x hx => hU x (h.reach x (List.mem_append.mp hx)))).length_le

end BfsDfs

namespace BfsDfs

/-! ## Termination and result of the two loops -/

theorem bfsIter_eq (adj : Adj) (st : TState) :
    bfsIter adj st =
      { visited := ((st.work.flatMap adj).foldl bfsVisit (st.visited, [])).1,
        work := ((st.work.flatMap adj).foldl bfsVisit (st.visited, [])).2,
        out := st.out ++ st.work } := by
  unfold bfsIter
  rw [bfsIterWith_eq, bfsExpand_eq_scan]

theorem winv_bfsIter {adj : Adj} {vis0 : Visited} {s : Nat} {st : TState}
    (h : WInv adj vis0 s st) : WInv adj vis0 s (bfsIter adj st) := by
  rw [bfsIter_eq]
  exact winv_round h st.work [] _ (by simp) (by simp)

theorem dfsIter_eq (adj : Adj) (st : TState) (v : Nat) (rest : List Nat)
    (hw : st.work = v :: rest) :
    dfsIter adj st =
      { visited := (([v].flatMap adj).foldl bfsVisit (st.visited, [])).1,
        work := (([v].flatMap adj).foldl bfsVisit (st.visited, [])).2.reverse ++ rest,
        out := st.out ++ [v] } := by
  unfold dfsIter
  rw [hw]
  simp only [dfsExpand, dfsVisit_eq_bfsVisit, pushAll_eq, List.flatMap_cons, List.flatMap_nil,
    List.append_nil]

theorem winv_dfsIter {adj : Adj} {vis0 : Visited} {s : Nat} {st : TState}
    (h : WInv adj vis0 s st) (hw : st.work ≠ []) : WInv adj vis0 s (dfsIter adj st) := by
  obtain ⟨v, rest, hvr⟩ := List.exists_cons_of_ne_nil hw
  rw [dfsIter_eq adj st v rest hvr]
  refine winv_round h [v] rest _ (by rw [hvr]; rfl) ?_
  exact (List.perm_append_comm).trans (List.Perm.append_left _ (List.reverse_perm _))

theorem bfsIter_out_length (adj : Adj) (st : TState) (hw : st.work ≠ []) :
    st.out.length + 1 ≤ (bfsIter adj st).out.length := by
  rw [bfsIter_eq]
  simp only [List.length_append]
  have := List.length_pos.mpr hw
  omega

theorem dfsIter_out_length (adj : Adj) (st : TState) (hw : st.work ≠ []) :
    (dfsIter adj st).out.length = st.out.length + 1 := by
  obtain ⟨v, rest, hvr⟩ := List.exists_cons_of_ne_nil hw
  rw [dfsIter_eq adj st v rest hvr]
  simp

/-- With more fuel than there are nodes to reach, the loop of `parallel_bfs`
ends with an empty queue, and the invariant holds at the end. -/
theorem bfsLoop_terminates (adj : Adj) (vis0 : Visited) (s : Nat) (U : List Nat)
    (hU : ∀ x, Reach adj s x → x ∈ U) (fuel : Nat) (st : TState)
    (h : WInv adj vis0 s st) (hfuel : U.length + 1 ≤ fuel + st.out.length) :
    ∃ fin, bfsLoop adj fuel st = some fin ∧ fin.work = [] ∧ WInv adj vis0 s fin := by
  induction fuel generalizing st with
  | zero =>
    have := winv_length_le h U hU
    omega
  | succ fuel ih =>
    unfold bfsLoop
    by_cases hw : st.work = []
    · exact ⟨st, by simp [hw], hw, h⟩
    · have he : st.work.isEmpty = false := by simpa using hw
      rw [he]
      simp only [Bool.false_eq_true, if_false]
      apply ih _ (winv_bfsIter h)
      have := bfsIter_out_length adj st hw
      omega

/-- With more fuel than there are nodes to reach, the loop of `parallel_dfs`
ends with an empty stack, and the invariant holds at the end. -/
theorem dfsLoop_terminates (adj : Adj) (vis0 : Visited) (s : Nat) (U : List Nat)
    (hU : ∀ x, Reach adj s x → x ∈ U) (fuel : Nat) (st : TState)
    (h : WInv adj vis0 s st) (hfuel : U.length + 1 ≤ fuel + st.out.length) :
    ∃ fin, dfsLoop adj fuel st = some fin ∧ fin.work = [] ∧ WInv adj vis0 s fin := by
  induction fuel generalizing st with
  | zero =>
    have := winv_length_le h U hU
    omega
  | succ fuel ih =>
    unfold dfsLoop
    by_cases hw : st.work = []
    · exact ⟨st, by simp [hw], hw, h⟩
    · have he : st.work.isEmpty = false := by simpa using hw
      rw [he]
      simp only [Bool.false_eq_true, if_false]
      apply ih _ (winv_dfsIter h hw)
      have := dfsIter_out_length adj st hw
      omega

/-- What a completed traversal from `s` on the array `vis0` returns. -/
theorem traversal_result {adj : Adj} {vis0 : Visited} {s : Nat} {fin : TState}
    (h : WInv adj vis0 s fin) (hw : fin.work = [])
    (hfree : ∀ x, Reach adj s x → vis0 x = false) :
    fin.out.Nodup ∧ (∀ x, x ∈ fin.out ↔ Reach adj s x) ∧
      ∀ x, fin.visited x = true ↔ vis0 x = true ∨ Reach adj s x := by
  refine ⟨?_, winv_final h hw hfree, fun x => ?_⟩
  · have := h.nodup
    rwa [hw, List.append_nil] at this
  · rw [h.vis_iff, hw, winv_final h hw hfree]
    simp

theorem parallel_bfs_spec (adj : Adj) (vis0 : Visited) (s : Nat) (U : List Nat)
    (hU : ∀ x, Reach adj s x → x ∈ U) (hfree : ∀ x, Reach adj s x → vis0 x = false)
    (fuel : Nat) (hfuel : U.length + 1 ≤ fuel) :
    ∃ vis out, parallel_bfs adj fuel s vis0 = some (vis, out) ∧ out.Nodup ∧
      (∀ x, x ∈ out ↔ Reach adj s x) ∧
      ∀ x, vis x = true ↔ vis0 x = true ∨ Reach adj s x := by
  have h0 := winv_init adj vis0 s (hfree s Relation.ReflTransGen.refl)
  obtain ⟨fin, h1, h2, h3⟩ := bfsLoop_terminates adj vis0 s U hU fuel _ h0 (by simp [initState]; omega)
  refine ⟨fin.visited, fin.out, ?_, traversal_result h3 h2 hfree⟩
  unfold parallel_bfs
  rw [h1]; rfl

theorem parallel_dfs_spec (adj : Adj) (vis0 : Visited) (s : Nat) (U : List Nat)
    (hU : ∀ x, Reach adj s x → x ∈ U) (hfree : ∀ x, Reach adj s x → vis0 x = false)
    (fuel : Nat) (hfuel : U.length + 1 ≤ fuel) :
    ∃ vis out, parallel_dfs adj fuel s vis0 = some (vis, out) ∧ out.Nodup ∧
      (∀ x, x ∈ out ↔ Reach adj s x) ∧
      ∀ x, vis x = true ↔ vis0 x = true ∨ Reach adj s x := by
  have h0 := winv_init adj vis0 s (hfree s Relation.ReflTransGen.refl)
  obtain ⟨fin, h1, h2, h3⟩ := dfsLoop_terminates adj vis0 s U hU fuel _ h0 (by simp [initState]; omega)
  refine ⟨fin.visited, fin.out, ?_, traversal_result h3 h2 hfree⟩
  unfold parallel_dfs
  rw [h1]; rfl

/-! ## The graph built from the input pairs -/

theorem mem_pushNeighbor (adj : Adj) (u v a b : Nat) :
    b ∈ pushNeighbor adj u v a ↔ b ∈ adj a ∨ (a = u ∧ b = v) := by
  unfold pushNeighbor
  by_cases h : a = u <;> simp [h]

theorem mem_addEdge (adj : Adj) (e : Nat × Nat) (a b : Nat) :
    b ∈ addEdge adj e a ↔ b ∈ adj a ∨ (a = e.1 ∧ b = e.2) ∨ (a = e.2 ∧ b = e.1) := by
  unfold addEdge
  rw [mem_pushNeighbor, mem_pushNeighbor]
  tauto

theorem mem_readEdges (edges : List (Nat × Nat)) (adj : Adj) (a b : Nat) :
    b ∈ readEdges adj edges a ↔ b ∈ adj a ∨ Linked edges a b := by
  unfold readEdges
  induction edges generalizing adj with
  | nil => simp [Linked]
  | cons e edges ih =>
    rw [List.foldl_cons, ih, mem_addEdge]
    unfold Linked
    simp only [List.mem_cons]
    have e1 : (a, b) = e ↔ a = e.1 ∧ b = e.2 := by
      constructor
      · rintro rfl; exact ⟨rfl, rfl⟩
      · rintro ⟨rfl, rfl⟩; rfl
    have e2 : (b, a) = e ↔ a = e.2 ∧ b = e.1 := by
      constructor
      · rintro rfl; exact ⟨rfl, rfl⟩
      · rintro ⟨rfl, rfl⟩; rfl
    rw [e1, e2]
    tauto

theorem mem_buildGraph (edges : List (Nat × Nat)) (a b : Nat) :
    b ∈ buildGraph edges a ↔ Linked edges a b := by
  unfold buildGraph
  rw [mem_readEdges]
  simp [emptyAdj]

theorem reach_buildGraph (edges : List (Nat × Nat)) (s x : Nat) :
    Reach (buildGraph edges) s x ↔ InComponent edges s x := by
  unfold Reach InComponent
  constructor
  · exact Relation.ReflTransGen.mono (fun a b h => (mem_buildGraph edges a b).mp h)
  · exact Relation.ReflTransGen.mono (fun a b h => (mem_buildGraph edges a b).mpr h)

theorem linked_symm {edges : List (Nat × Nat)} {a b : Nat} (h : Linked edges a b) :
    Linked edges b a := Or.symm h

theorem inComponent_symm {edges : List (Nat × Nat)} {a b : Nat} (h : InComponent edges a b) :
    InComponent edges b a := by
  induction h with
  | refl => exact Relation.ReflTransGen.refl
  | tail _ hbc ih => exact Relation.ReflTransGen.head (linked_symm hbc) ih

theorem linked_bounds {n : Nat} {edges : List (Nat × Nat)} (hE : EndpointsIn n edges)
    {a b : Nat} (h : Linked edges a b) : (1 ≤ a ∧ a ≤ n) ∧ (1 ≤ b ∧ b ≤ n) := by
  rcases h with h | h
  · exact hE _ h
  · exact ⟨(hE _ h).2, (hE _ h).1⟩

theorem inComponent_bounds {n : Nat} {edges : List (Nat × Nat)} (hE : EndpointsIn n edges)
    {s x : Nat} (hs : 1 ≤ s ∧ s ≤ n) (h : InComponent edges s x) : 1 ≤ x ∧ x ≤ n := by
  induction h with
  | refl => exact hs
  | tail _ hbc _ => exact (linked_bounds hE hbc).2

theorem reach_in_range {n : Nat} {edges : List (Nat × Nat)} (hE : EndpointsIn n edges)
    {s : Nat} (hs : 1 ≤ s ∧ s ≤ n) (x : Nat) (h : Reach (buildGraph edges) s x) :
    x ∈ List.range' 1 n := by
  have := inComponent_bounds hE hs ((reach_buildGraph edges s x).mp h)
  rw [List.mem_range'_1]
  omega

theorem reach_of_no_neighbours {adj : Adj} {s x : Nat} (h0 : adj s = [])
    (h : Reach adj s x) : x = s := by
  induction h with
  | refl => rfl
  | tail _ hbc ih =>
    rw [ih] at hbc
    unfold Edge at hbc
    rw [h0] at hbc
    cases hbc

theorem eq_singleton_of_nodup {l : List Nat} {s : Nat} (hn : l.Nodup)
    (hm : ∀ x, x ∈ l ↔ x = s) : l = [s] := by
  have h1 : l.Perm [s] := by
    rw [List.perm_ext_iff_of_nodup hn (List.nodup_singleton s)]
    intro x; rw [hm]; simp
  exact List.perm_singleton.mp h1

/-! ## C1, C2: the traversals print the connected component, without repetition -/

/-- C1: on a graph built from input pairs with endpoints in `[1, n]`, and a
start `s` in `[1, n]`, `parallel_bfs` run on an all-false `visited` array (with
fuel above `n`) returns; its output has no repeated node, its nodes are
exactly the connected component of `s`, and it is `[s]` when `s` has no
neighbour. -/
theorem C1_parallel_bfs_component (n : Nat) (edges : List (Nat × Nat)) (s : Nat)
    (hE : EndpointsIn n edges) (hs : 1 ≤ s ∧ s ≤ n) (fuel : Nat) (hfuel : n + 1 ≤ fuel) :
    ∃ vis out, parallel_bfs (buildGraph edges) fuel s allFalse = some (vis, out) ∧
      out.Nodup ∧ (∀ x, x ∈ out ↔ InComponent edges s x) ∧
      (buildGraph edges s = [] → out = [s]) := by
  obtain ⟨vis, out, h1, h2, h3, _⟩ :=
    parallel_bfs_spec (buildGraph edges) allFalse s (List.range' 1 n)
      (reach_in_range hE hs) (fun _ _ => rfl) fuel (by simpa using hfuel)
  refine ⟨vis, out, h1, h2, fun x => by rw [h3, reach_buildGraph], fun h0 => ?_⟩
  refine eq_singleton_of_nodup h2 (fun x => ?_)
  rw [h3]
  constructor
  · exact reach_of_no_neighbours h0
  · rintro rfl; exact Relation.ReflTransGen.refl

/-- C1 at the boundary input N = 1, M = 0, start 1: the output is `[1]`. -/
theorem C1_parallel_bfs_component_witness :
    ∃ vis out, parallel_bfs (buildGraph []) 2 1 allFalse = some (vis, out) ∧
      out.Nodup ∧ (∀ x, x ∈ out ↔ InComponent [] 1 x) ∧
      (buildGraph [] 1 = [] → out = [1]) :=
  C1_parallel_bfs_component 1 [] 1 (by intro e he; cases he) (by decide) 2 (by decide)

/-- C2: on a graph built from input pairs with endpoints in `[1, n]`, and a
start `s` in `[1, n]`, `parallel_dfs` run on an all-false `visited` array (with
fuel above `n`) returns; its output has no repeated node and its nodes are
exactly the connected component of `s`. -/
theorem C2_parallel_dfs_component (n : Nat) (edges : List (Nat × Nat)) (s : Nat)
    (hE : EndpointsIn n edges) (hs : 1 ≤ s ∧ s ≤ n) (fuel : Nat) (hfuel : n + 1 ≤ fuel) :
    ∃ vis out, parallel_dfs (buildGraph edges) fuel s allFalse = some (vis, out) ∧
      out.Nodup ∧ (∀ x, x ∈ out ↔ InComponent edges s x) := by
  obtain ⟨vis, out, h1, h2, h3, _⟩ :=
    parallel_dfs_spec (buildGraph edges) allFalse s (List.range' 1 n)
      (reach_in_range hE hs) (fun _ _ => rfl) fuel (by simpa using hfuel)
  exact ⟨vis, out, h1, h2, fun x => by rw [h3, reach_buildGraph]⟩

/-- C2 on the graph with edges (1,2), (1,3), (3,4) and start 1. -/
theorem C2_parallel_dfs_component_witness :
    ∃ vis out, parallel_dfs (buildGraph [(1, 2), (1, 3), (3, 4)]) 5 1 allFalse = some (vis, out) ∧
      out.Nodup ∧ (∀ x, x ∈ out ↔ InComponent [(1, 2), (1, 3), (3, 4)] 1 x) :=
  C2_parallel_dfs_component 4 [(1, 2), (1, 3), (3, 4)] 1 (by decide) (by decide) 5 (by decide)

end BfsDfs

namespace BfsDfs

/-! ## C3: the output of `parallel_bfs` is ordered by distance -/

theorem hasDist_le {adj : Adj} {s x d j : Nat} (h : HasDist adj s x d)
    (hj : x ∈ walkEnds adj s j) : d ≤ j := by
  by_contra hlt
  exact h.2 j (by omega) hj

theorem exists_hasDist {adj : Adj} {s x j : Nat} (hj : x ∈ walkEnds adj s j) :
    ∃ d, HasDist adj s x d := by
  have hex : ∃ d, x ∈ walkEnds adj s d := ⟨j, hj⟩
  refine ⟨Nat.find hex, Nat.find_spec hex, fun i hi => ?_⟩
  exact Nat.find_min hex hi

theorem levelInv_init (adj : Adj) (s : Nat) : LevelInv adj s 0 (initState allFalse s) where
  out_iff := fun x => by simp [initState]
  work_sub := fun x hx => by simpa [initState, walkEnds] using hx
  cover := fun x hx => by simpa [initState, walkEnds] using hx
  sorted := by simp [initState]

theorem levelInv_bfsIter {adj : Adj} {s k : Nat} {st : TState}
    (hw : WInv adj allFalse s st) (h : LevelInv adj s k st) :
    LevelInv adj s (k + 1) (bfsIter adj st) := by
  obtain ⟨fresh, hf1, hf2, hf3⟩ := scan_collected (st.work.flatMap adj) (st.visited, [])
  simp only [List.nil_append] at hf1 hf3
  have hvis : ∀ x, st.visited x = true ↔ x ∈ st.out ∨ x ∈ st.work := fun x => by
    rw [hw.vis_iff]; simp [allFalse]
  have hout : ∀ x, x ∈ st.out ++ st.work ↔ ∃ j, j < k + 1 ∧ x ∈ walkEnds adj s j := by
    intro x
    rw [List.mem_append, h.out_iff]
    constructor
    · rintro (⟨j, hj, hx⟩ | hx)
      · exact ⟨j, by omega, hx⟩
      · exact ⟨k, by omega, h.work_sub x hx⟩
    · rintro ⟨j, hj, hx⟩
      by_cases hjk : j < k
      · exact Or.inl ⟨j, hjk, hx⟩
      · have : j = k := by omega
        subst this
        rcases h.cover x hx with h1 | h1
        · exact Or.inl ((h.out_iff x).mp h1)
        · exact Or.inr h1
  have hlow : ∀ w, w ∈ st.work → ∀ dw, HasDist adj s w dw → k ≤ dw := by
    intro w hwk dw hd
    by_contra hlt
    have hwo : w ∈ st.out := (h.out_iff w).mpr ⟨dw, by omega, hd.1⟩
    exact (List.nodup_append.mp hw.nodup).2.2 hwo hwk
  rw [bfsIter_eq, hf1]
  constructor
  · exact hout
  · intro x hx
    show x ∈ (walkEnds adj s k).flatMap adj
    obtain ⟨v, hv, hxv⟩ := List.mem_flatMap.mp ((hf3 x).mp hx).1
    exact List.mem_flatMap.mpr ⟨v, h.work_sub v hv, hxv⟩
  · intro x hx
    show x ∈ st.out ++ st.work ∨ x ∈ fresh
    obtain ⟨v, hv, hxv⟩ := List.mem_flatMap.mp hx
    by_cases hvx : st.visited x = true
    · exact Or.inl (List.mem_append.mpr ((hvis x).mp hvx))
    · have hvx2 : st.visited x = false := by simpa using hvx
      rcases h.cover v hv with h1 | h1
      · exact absurd (hw.closed v h1 x hxv) hvx
      · exact Or.inr ((hf3 x).mpr ⟨List.mem_flatMap.mpr ⟨v, h1, hxv⟩, hvx2⟩)
  · show (st.out ++ st.work).Pairwise _
    rw [List.pairwise_append]
    refine ⟨h.sorted, ?_, ?_⟩
    · refine List.Pairwise.imp_of_mem ?_ (List.pairwise_of_forall (fun _ _ => trivial))
      intro u w hu hw2 _ du dw hdu hdw
      have h1 := hasDist_le hdu (h.work_sub u hu)
      have h2 := hlow w hw2 dw hdw
      omega
    · intro u hu w hw2 du dw hdu hdw
      obtain ⟨j, hj, hx⟩ := (h.out_iff u).mp hu
      have h1 := hasDist_le hdu hx
      have h2 := hlow w hw2 dw hdw
      omega

theorem bfsLoop_levels (adj : Adj) (s : Nat) (fuel : Nat) (st fin : TState) (k : Nat)
    (hw : WInv adj allFalse s st) (h : LevelInv adj s k st)
    (hrun : bfsLoop adj fuel st = some fin) : ∃ k2, LevelInv adj s k2 fin := by
  induction fuel generalizing st k with
  | zero => simp [bfsLoop] at hrun
  | succ fuel ih =>
    unfold bfsLoop at hrun
    by_cases he : st.work.isEmpty = true
    · rw [he] at hrun
      simp only [if_true, Option.some.injEq] at hrun
      exact ⟨k, hrun ▸ h⟩
    · simp only [he, Bool.false_eq_true, if_false] at hrun
      exact ih _ (k + 1) (winv_bfsIter hw) (levelInv_bfsIter hw h) hrun

end BfsDfs

namespace BfsDfs

/-! ## C4: the levels of `parallel_bfs` do not depend on the schedule -/

theorem interleave_mem {ls : List (List Nat)} {sched : List Nat} (h : Interleave ls sched)
    (x : Nat) : x ∈ sched ↔ ∃ l, l ∈ ls ∧ x ∈ l := by
  induction h with
  | done ls hnil =>
    constructor
    · intro hx; cases hx
    · rintro ⟨l, hl, hx⟩
      rw [hnil l hl] at hx; cases hx
  | step pre post u rest sched _ ih =>
    rw [List.mem_cons, ih]
    constructor
    · rintro (rfl | ⟨l, hl, hx⟩)
      · exact ⟨x :: rest, by simp, by simp⟩
      · rcases List.mem_append.mp hl with hl | hl
        · exact ⟨l, List.mem_append.mpr (Or.inl hl), hx⟩
        · rcases List.mem_cons.mp hl with hl | hl
          · exact ⟨u :: rest, by simp, by rw [hl] at hx; exact List.mem_cons_of_mem _ hx⟩
          · exact ⟨l, by simp [hl], hx⟩
    · rintro ⟨l, hl, hx⟩
      rcases List.mem_append.mp hl with hl | hl
      · exact Or.inr ⟨l, List.mem_append.mpr (Or.inl hl), hx⟩
      · rcases List.mem_cons.mp hl with hl | hl
        · rw [hl] at hx
          rcases List.mem_cons.mp hx with hx | hx
          · exact Or.inl hx
          · exact Or.inr ⟨rest, by simp, hx⟩
        · exact Or.inr ⟨l, by simp [hl], hx⟩

theorem interleave_mem_adj {adj : Adj} {cur sched : List Nat}
    (h : Interleave (cur.map adj) sched) (x : Nat) :
    x ∈ sched ↔ ∃ v, v ∈ cur ∧ x ∈ adj v := by
  rw [interleave_mem h]
  constructor
  · rintro ⟨l, hl, hx⟩
    obtain ⟨v, hv, rfl⟩ := List.mem_map.mp hl
    exact ⟨v, hv, hx⟩
  · rintro ⟨v, hv, hx⟩
    exact ⟨adj v, List.mem_map.mpr ⟨v, hv, rfl⟩, hx⟩

/-- What one level leaves in `next_level` and in `visited`, for any schedule
of its critical sections. -/
theorem bfsExpandSched_spec {adj : Adj} {cur sched : List Nat}
    (h : Interleave (cur.map adj) sched) (vis : Visited) :
    (bfsExpandSched sched vis).2.Nodup ∧
      (∀ x, x ∈ (bfsExpandSched sched vis).2 ↔ vis x = false ∧ ∃ v, v ∈ cur ∧ x ∈ adj v) ∧
      ∀ x, (bfsExpandSched sched vis).1 x = true ↔ vis x = true ∨ ∃ v, v ∈ cur ∧ x ∈ adj v := by
  unfold bfsExpandSched
  obtain ⟨fresh, hf1, hf2, hf3⟩ := scan_collected sched (vis, [])
  simp only [List.nil_append] at hf1 hf3
  rw [hf1]
  refine ⟨hf2, fun x => ?_, fun x => ?_⟩
  · rw [hf3, interleave_mem_adj h]; tauto
  · rw [scan_visited, interleave_mem_adj h]

/-- Two runs of `parallel_bfs` under any two schedules, from states that
agree as sets, drain the same levels as sets and print the same set. -/
theorem bfsSchedRun_sets (adj : Adj) (st1 : TState) (ls1 : List (List Nat)) (f1 : TState)
    (h1 : BfsSchedRun adj st1 ls1 f1) :
    ∀ (st2 : TState) (ls2 : List (List Nat)) (f2 : TState), BfsSchedRun adj st2 ls2 f2 →
      (∀ x, st1.visited x = st2.visited x) → (∀ x, x ∈ st1.work ↔ x ∈ st2.work) →
      (∀ x, x ∈ st1.out ↔ x ∈ st2.out) →
      List.Forall₂ (fun a b => ∀ x, x ∈ a ↔ x ∈ b) ls1 ls2 ∧ ∀ x, x ∈ f1.out ↔ x ∈ f2.out := by
  induction h1 with
  | done st1 hw1 =>
    intro st2 ls2 f2 h2 _ hwk hout
    cases h2 with
    | done _ _ => exact ⟨List.Forall₂.nil, hout⟩
    | step _ sched levels _ hne _ _ =>
      obtain ⟨v, rest, hvr⟩ := List.exists_cons_of_ne_nil hne
      have : v ∈ st1.work := (hwk v).mpr (by rw [hvr]; simp)
      rw [hw1] at this; cases this
  | step st1 sched1 levels1 f1 hne1 hi1 _ ih =>
    intro st2 ls2 f2 h2 hvis hwk hout
    cases h2 with
    | done _ hw2 =>
      obtain ⟨v, rest, hvr⟩ := List.exists_cons_of_ne_nil hne1
      have : v ∈ st2.work := (hwk v).mp (by rw [hvr]; simp)
      rw [hw2] at this; cases this
    | step _ sched2 levels2 _ hne2 hi2 hrun2 =>
      have hadj : ∀ x, (∃ v, v ∈ st1.work ∧ x ∈ adj v) ↔ ∃ v, v ∈ st2.work ∧ x ∈ adj v := by
        intro x
        constructor
        · rintro ⟨v, hv, hx⟩; exact ⟨v, (hwk v).mp hv, hx⟩
        · rintro ⟨v, hv, hx⟩; exact ⟨v, (hwk v).mpr hv, hx⟩
      obtain ⟨_, ha2, ha3⟩ := bfsExpandSched_spec hi1 st1.visited
      obtain ⟨_, hb2, hb3⟩ := bfsExpandSched_spec hi2 st2.visited
      have := ih _ _ _ hrun2 ?_ ?_ ?_
      · exact ⟨List.Forall₂.cons hwk this.1, this.2⟩
      · intro x
        rw [bfsIterWith_eq, bfsIterWith_eq, Bool.eq_iff_iff]
        show (bfsExpandSched sched1 st1.visited).1 x = true ↔
          (bfsExpandSched sched2 st2.visited).1 x = true
        rw [ha3, hb3, hadj, hvis]
      · intro x
        rw [bfsIterWith_eq, bfsIterWith_eq]
        show x ∈ (bfsExpandSched sched1 st1.visited).2 ↔ x ∈ (bfsExpandSched sched2 st2.visited).2
        rw [ha2, hb2, hadj, hvis]
      · intro x
        rw [bfsIterWith_eq, bfsIterWith_eq]
        show x ∈ st1.out ++ st1.work ↔ x ∈ st2.out ++ st2.work
        rw [List.mem_append, List.mem_append, hwk, hout]

/-- C4: for every interleaving `sched` of the neighbour scans of the nodes of
`current_level`, `next_level` has no repeated node and holds exactly the nodes
unvisited before the level and adjacent to a node of `current_level`; and any
two runs of `parallel_bfs` from `s` on the same array `vis0`, whatever
interleaving each level takes, drain the same sets level by level and print the same set of nodes. -/
theorem C4_bfs_levels_schedule_independent (adj : Adj) (vis : Visited)
    (cur sched : List Nat) (hsched : Interleave (cur.map adj) sched)
    (vis0 : Visited) (s : Nat) (ls1 ls2 : List (List Nat)) (f1 f2 : TState)
    (h1 : BfsSchedRun adj (initState vis0 s) ls1 f1)
    (h2 : BfsSchedRun adj (initState vis0 s) ls2 f2) :
    ((bfsExpandSched sched vis).2.Nodup ∧
      ∀ x, x ∈ (bfsExpandSched sched vis).2 ↔ vis x = false ∧ ∃ v, v ∈ cur ∧ x ∈ adj v) ∧
    (List.Forall₂ (fun a b => ∀ x, x ∈ a ↔ x ∈ b) ls1 ls2 ∧ ∀ x, x ∈ f1.out ↔ x ∈ f2.out) := by
  obtain ⟨ha, hb, _⟩ := bfsExpandSched_spec hsched vis
  exact ⟨⟨ha, hb⟩,
    bfsSchedRun_sets adj _ ls1 f1 h1 _ ls2 f2 h2 (fun _ => rfl) (fun _ => Iff.rfl) (fun _ => Iff.rfl)⟩

/-- C4 on the graph with edges (1,2), (1,3), (2,4), (3,5): the level [2, 3]
under the schedule that scans node 3 first, and two runs from node 1 whose
third levels are [4, 5] and [5, 4]. -/
theorem C4_bfs_levels_schedule_independent_witness :
    ∃ f1 f2 : TState,
      Interleave ([2, 3].map (buildGraph [(1, 2), (1, 3), (2, 4), (3, 5)])) [1, 5, 1, 4] ∧
      BfsSchedRun (buildGraph [(1, 2), (1, 3), (2, 4), (3, 5)]) (initState allFalse 1)
        [[1], [2, 3], [4, 5]] f1 ∧
      BfsSchedRun (buildGraph [(1, 2), (1, 3), (2, 4), (3, 5)]) (initState allFalse 1)
        [[1], [2, 3], [5, 4]] f2 ∧
      (((bfsExpandSched [1, 5, 1, 4] (markVisited (markVisited (markVisited allFalse 1) 2) 3)).2.Nodup ∧
        ∀ x, x ∈ (bfsExpandSched [1, 5, 1, 4] (markVisited (markVisited (markVisited allFalse 1) 2) 3)).2 ↔
          (markVisited (markVisited (markVisited allFalse 1) 2) 3) x = false ∧
            ∃ v, v ∈ [2, 3] ∧ x ∈ buildGraph [(1, 2), (1, 3), (2, 4), (3, 5)] v) ∧
      (List.Forall₂ (fun a b => ∀ x, x ∈ a ↔ x ∈ b) [[1], [2, 3], [4, 5]] [[1], [2, 3], [5, 4]] ∧
        ∀ x, x ∈ f1.out ↔ x ∈ f2.out)) := by
  have hi : Interleave ([2, 3].map (buildGraph [(1, 2), (1, 3), (2, 4), (3, 5)])) [1, 5, 1, 4] :=
    Interleave.step [[1, 4]] [] 1 [5] _ (Interleave.step [[1, 4]] [] 5 [] _
      (Interleave.step [] [[]] 1 [4] _ (Interleave.step [] [[]] 4 [] _
        (Interleave.done _ (by decide)))))
  have hl0 : Interleave ([1].map (buildGraph [(1, 2), (1, 3), (2, 4), (3, 5)])) [2, 3] :=
    Interleave.step [] [] 2 [3] _ (Interleave.step [] [] 3 [] _ (Interleave.done _ (by decide)))
  have hA1 : Interleave ([2, 3].map (buildGraph [(1, 2), (1, 3), (2, 4), (3, 5)])) [1, 4, 1, 5] :=
    Interleave.step [] [[1, 5]] 1 [4] _ (Interleave.step [] [[1, 5]] 4 [] _
      (Interleave.step [[]] [] 1 [5] _ (Interleave.step [[]] [] 5 [] _
        (Interleave.done _ (by decide)))))
  have hA2 : Interleave ([4, 5].map (buildGraph [(1, 2), (1, 3), (2, 4), (3, 5)])) [2, 3] :=
    Interleave.step [] [[3]] 2 [] _ (Interleave.step [[]] [] 3 [] _ (Interleave.done _ (by decide)))
  have hB2 : Interleave ([5, 4].map (buildGraph [(1, 2), (1, 3), (2, 4), (3, 5)])) [2, 3] :=
    Interleave.step [[3]] [] 2 [] _ (Interleave.step [] [[]] 3 [] _ (Interleave.done _ (by decide)))
  have r1 : BfsSchedRun (buildGraph [(1, 2), (1, 3), (2, 4), (3, 5)]) (initState allFalse 1)
      [[1], [2, 3], [4, 5]] _ :=
    BfsSchedRun.step _ [2, 3] _ _ (by decide) hl0
      (BfsSchedRun.step _ [1, 4, 1, 5] _ _ (by decide) hA1
        (BfsSchedRun.step _ [2, 3] _ _ (by decide) hA2 (BfsSchedRun.done _ (by decide))))
  have r2 : BfsSchedRun (buildGraph [(1, 2), (1, 3), (2, 4), (3, 5)]) (initState allFalse 1)
      [[1], [2, 3], [5, 4]] _ :=
    BfsSchedRun.step _ [2, 3] _ _ (by decide) hl0
      (BfsSchedRun.step _ [1, 5, 1, 4] _ _ (by decide) hi
        (BfsSchedRun.step _ [2, 3] _ _ (by decide) hB2 (BfsSchedRun.done _ (by decide))))
  exact ⟨_, _, hi, r1, r2, C4_bfs_levels_schedule_independent _ _ _ _ hi _ 1 _ _ _ _ r1 r2⟩

end BfsDfs

namespace BfsDfs

/-! ## `reset_visited` and the component sweep of `main` -/

theorem resetLoop_apply (k i : Nat) (vis : Visited) (x : Nat) :
    resetLoop k i vis x = if i ≤ x ∧ x < i + k then false else vis x := by
  induction k generalizing i vis with
  | zero =>
    have : ¬ (i ≤ x ∧ x < i + 0) := by omega
    rw [if_neg this]
    rfl
  | succ k ih =>
    rw [resetLoop, ih]
    unfold clearVisited
    by_cases h1 : i + 1 ≤ x ∧ x < i + 1 + k
    · have h2 : i ≤ x ∧ x < i + (k + 1) := by omega
      simp [h1, h2]
    · by_cases h3 : x = i
      · have h2 : i ≤ x ∧ x < i + (k + 1) := by omega
        simp [h1, h2, h3]
      · have h2 : ¬ (i ≤ x ∧ x < i + (k + 1)) := by omega
        simp [h1, h2, h3]

theorem reset_visited_apply (n : Nat) (vis : Visited) (x : Nat) :
    reset_visited n vis x = if 1 ≤ x ∧ x ≤ n then false else vis x := by
  unfold reset_visited
  rw [resetLoop_apply]
  by_cases h : 1 ≤ x ∧ x ≤ n
  · have h2 : 1 ≤ x ∧ x < 1 + n := by omega
    simp [h, h2]
  · have h2 : ¬ (1 ≤ x ∧ x < 1 + n) := by omega
    simp [h, h2]

theorem reach_symm {adj : Adj} (hsym : ∀ x y, y ∈ adj x → x ∈ adj y) {a b : Nat}
    (h : Reach adj a b) : Reach adj b a := by
  induction h with
  | refl => exact Relation.ReflTransGen.refl
  | tail _ hbc ih => exact Relation.ReflTransGen.head (hsym _ _ hbc) ih

theorem reach_range {adj : Adj} {n : Nat}
    (hrng : ∀ x y, y ∈ adj x → (1 ≤ x ∧ x ≤ n) ∧ (1 ≤ y ∧ y ≤ n)) {a b : Nat}
    (h : Reach adj a b) (ha : 1 ≤ a ∧ a ≤ n) : 1 ≤ b ∧ b ≤ n := by
  induction h with
  | refl => exact ha
  | tail _ hbc _ => exact (hrng _ _ hbc).2

theorem reach_ne_neighbours {adj : Adj} {a b : Nat} (h : Reach adj a b) (hne : a ≠ b) :
    adj a ≠ [] := by
  rcases Relation.ReflTransGen.cases_head h with h1 | ⟨c, hc, _⟩
  · exact absurd h1 hne
  · intro h0
    unfold Edge at hc
    rw [h0] at hc; cases hc

theorem runAgain_spec (adj : Adj) (vis0 : Visited) (i : Nat) (U : List Nat)
    (hU : ∀ x, Reach adj i x → x ∈ U) (hfree : ∀ x, Reach adj i x → vis0 x = false)
    (fuel : Nat) (hfuel : U.length + 1 ≤ fuel) (choice : Nat) :
    ∃ vis out, runAgain adj fuel choice i vis0 = some (vis, out) ∧ out.Nodup ∧
      (∀ x, x ∈ out ↔ Reach adj i x) ∧
      ∀ x, vis x = true ↔ vis0 x = true ∨ Reach adj i x := by
  unfold runAgain
  by_cases hc : choice = 1
  · simp only [hc, if_true]
    exact parallel_bfs_spec adj vis0 i U hU hfree fuel hfuel
  · simp only [hc, if_false]
    exact parallel_dfs_spec adj vis0 i U hU hfree fuel hfuel

theorem sweepInv_skip {adj : Adj} {vis0 : Visited} {s i : Nat} {r : ChoiceResult}
    (h : SweepInv adj vis0 s i r) (hv0 : vis0 i = false)
    (hskip : adj i ≠ [] → r.visited i = true) : SweepInv adj vis0 s (i + 1) r where
  nodup := h.nodup
  vis_iff := h.vis_iff
  out_iff := h.out_iff
  rs_sorted := h.rs_sorted
  rs_sound := fun j hj => by
    obtain ⟨a, b, c⟩ := h.rs_sound j hj
    exact ⟨a, by omega, c⟩
  rs_complete := fun j h1 h2 h3 h4 h5 => by
    by_cases hji : j < i
    · exact h.rs_complete j h1 hji h3 h4 h5
    · have hj : j = i := by omega
      subst hj
      have hv := hskip h3
      rw [h.vis_iff, hv0] at hv
      rcases hv with hv | hv
      · cases hv
      · rcases (h.out_iff j).mp hv with hr | ⟨j2, hj2, hr⟩
        · exact absurd hr h4
        · exact absurd hr (h5 j2 (h.rs_sound j2 hj2).2.1)
  seen := fun j h1 h2 h3 => by
    by_cases hji : j < i
    · exact h.seen j h1 hji h3
    · have hj : j = i := by omega
      subst hj
      exact hskip h3

theorem sweepInv_restart {adj : Adj} {vis0 : Visited} {s i n : Nat} {r : ChoiceResult}
    (hsym : ∀ x y, y ∈ adj x → x ∈ adj y)
    (hrng : ∀ x y, y ∈ adj x → (1 ≤ x ∧ x ≤ n) ∧ (1 ≤ y ∧ y ≤ n))
    (hv0 : ∀ x, 1 ≤ x → x ≤ n → vis0 x = false)
    (h : SweepInv adj vis0 s i r) (hi : 1 ≤ i ∧ i ≤ n)
    (hvi : r.visited i = false) (hai : adj i ≠ [])
    (vis : Visited) (out : List Nat) (hn : out.Nodup) (hout : ∀ x, x ∈ out ↔ Reach adj i x)
    (hvis : ∀ x, vis x = true ↔ r.visited x = true ∨ Reach adj i x) :
    SweepInv adj vis0 s (i + 1)
      { visited := vis, out := r.out ++ out, restarts := r.restarts ++ [i] } := by
  have hnot : i ∉ r.out := fun hm => by
    have := (h.vis_iff i).mpr (Or.inr hm)
    rw [hvi] at this; cases this
  have hdisj : ∀ x, x ∈ r.out → ¬ Reach adj i x := by
    intro x hx hr
    apply hnot
    rw [h.out_iff] at hx ⊢
    rcases hx with hx | ⟨j, hj, hx⟩
    · exact Or.inl (hx.trans (reach_symm hsym hr))
    · exact Or.inr ⟨j, hj, hx.trans (reach_symm hsym hr)⟩
  constructor
  · show (r.out ++ out).Nodup
    rw [List.nodup_append]
    exact ⟨h.nodup, hn, fun x hx hx2 => hdisj x hx ((hout x).mp hx2)⟩
  · intro x
    show vis x = true ↔ vis0 x = true ∨ x ∈ r.out ++ out
    rw [hvis, h.vis_iff, List.mem_append, hout]
    tauto
  · intro x
    show x ∈ r.out ++ out ↔ Reach adj s x ∨ ∃ j, j ∈ r.restarts ++ [i] ∧ Reach adj j x
    rw [List.mem_append, h.out_iff, hout]
    constructor
    · rintro ((hx | ⟨j, hj, hx⟩) | hx)
      · exact Or.inl hx
      · exact Or.inr ⟨j, List.mem_append.mpr (Or.inl hj), hx⟩
      · exact Or.inr ⟨i, by simp, hx⟩
    · rintro (hx | ⟨j, hj, hx⟩)
      · exact Or.inl (Or.inl hx)
      · rcases List.mem_append.mp hj with hj | hj
        · exact Or.inl (Or.inr ⟨j, hj, hx⟩)
        · rw [List.mem_singleton] at hj
          rw [hj] at hx
          exact Or.inr hx
  · show (r.restarts ++ [i]).Pairwise _
    rw [List.pairwise_append]
    refine ⟨h.rs_sorted, List.pairwise_singleton _ _, fun a ha b hb => ?_⟩
    rw [List.mem_singleton] at hb
    rw [hb]
    exact (h.rs_sound a ha).2.1
  · intro j hj
    rcases List.mem_append.mp hj with hj | hj
    · obtain ⟨a, b, c⟩ := h.rs_sound j hj
      exact ⟨a, by omega, c⟩
    · rw [List.mem_singleton] at hj
      subst hj
      refine ⟨hi.1, by omega, hai, fun hr => hnot ((h.out_iff j).mpr (Or.inl hr)), ?_⟩
      intro j2 hj2 hr
      have hne : j2 ≠ j := by omega
      have hnb := reach_ne_neighbours hr hne
      obtain ⟨c, hc⟩ := List.exists_mem_of_ne_nil _ hnb
      have hb := (hrng j2 c hc).1
      have hseen := h.seen j2 hb.1 hj2 hnb
      rw [h.vis_iff] at hseen
      rcases hseen with hseen | hseen
      · rw [hv0 j2 hb.1 hb.2] at hseen; cases hseen
      · exact hdisj j2 hseen (reach_symm hsym hr)
  · intro j h1 h2 h3 h4 h5
    by_cases hji : j < i
    · exact List.mem_append.mpr (Or.inl (h.rs_complete j h1 hji h3 h4 h5))
    · have hj : j = i := by omega
      rw [hj]; simp
  · intro j h1 h2 h3
    show vis j = true
    rw [hvis]
    by_cases hji : j < i
    · exact Or.inl (h.seen j h1 hji h3)
    · have hj : j = i := by omega
      rw [hj]; exact Or.inr Relation.ReflTransGen.refl

end BfsDfs

namespace BfsDfs

theorem sweep_free {adj : Adj} {vis0 : Visited} {s i n : Nat} {r : ChoiceResult}
    (hsym : ∀ x y, y ∈ adj x → x ∈ adj y)
    (hrng : ∀ x y, y ∈ adj x → (1 ≤ x ∧ x ≤ n) ∧ (1 ≤ y ∧ y ≤ n))
    (hv0 : ∀ x, 1 ≤ x → x ≤ n → vis0 x = false)
    (h : SweepInv adj vis0 s i r) (hi : 1 ≤ i ∧ i ≤ n) (hvi : r.visited i = false)
    (x : Nat) (hx : Reach adj i x) : r.visited x = false := by
  by_contra hne
  have hv : r.visited x = true := by simpa using hne
  have hxr := reach_range hrng hx hi
  rw [h.vis_iff, hv0 x hxr.1 hxr.2] at hv
  rcases hv with hv | hv
  · cases hv
  · have hi2 : i ∈ r.out := by
      rw [h.out_iff] at hv ⊢
      rcases hv with hv | ⟨j, hj, hv⟩
      · exact Or.inl (hv.trans (reach_symm hsym hx))
      · exact Or.inr ⟨j, hj, hv.trans (reach_symm hsym hx)⟩
    have := (h.vis_iff i).mpr (Or.inr hi2)
    rw [hvi] at this; cases this

/-- The sweep loop returns, and the invariant holds for the index `n + 1`. -/
theorem sweep_spec (adj : Adj) (vis0 : Visited) (s n : Nat)
    (hsym : ∀ x y, y ∈ adj x → x ∈ adj y)
    (hrng : ∀ x y, y ∈ adj x → (1 ≤ x ∧ x ≤ n) ∧ (1 ≤ y ∧ y ≤ n))
    (hv0 : ∀ x, 1 ≤ x → x ≤ n → vis0 x = false)
    (fuel : Nat) (hfuel : n + 1 ≤ fuel) (choice : Nat) (k i : Nat) (r : ChoiceResult)
    (hki : k + i = n + 1) (hi : 1 ≤ i) (h : SweepInv adj vis0 s i r) :
    ∃ r2, sweep adj fuel choice k i r = some r2 ∧ SweepInv adj vis0 s (n + 1) r2 := by
  induction k generalizing i r with
  | zero =>
    have : i = n + 1 := by omega
    subst this
    exact ⟨r, rfl, h⟩
  | succ k ih =>
    have hin : 1 ≤ i ∧ i ≤ n := by omega
    unfold sweep
    by_cases hc : r.visited i = false ∧ adj i ≠ []
    · have hcond : (!r.visited i && !(adj i).isEmpty) = true := by
        simp [hc.1, hc.2]
      rw [if_pos hcond]
      obtain ⟨vis, out, hrun, hn, hout, hvis⟩ :=
        runAgain_spec adj r.visited i (List.range' 1 n)
          (fun x hx => by
            have := reach_range hrng hx hin
            rw [List.mem_range'_1]; omega)
          (sweep_free hsym hrng hv0 h hin hc.1) fuel (by simpa using hfuel) choice
      rw [hrun]
      exact ih (i + 1) _ (by omega) (by omega)
        (sweepInv_restart hsym hrng hv0 h hin hc.1 hc.2 vis out hn hout hvis)
    · have hcond : ¬ ((!r.visited i && !(adj i).isEmpty) = true) := by
        intro hb
        apply hc
        simp only [Bool.and_eq_true, Bool.not_eq_true', List.isEmpty_eq_false] at hb
        exact hb
      rw [if_neg hcond]
      refine ih (i + 1) r (by omega) (by omega) (sweepInv_skip h (hv0 i hin.1 hin.2) ?_)
      intro hai
      by_contra hv
      exact hc ⟨by simpa using hv, hai⟩

/-- What `main` does for a menu choice 1 or 2 on the graph built from the
input pairs: the call returns and the sweep invariant holds at the end. -/
theorem handleChoice_spec (n : Nat) (edges : List (Nat × Nat)) (choice s : Nat) (vis : Visited)
    (hE : EndpointsIn n edges) (hs : 1 ≤ s ∧ s ≤ n) (hc : choice = 1 ∨ choice = 2)
    (fuel : Nat) (hfuel : n + 1 ≤ fuel) :
    ∃ r, handleChoice (buildGraph edges) fuel n choice s vis = some r ∧
      SweepInv (buildGraph edges) (reset_visited n vis) s (n + 1) r := by
  have hsym : ∀ x y, y ∈ buildGraph edges x → x ∈ buildGraph edges y := fun x y h =>
    (mem_buildGraph edges y x).mpr (linked_symm ((mem_buildGraph edges x y).mp h))
  have hrng : ∀ x y, y ∈ buildGraph edges x → (1 ≤ x ∧ x ≤ n) ∧ (1 ≤ y ∧ y ≤ n) := fun x y h =>
    linked_bounds hE ((mem_buildGraph edges x y).mp h)
  have hv0 : ∀ x, 1 ≤ x → x ≤ n → reset_visited n vis x = false := fun x h1 h2 => by
    rw [reset_visited_apply, if_pos ⟨h1, h2⟩]
  have hfree : ∀ x, Reach (buildGraph edges) s x → reset_visited n vis x = false := fun x hx => by
    have := reach_range hrng hx hs
    exact hv0 x this.1 this.2
  have hrun : ∃ v out, runChoice (buildGraph edges) fuel choice s (reset_visited n vis)
      = some (v, out) ∧ out.Nodup ∧ (∀ x, x ∈ out ↔ Reach (buildGraph edges) s x) ∧
      ∀ x, v x = true ↔ reset_visited n vis x = true ∨ Reach (buildGraph edges) s x := by
    unfold runChoice
    rcases hc with hc | hc
    · simp only [hc, if_true]
      exact parallel_bfs_spec _ _ s (List.range' 1 n) (reach_in_range hE hs) hfree fuel
        (by simpa using hfuel)
    · have h21 : ¬ ((2 : Nat) = 1) := by decide
      simp only [hc, h21, if_true, if_false]
      exact parallel_dfs_spec _ _ s (List.range' 1 n) (reach_in_range hE hs) hfree fuel
        (by simpa using hfuel)
  obtain ⟨v, out, h1, h2, h3, h4⟩ := hrun
  unfold handleChoice
  rw [h1]
  refine sweep_spec (buildGraph edges) (reset_visited n vis) s n hsym hrng hv0 fuel hfuel choice
    n 1 _ (by omega) (by omega) ?_
  constructor
  · exact h2
  · intro x
    show v x = true ↔ reset_visited n vis x = true ∨ x ∈ out
    rw [h4, h3]
  · intro x
    show x ∈ out ↔ _
    rw [h3]
    simp
  · exact List.Pairwise.nil
  · intro j hj; cases hj
  · intro j h5 h6; omega
  · intro j h5 h6; omega

/-! ## C6, C7: what one menu choice prints, and where it restarts -/

/-- C7, as the claim states it, fails: on N = 5 with edges (2,3), (4,5),
choice BFS and start 1, the sweep starts two continuation traversals, from
node 2 and from node 4. -/
theorem C7_counterexample_two_restarts :
    (handleChoice (buildGraph [(2, 3), (4, 5)]) 6 5 1 1 allFalse).map
        (fun r => (r.out, r.restarts)) = some ([1, 2, 3, 4, 5], [2, 4]) ∧
      ¬ ([2, 4].length ≤ 1) := by
  decide

end BfsDfs

namespace BfsDfs

/-! ## C5: the edge-count test of `main` -/

theorem wrap32_of_range (x : Int) (h0 : -2147483648 ≤ x) (h1 : x < 2147483648) :
    wrap32 x = x := by
  unfold wrap32
  rw [Int.emod_eq_of_lt (by omega) (by omega)]
  omega

/-- Below the overflow threshold the test of line 110 is the test on the
mathematical integers. -/
theorem tooManyEdges_exact (n m : Int) (h0 : 0 ≤ n) (h1 : n ≤ 46341) :
    tooManyEdges n m = true ↔ m > n * (n - 1) / 2 := by
  have hp0 : 0 ≤ n * (n - 1) := by
    by_cases h : 0 < n
    · exact mul_nonneg h0 (by omega)
    · have : n = 0 := by omega
      rw [this]; decide
  have hp1 : n * (n - 1) < 2147483648 := by nlinarith
  unfold tooManyEdges
  rw [wrap32_of_range (n - 1) (by omega) (by omega), wrap32_of_range _ (by omega) hp1,
    Int.tdiv_eq_ediv hp0 (by decide)]
  simp

/-- C5: on the input N = 46342, M = 0 the 32-bit product `n * (n - 1)`
overflows, the test of line 110 holds although 0 does not exceed
N(N-1)/2, and `main` rejects the input; N = 46342 is below `MAXN`. -/
theorem C5_edge_check_overflow (fuel : Nat) (edges menu : List (Nat × Nat)) :
    (46342 : Int) < MAXN ∧ ¬ ((0 : Int) > 46342 * (46342 - 1) / 2) ∧
      tooManyEdges 46342 0 = true ∧
      mainProgram fuel 46342 0 edges menu = some MainResult.rejected := by
  refine ⟨by decide, by decide, by decide, ?_⟩
  unfold mainProgram
  have h : tooManyEdges 46342 0 = true := by decide
  rw [if_pos h]

/-! ## C8: `main` does not validate node identifiers -/

theorem bfsLoop_out_prefix (adj : Adj) (fuel : Nat) (st fin : TState)
    (h : bfsLoop adj fuel st = some fin) : st.out <+: fin.out := by
  induction fuel generalizing st with
  | zero => simp [bfsLoop] at h
  | succ fuel ih =>
    unfold bfsLoop at h
    by_cases he : st.work.isEmpty = true
    · rw [if_pos he] at h
      simp only [Option.some.injEq] at h
      rw [h]
    · rw [if_neg he] at h
      have := ih _ h
      rw [bfsIter_eq] at this
      exact (List.prefix_append _ _).trans this

theorem dfsLoop_out_prefix (adj : Adj) (fuel : Nat) (st fin : TState)
    (h : dfsLoop adj fuel st = some fin) : st.out <+: fin.out := by
  induction fuel generalizing st with
  | zero => simp [dfsLoop] at h
  | succ fuel ih =>
    unfold dfsLoop at h
    by_cases he : st.work.isEmpty = true
    · rw [if_pos he] at h
      simp only [Option.some.injEq] at h
      rw [h]
    · rw [if_neg he] at h
      have hw : st.work ≠ [] := by simpa using he
      obtain ⟨v, rest, hvr⟩ := List.exists_cons_of_ne_nil hw
      have := ih _ h
      rw [dfsIter_eq adj st v rest hvr] at this
      exact (List.prefix_append _ _).trans this

theorem head_of_prefix {s : Nat} {out : List Nat} (h : [s] <+: out) : out.head? = some s := by
  obtain ⟨t, ht⟩ := h
  rw [← ht]; rfl

theorem parallel_bfs_head (adj : Adj) (fuel s : Nat) (vis v : Visited) (out : List Nat)
    (h : parallel_bfs adj fuel s vis = some (v, out)) : out.head? = some s := by
  unfold parallel_bfs at h
  rw [Option.map_eq_some'] at h
  obtain ⟨fin, h1, h2⟩ := h
  cases fuel with
  | zero => simp [bfsLoop] at h1
  | succ fuel =>
    unfold bfsLoop at h1
    have he : ¬ ((initState vis s).work.isEmpty = true) := by simp [initState]
    rw [if_neg he] at h1
    have hp := bfsLoop_out_prefix adj fuel _ fin h1
    rw [bfsIter_eq] at hp
    have : out = fin.out := by
      have := congrArg Prod.snd h2
      exact this.symm
    rw [this]
    exact head_of_prefix hp

theorem parallel_dfs_head (adj : Adj) (fuel s : Nat) (vis v : Visited) (out : List Nat)
    (h : parallel_dfs adj fuel s vis = some (v, out)) : out.head? = some s := by
  unfold parallel_dfs at h
  rw [Option.map_eq_some'] at h
  obtain ⟨fin, h1, h2⟩ := h
  cases fuel with
  | zero => simp [dfsLoop] at h1
  | succ fuel =>
    unfold dfsLoop at h1
    have he : ¬ ((initState vis s).work.isEmpty = true) := by simp [initState]
    rw [if_neg he] at h1
    have hp := dfsLoop_out_prefix adj fuel _ fin h1
    rw [dfsIter_eq adj _ s [] rfl] at hp
    have : out = fin.out := by
      have := congrArg Prod.snd h2
      exact this.symm
    rw [this]
    exact head_of_prefix hp

theorem sweep_out_prefix (adj : Adj) (fuel choice : Nat) (k i : Nat) (r r2 : ChoiceResult)
    (h : sweep adj fuel choice k i r = some r2) : r.out <+: r2.out := by
  induction k generalizing i r with
  | zero =>
    simp only [sweep, Option.some.injEq] at h
    rw [h]
  | succ k ih =>
    unfold sweep at h
    by_cases hc : (!r.visited i && !(adj i).isEmpty) = true
    · rw [if_pos hc] at h
      cases hrun : runAgain adj fuel choice i r.visited with
      | none => rw [hrun] at h; cases h
      | some t =>
        rw [hrun] at h
        exact (List.prefix_append _ _).trans (ih _ _ h)
    · rw [if_neg hc] at h
      exact ih _ _ h

/-- C8, as the claim states it, fails: with N = 3, the input pair (4, 1) and
the start node 5 (both 4 and 5 lie outside [1, 3]), `main` extends `adj[4]`
with 1 and `adj[1]` with 4, and runs the BFS from node 5. -/
theorem C8_counterexample_unvalidated_ids :
    (mainProgram 10 3 1 [(4, 1)] [(1, 5), (3, 0)]).map
        (fun res => match res with
          | MainResult.rejected => none
          | MainResult.finished adj rs => some (adj 4, adj 1, rs.map (fun c => c.out)))
      = some (some ([1], [4], [[5, 1, 4]])) := by
  decide

end BfsDfs

namespace BfsDfs

/-! ## C9: a second traversal after `reset_visited` -/

theorem runChoice_spec (n : Nat) (edges : List (Nat × Nat)) (choice s : Nat) (vis0 : Visited)
    (hE : EndpointsIn n edges) (hs : 1 ≤ s ∧ s ≤ n) (hc : choice = 1 ∨ choice = 2)
    (hv0 : ∀ x, 1 ≤ x → x ≤ n → vis0 x = false) (fuel : Nat) (hfuel : n + 1 ≤ fuel) :
    ∃ v out, runChoice (buildGraph edges) fuel choice s vis0 = some (v, out) ∧ out.Nodup ∧
      (∀ x, x ∈ out ↔ InComponent edges s x) ∧
      ∀ x, v x = true ↔ vis0 x = true ∨ InComponent edges s x := by
  have hfree : ∀ x, Reach (buildGraph edges) s x → vis0 x = false := fun x hx => by
    have := inComponent_bounds hE hs ((reach_buildGraph edges s x).mp hx)
    exact hv0 x this.1 this.2
  simp only [← reach_buildGraph]
  unfold runChoice
  rcases hc with hc | hc
  · simp only [hc, if_true]
    exact parallel_bfs_spec _ _ s (List.range' 1 n) (reach_in_range hE hs) hfree fuel
      (by simpa using hfuel)
  · have h21 : ¬ ((2 : Nat) = 1) := by decide
    simp only [hc, h21, if_true, if_false]
    exact parallel_dfs_spec _ _ s (List.range' 1 n) (reach_in_range hE hs) hfree fuel
      (by simpa using hfuel)

end BfsDfs

namespace BfsDfs

/-! ## C10: the output of `parallel_dfs` is a pop order of its stack -/

theorem dfsExpand_spec (adj : Adj) (vis : Visited) (v : Nat) :
    (dfsExpand adj vis v).2.Nodup ∧
      (∀ x, x ∈ (dfsExpand adj vis v).2 ↔ x ∈ adj v ∧ vis x = false) ∧
      ∀ x, (dfsExpand adj vis v).1 x = true ↔ vis x = true ∨ x ∈ adj v := by
  unfold dfsExpand
  rw [dfsVisit_eq_bfsVisit]
  obtain ⟨fresh, hf1, hf2, hf3⟩ := scan_collected (adj v) (vis, [])
  simp only [List.nil_append] at hf1 hf3
  rw [hf1]
  exact ⟨hf2, hf3, fun x => scan_visited (adj v) (vis, []) x⟩

theorem stackInv_init (vis : Visited) (s : Nat) : StackInv (markVisited vis s) [s] [s] [] where
  nodup := List.nodup_singleton s
  marked := fun x hx => by
    rw [List.mem_singleton] at hx
    rw [markVisited_eq_true]; exact Or.inl hx
  emitted_sub := fun x hx => by cases hx
  stack_eq := by simp

theorem stackInv_step {adj : Adj} {vis : Visited} {v : Nat} {rest pushed emitted batch : List Nat}
    (h : StackInv vis (v :: rest) pushed emitted)
    (hb : batch.Perm (dfsExpand adj vis v).2) :
    StackInv (dfsExpand adj vis v).1 (pushAll rest batch) (pushed ++ batch) (emitted ++ [v]) := by
  obtain ⟨e1, e2, e3⟩ := dfsExpand_spec adj vis v
  have hbn : batch.Nodup := hb.nodup_iff.mpr e1
  have hbm : ∀ x, x ∈ batch → x ∈ adj v ∧ vis x = false := fun x hx =>
    (e2 x).mp (hb.mem_iff.mp hx)
  have hsn : (v :: rest).Nodup := by
    have : ((v :: rest).reverse).Nodup := by
      rw [h.stack_eq]; exact h.nodup.filter _
    exact List.nodup_reverse.mp this
  have hvP : v ∈ pushed := by
    have : v ∈ (v :: rest).reverse := by simp
    rw [h.stack_eq] at this
    exact (List.mem_filter.mp this).1
  have hfresh : ∀ x, x ∈ batch → x ∉ pushed := fun x hx hp => by
    have := h.marked x hp
    rw [(hbm x hx).2] at this; cases this
  constructor
  · rw [List.nodup_append]
    exact ⟨h.nodup, hbn, fun x hx hx2 => hfresh x hx2 hx⟩
  · intro x hx
    rw [e3]
    rcases List.mem_append.mp hx with hx | hx
    · exact Or.inl (h.marked x hx)
    · exact Or.inr (hbm x hx).1
  · intro x hx
    rcases List.mem_append.mp hx with hx | hx
    · exact List.mem_append.mpr (Or.inl (h.emitted_sub x hx))
    · rw [List.mem_singleton] at hx
      rw [hx]; exact List.mem_append.mpr (Or.inl hvP)
  · rw [pushAll_eq, List.reverse_append, List.reverse_reverse, List.filter_append]
    have h1 : batch.filter (fun x => decide (x ∉ emitted ++ [v])) = batch := by
      rw [List.filter_eq_self]
      intro x hx
      have hne : x ≠ v := fun hxv => hfresh x hx (hxv ▸ hvP)
      have hnE : x ∉ emitted := fun hxe => hfresh x hx (h.emitted_sub x hxe)
      simp [hne, hnE]
    have h2 : pushed.filter (fun x => decide (x ∉ emitted ++ [v])) = rest.reverse := by
      have hpred : (fun x => decide (x ∉ emitted ++ [v])) =
          (fun x => decide (x ≠ v) && decide (x ∉ emitted)) := by
        funext x
        simp only [List.mem_append, List.mem_singleton, not_or, Bool.decide_and]
        rw [Bool.and_comm]
      rw [hpred, ← List.filter_filter, ← h.stack_eq, List.reverse_cons, List.filter_append]
      have h3 : rest.reverse.filter (fun x => decide (x ≠ v)) = rest.reverse := by
        rw [List.filter_eq_self]
        intro x hx
        have : x ≠ v := fun hxv => (List.nodup_cons.mp hsn).1 (hxv ▸ List.mem_reverse.mp hx)
        simp [this]
      rw [h3]
      simp
    rw [h1, h2]

theorem dfsSchedRun_head {adj : Adj} {vis : Visited} {stack : List Nat} {w : Nat}
    {b : List Nat} {t : List (Nat × List Nat)}
    (h : DfsSchedRun adj vis stack ((w, b) :: t)) : stack.head? = some w := by
  cases h with
  | step _ _ _ _ _ _ _ => rfl

theorem dfsSchedRun_after {adj : Adj} (t1 t : List (Nat × List Nat)) :
    ∀ (vis : Visited) (stack pushed emitted : List Nat),
      DfsSchedRun adj vis stack (t1 ++ t) → StackInv vis stack pushed emitted →
      ∃ vis2 stack2, DfsSchedRun adj vis2 stack2 t ∧
        StackInv vis2 stack2 (pushed ++ t1.flatMap Prod.snd) (emitted ++ t1.map Prod.fst) := by
  induction t1 with
  | nil =>
    intro vis stack pushed emitted hrun hinv
    exact ⟨vis, stack, hrun, by simpa using hinv⟩
  | cons p t1 ih =>
    intro vis stack pushed emitted hrun hinv
    cases hrun with
    | step _ v rest batch _ hb hnext =>
      obtain ⟨vis2, stack2, h1, h2⟩ := ih _ _ _ _ hnext (stackInv_step hinv hb)
      refine ⟨vis2, stack2, h1, ?_⟩
      simpa [List.flatMap_cons, List.append_assoc] using h2

theorem latestPending_of_inv {vis : Visited} {stack : List Nat} {s : Nat}
    {t : List (Nat × List Nat)}
    (h : StackInv vis stack ([s] ++ t.flatMap Prod.snd) ([] ++ t.map Prod.fst)) :
    latestPending s t = stack.head? := by
  unfold latestPending pushedSoFar emittedSoFar
  have := h.stack_eq
  simp only [List.nil_append, List.singleton_append] at this
  rw [← this, List.getLast?_reverse]

/-- The output of the executable `parallel_dfs` loop is the output of a run
of `DfsSchedRun`, the one that collects every batch in index order. -/
theorem dfsLoop_schedRun (adj : Adj) (fuel : Nat) (st fin : TState)
    (h : dfsLoop adj fuel st = some fin) :
    ∃ t, DfsSchedRun adj st.visited st.work t ∧ fin.out = st.out ++ emittedSoFar t := by
  induction fuel generalizing st with
  | zero => simp [dfsLoop] at h
  | succ fuel ih =>
    unfold dfsLoop at h
    by_cases he : st.work.isEmpty = true
    · rw [if_pos he] at h
      simp only [Option.some.injEq] at h
      have hw : st.work = [] := by simpa using he
      refine ⟨[], ?_, by simp [emittedSoFar, h]⟩
      rw [hw]; exact DfsSchedRun.done _
    · rw [if_neg he] at h
      have hw : st.work ≠ [] := by simpa using he
      obtain ⟨v, rest, hvr⟩ := List.exists_cons_of_ne_nil hw
      obtain ⟨t, ht1, ht2⟩ := ih _ h
      have hit : dfsIter adj st = TState.mk (dfsExpand adj st.visited v).1
          (pushAll rest (dfsExpand adj st.visited v).2) (st.out ++ [v]) := by
        unfold dfsIter; rw [hvr]
      rw [hit] at ht1 ht2
      refine ⟨(v, (dfsExpand adj st.visited v).2) :: t, ?_, ?_⟩
      · rw [hvr]
        exact DfsSchedRun.step _ v rest _ t (List.Perm.refl _) ht1
      · rw [ht2]; simp [emittedSoFar]

/-- C10: in every run of `parallel_dfs` from `s`, whatever the order in which
the claimed neighbours of each popped node are collected, the first node
printed is `s`; the node printed right after `v` belongs to the batch of `v`
when that batch is not empty, and in every case (so also when the batch is
empty) it is the most recently pushed node not yet printed; and when the run
ends every pushed node has been printed. -/
theorem C10_dfs_stack_discipline (adj : Adj) (vis0 : Visited) (s : Nat)
    (trace : List (Nat × List Nat))
    (hrun : DfsSchedRun adj (markVisited vis0 s) [s] trace) :
    (∃ b t, trace = (s, b) :: t) ∧
    (∀ t1 v b w b2 t2, trace = t1 ++ (v, b) :: (w, b2) :: t2 →
      (b ≠ [] → w ∈ b) ∧ latestPending s (t1 ++ [(v, b)]) = some w) ∧
    latestPending s trace = none := by
  refine ⟨?_, ?_, ?_⟩
  · cases hrun with
    | step _ _ _ batch t _ _ => exact ⟨batch, t, rfl⟩
  · intro t1 v b w b2 t2 ht
    have hlast : latestPending s (t1 ++ [(v, b)]) = some w := by
      have hrun2 : DfsSchedRun adj (markVisited vis0 s) [s]
          ((t1 ++ [(v, b)]) ++ (w, b2) :: t2) := by
        rw [ht] at hrun; simpa using hrun
      obtain ⟨vis2, stack2, h1, h2⟩ :=
        dfsSchedRun_after _ _ _ _ _ _ hrun2 (stackInv_init vis0 s)
      rw [latestPending_of_inv h2]
      exact dfsSchedRun_head h1
    refine ⟨fun hb => ?_, hlast⟩
    rw [ht] at hrun
    obtain ⟨vis2, stack2, h1, _⟩ :=
      dfsSchedRun_after _ _ _ _ _ _ hrun (stackInv_init vis0 s)
    cases h1 with
    | step _ _ rest _ _ _ hnext =>
      have hh := dfsSchedRun_head hnext
      rw [pushAll_eq] at hh
      obtain ⟨x, l, hxl⟩ := List.exists_cons_of_ne_nil
        (show b.reverse ≠ [] by simpa using hb)
      rw [hxl] at hh
      simp only [List.cons_append, List.head?_cons, Option.some.injEq] at hh
      rw [← hh]
      exact List.mem_reverse.mp (by rw [hxl]; simp)
  · have hrun2 : DfsSchedRun adj (markVisited vis0 s) [s] (trace ++ []) := by simpa using hrun
    obtain ⟨vis2, stack2, h1, h2⟩ :=
      dfsSchedRun_after _ _ _ _ _ _ hrun2 (stackInv_init vis0 s)
    rw [latestPending_of_inv h2]
    cases h1 with
    | done _ => rfl

/-- C10 on the graph with edges (1,2), (1,3) and start 1, the batch of node 1
collected as [3, 2]. -/
theorem C10_dfs_stack_discipline_witness :
    DfsSchedRun (buildGraph [(1, 2), (1, 3)]) (markVisited allFalse 1) [1]
        [(1, [3, 2]), (2, []), (3, [])] ∧
    ((∃ b t, [(1, [3, 2]), (2, []), (3, [])] = ((1 : Nat), b) :: t) ∧
    (∀ t1 v b w b2 t2, [(1, [3, 2]), (2, []), (3, [])] = t1 ++ (v, b) :: (w, b2) :: t2 →
      (b ≠ [] → w ∈ b) ∧ latestPending 1 (t1 ++ [(v, b)]) = some w) ∧
    latestPending 1 [(1, [3, 2]), (2, []), (3, [])] = none) :=
  have hrun : DfsSchedRun (buildGraph [(1, 2), (1, 3)]) (markVisited allFalse 1) [1]
      [(1, [3, 2]), (2, []), (3, [])] :=
    DfsSchedRun.step _ 1 [] [3, 2] _ (by decide)
      (DfsSchedRun.step _ 2 [3] [] _ (by decide)
        (DfsSchedRun.step _ 3 [] [] _ (by decide) (DfsSchedRun.done _)))
  ⟨hrun, C10_dfs_stack_discipline _ allFalse 1 _ hrun⟩

end BfsDfs

namespace BfsDfs

/-! ## The index order is one of the schedules -/

theorem interleave_cons_nil {ls : List (List Nat)} {sched : List Nat}
    (h : Interleave ls sched) : Interleave ([] :: ls) sched := by
  induction h with
  | done ls hnil =>
    refine Interleave.done _ (fun l hl => ?_)
    rcases List.mem_cons.mp hl with hl | hl
    · exact hl
    · exact hnil l hl
  | step pre post u rest sched _ ih =>
    exact Interleave.step ([] :: pre) post u rest sched ih

theorem interleave_cons (l : List Nat) {ls : List (List Nat)} {sched : List Nat}
    (h : Interleave ls sched) : Interleave (l :: ls) (l ++ sched) := by
  induction l with
  | nil => exact interleave_cons_nil h
  | cons u l ih => exact Interleave.step [] ls u l (l ++ sched) ih

theorem interleave_index_order (adj : Adj) (cur : List Nat) :
    Interleave (cur.map adj) (cur.flatMap adj) := by
  induction cur with
  | nil => exact Interleave.done _ (fun l hl => by cases hl)
  | cons v cur ih =>
    rw [List.map_cons, List.flatMap_cons]
    exact interleave_cons (adj v) ih

/-- The executable loop of `parallel_bfs` is the run of `BfsSchedRun` that
takes every level in index order. -/
theorem bfsLoop_schedRun (adj : Adj) (fuel : Nat) (st fin : TState)
    (h : bfsLoop adj fuel st = some fin) : ∃ levels, BfsSchedRun adj st levels fin := by
  induction fuel generalizing st with
  | zero => simp [bfsLoop] at h
  | succ fuel ih =>
    unfold bfsLoop at h
    by_cases he : st.work.isEmpty = true
    · rw [if_pos he] at h
      simp only [Option.some.injEq] at h
      rw [← h]
      exact ⟨[], BfsSchedRun.done st (by simpa using he)⟩
    · rw [if_neg he] at h
      obtain ⟨levels, hl⟩ := ih _ h
      have heq : bfsIter adj st =
          bfsIterWith (fun vis _ => bfsExpandSched (st.work.flatMap adj) vis) st := by
        rw [bfsIter_eq, bfsIterWith_eq]
        rfl
      rw [heq] at hl
      exact ⟨st.work :: levels,
        BfsSchedRun.step st _ levels fin (by simpa using he) (interleave_index_order adj st.work) hl⟩

end BfsDfs

namespace BfsDfs

/-! ## C11: the loops end, and how many iterations they make -/

/-- A result of the loop of `parallel_bfs` is the state after some number `k`
of iterations, below the fuel; the queue is empty then and was not before. -/
theorem bfsLoop_iterate (adj : Adj) (fuel : Nat) (st fin : TState)
    (h : bfsLoop adj fuel st = some fin) :
    ∃ k, k < fuel ∧ fin = Nat.iterate (bfsIter adj) k st ∧ fin.work = [] ∧
      ∀ j, j < k → (Nat.iterate (bfsIter adj) j st).work ≠ [] := by
  induction fuel generalizing st with
  | zero => simp [bfsLoop] at h
  | succ fuel ih =>
    unfold bfsLoop at h
    by_cases he : st.work.isEmpty = true
    · rw [if_pos he] at h
      simp only [Option.some.injEq] at h
      refine ⟨0, by omega, h.symm, by rw [← h]; simpa using he, fun j hj => by omega⟩
    · rw [if_neg he] at h
      obtain ⟨k, hk, h1, h2, h3⟩ := ih _ h
      refine ⟨k + 1, by omega, by rw [Function.iterate_succ_apply]; exact h1, h2, fun j hj => ?_⟩
      cases j with
      | zero => simpa using he
      | succ j =>
        rw [Function.iterate_succ_apply]
        exact h3 j (by omega)

/-- A result of the loop of `parallel_dfs` is the state after some number `k`
of iterations, below the fuel; the stack is empty then and was not before. -/
theorem dfsLoop_iterate (adj : Adj) (fuel : Nat) (st fin : TState)
    (h : dfsLoop adj fuel st = some fin) :
    ∃ k, k < fuel ∧ fin = Nat.iterate (dfsIter adj) k st ∧ fin.work = [] ∧
      ∀ j, j < k → (Nat.iterate (dfsIter adj) j st).work ≠ [] := by
  induction fuel generalizing st with
  | zero => simp [dfsLoop] at h
  | succ fuel ih =>
    unfold dfsLoop at h
    by_cases he : st.work.isEmpty = true
    · rw [if_pos he] at h
      simp only [Option.some.injEq] at h
      refine ⟨0, by omega, h.symm, by rw [← h]; simpa using he, fun j hj => by omega⟩
    · rw [if_neg he] at h
      obtain ⟨k, hk, h1, h2, h3⟩ := ih _ h
      refine ⟨k + 1, by omega, by rw [Function.iterate_succ_apply]; exact h1, h2, fun j hj => ?_⟩
      cases j with
      | zero => simpa using he
      | succ j =>
        rw [Function.iterate_succ_apply]
        exact h3 j (by omega)

theorem bfs_iterate_out_length (adj : Adj) (st : TState) (k : Nat)
    (h : ∀ j, j < k → (Nat.iterate (bfsIter adj) j st).work ≠ []) :
    st.out.length + k ≤ (Nat.iterate (bfsIter adj) k st).out.length := by
  induction k with
  | zero => simp
  | succ k ih =>
    rw [Function.iterate_succ_apply']
    have h1 := ih (fun j hj => h j (by omega))
    have h2 := bfsIter_out_length adj _ (h k (by omega))
    omega

theorem dfs_iterate_out_length (adj : Adj) (st : TState) (k : Nat)
    (h : ∀ j, j < k → (Nat.iterate (dfsIter adj) j st).work ≠ []) :
    (Nat.iterate (dfsIter adj) k st).out.length = st.out.length + k := by
  induction k with
  | zero => simp
  | succ k ih =>
    rw [Function.iterate_succ_apply']
    have h1 := ih (fun j hj => h j (by omega))
    have h2 := dfsIter_out_length adj _ (h k (by omega))
    omega

end BfsDfs

namespace BfsDfs

/-! ## C12, C20: `visited` at the iteration boundaries -/

theorem dfsIter_of_empty (adj : Adj) (st : TState) (hw : st.work = []) : dfsIter adj st = st := by
  unfold dfsIter
  rw [hw]

theorem winv_bfsBoundary (adj : Adj) (vis0 : Visited) (s : Nat) (hs : vis0 s = false) (k : Nat) :
    WInv adj vis0 s (bfsBoundary adj vis0 s k) := by
  unfold bfsBoundary
  induction k with
  | zero => exact winv_init adj vis0 s hs
  | succ k ih =>
    rw [Function.iterate_succ_apply']
    exact winv_bfsIter ih

theorem winv_dfsBoundary (adj : Adj) (vis0 : Visited) (s : Nat) (hs : vis0 s = false) (k : Nat) :
    WInv adj vis0 s (dfsBoundary adj vis0 s k) := by
  unfold dfsBoundary
  induction k with
  | zero => exact winv_init adj vis0 s hs
  | succ k ih =>
    rw [Function.iterate_succ_apply']
    by_cases hw : (Nat.iterate (dfsIter adj) k (initState vis0 s)).work = []
    · rw [dfsIter_of_empty adj _ hw]; exact ih
    · exact winv_dfsIter ih hw

theorem winv_boundary_facts {adj : Adj} {s : Nat} {st : TState} (h : WInv adj allFalse s st) :
    st.work.Nodup ∧ (∀ x, x ∈ st.work → x ∉ st.out) ∧
      ∀ i, st.visited i = true ↔ i ∈ st.out ∨ i ∈ st.work := by
  obtain ⟨h1, h2, h3⟩ := List.nodup_append.mp h.nodup
  refine ⟨h2, fun x hx ho => h3 ho hx, fun i => ?_⟩
  rw [h.vis_iff]
  simp [allFalse]

/-- C12, as the claim states it, fails: on the graph with the edge (1,2) and
start 1, at the boundary after the first iteration of either traversal node 2
is marked in `visited` and has not been printed. -/
theorem C12_counterexample_marked_before_printed :
    ¬ ((bfsBoundary (buildGraph [(1, 2)]) allFalse 1 1).visited 2 = true ↔
        2 ∈ (bfsBoundary (buildGraph [(1, 2)]) allFalse 1 1).out) ∧
    ¬ ((dfsBoundary (buildGraph [(1, 2)]) allFalse 1 1).visited 2 = true ↔
        2 ∈ (dfsBoundary (buildGraph [(1, 2)]) allFalse 1 1).out) := by
  decide

end BfsDfs

namespace BfsDfs

/-! ## C13: the adjacency lists built from the input pairs -/

theorem addEdge_apply (adj : Adj) (e : Nat × Nat) (x : Nat) :
    addEdge adj e x =
      adj x ++ (if x = e.1 then [e.2] else []) ++ (if x = e.2 then [e.1] else []) := by
  unfold addEdge pushNeighbor
  split_ifs <;> simp

theorem count_if_singleton (c : Prop) [Decidable c] (b v : Nat) :
    List.count v (if c then [b] else []) = if c ∧ b = v then 1 else 0 := by
  by_cases hc : c <;> by_cases hb : b = v <;> simp [hc, hb, List.count_cons]

theorem length_if_singleton (c : Prop) [Decidable c] (b : Nat) :
    (if c then [b] else []).length = if c then 1 else 0 := by
  by_cases hc : c <;> simp [hc]

theorem readEdges_count (edges : List (Nat × Nat)) (adj : Adj) (u v : Nat) (huv : u ≠ v) :
    (readEdges adj edges u).count v =
      (adj u).count v + edges.countP (fun e => decide (e = (u, v) ∨ e = (v, u))) := by
  unfold readEdges
  induction edges generalizing adj with
  | nil => simp
  | cons e edges ih =>
    rw [List.foldl_cons, ih, addEdge_apply, List.countP_cons, List.count_append,
      List.count_append, count_if_singleton, count_if_singleton]
    have e1 : e = (u, v) ↔ u = e.1 ∧ e.2 = v := by
      constructor
      · rintro rfl; exact ⟨rfl, rfl⟩
      · rintro ⟨h1, h2⟩; exact Prod.ext h1.symm h2
    have e2 : e = (v, u) ↔ u = e.2 ∧ e.1 = v := by
      constructor
      · rintro rfl; exact ⟨rfl, rfl⟩
      · rintro ⟨h1, h2⟩; exact Prod.ext h2 h1.symm
    by_cases p1 : u = e.1 ∧ e.2 = v
    · have p2 : ¬ (u = e.2 ∧ e.1 = v) := fun h => huv (p1.1.trans h.2)
      have d3 : ((fun e => decide (e = (u, v) ∨ e = (v, u))) e) = true :=
        decide_eq_true (Or.inl (e1.mpr p1))
      rw [if_pos p1, if_neg p2, if_pos d3]
      omega
    · by_cases p2 : u = e.2 ∧ e.1 = v
      · have d3 : ((fun e => decide (e = (u, v) ∨ e = (v, u))) e) = true :=
          decide_eq_true (Or.inr (e2.mpr p2))
        rw [if_neg p1, if_pos p2, if_pos d3]
        omega
      · have d3 : ¬ (((fun e => decide (e = (u, v) ∨ e = (v, u))) e) = true) := by
          intro h
          rcases of_decide_eq_true h with h | h
          · exact p1 (e1.mp h)
          · exact p2 (e2.mp h)
        rw [if_neg p1, if_neg p2, if_neg d3]
        omega

theorem readEdges_length (edges : List (Nat × Nat)) (adj : Adj) (x : Nat) :
    (readEdges adj edges x).length =
      (adj x).length + edges.countP (fun e => decide (x = e.1)) +
        edges.countP (fun e => decide (x = e.2)) := by
  unfold readEdges
  induction edges generalizing adj with
  | nil => simp
  | cons e edges ih =>
    rw [List.foldl_cons, ih, addEdge_apply, List.countP_cons, List.countP_cons,
      List.length_append, List.length_append, length_if_singleton, length_if_singleton]
    by_cases h1 : x = e.1 <;> by_cases h2 : x = e.2 <;>
      simp only [h1, h2, if_true, if_false, decide_True, decide_False] <;> simp <;> omega

/-- C13: the edge loop handles the pairs in input order; for the pair `(a, b)`
it appends `b` to the list of `a` and then `a` to the list of `b` and leaves
every other list unchanged.  In the graph built from the pairs `edges`, for
`u ≠ v` the number of occurrences of `v` in the list of `u`, and of `u` in the
list of `v`, is the number of input pairs `(u, v)` or `(v, u)`; the length of
the list of `x` is the number of times `x` occurs as an endpoint, so nothing is
removed. -/
theorem C13_build_graph (adj : Adj) (edges : List (Nat × Nat)) (e : Nat × Nat)
    (x u v : Nat) (huv : u ≠ v) :
    readEdges adj (edges ++ [e]) = addEdge (readEdges adj edges) e ∧
    addEdge adj e x =
      adj x ++ (if x = e.1 then [e.2] else []) ++ (if x = e.2 then [e.1] else []) ∧
    (buildGraph edges u).count v = edges.countP (fun p => decide (p = (u, v) ∨ p = (v, u))) ∧
    (buildGraph edges v).count u = edges.countP (fun p => decide (p = (u, v) ∨ p = (v, u))) ∧
    (buildGraph edges x).length =
      edges.countP (fun p => decide (x = p.1)) + edges.countP (fun p => decide (x = p.2)) := by
  refine ⟨?_, addEdge_apply adj e x, ?_, ?_, ?_⟩
  · unfold readEdges
    rw [List.foldl_append]; rfl
  · unfold buildGraph
    rw [readEdges_count _ _ u v huv]
    simp [emptyAdj]
  · unfold buildGraph
    rw [readEdges_count _ _ v u (fun h => huv h.symm)]
    simp only [emptyAdj, List.count_nil, Nat.zero_add]
    congr 1
    funext p
    simp only [decide_eq_decide]
    exact Or.comm
  · unfold buildGraph
    rw [readEdges_length]
    simp [emptyAdj]

/-- C13 on the pairs (1,2), (2,1), (1,2), (2,3): node 2 occurs three times in
the list of node 1, and node 1 three times in the list of node 2. -/
theorem C13_build_graph_witness :
    (1 : Nat) ≠ 2 ∧
    (readEdges emptyAdj ([(1, 2), (2, 1), (1, 2), (2, 3)] ++ [(3, 1)]) =
      addEdge (readEdges emptyAdj [(1, 2), (2, 1), (1, 2), (2, 3)]) (3, 1) ∧
    addEdge emptyAdj (3, 1) 3 =
      emptyAdj 3 ++ (if 3 = ((3, 1) : Nat × Nat).1 then [((3, 1) : Nat × Nat).2] else []) ++
        (if 3 = ((3, 1) : Nat × Nat).2 then [((3, 1) : Nat × Nat).1] else []) ∧
    (buildGraph [(1, 2), (2, 1), (1, 2), (2, 3)] 1).count 2 =
      [(1, 2), (2, 1), (1, 2), (2, 3)].countP (fun p => decide (p = (1, 2) ∨ p = (2, 1))) ∧
    (buildGraph [(1, 2), (2, 1), (1, 2), (2, 3)] 2).count 1 =
      [(1, 2), (2, 1), (1, 2), (2, 3)].countP (fun p => decide (p = (1, 2) ∨ p = (2, 1))) ∧
    (buildGraph [(1, 2), (2, 1), (1, 2), (2, 3)] 3).length =
      [(1, 2), (2, 1), (1, 2), (2, 3)].countP (fun p => decide (3 = p.1)) +
        [(1, 2), (2, 1), (1, 2), (2, 3)].countP (fun p => decide (3 = p.2))) :=
  ⟨by decide, C13_build_graph emptyAdj [(1, 2), (2, 1), (1, 2), (2, 3)] (3, 1) 3 1 2 (by decide)⟩

/-! ## C14: `reset_visited` -/

/-- C14: `reset_visited(n)` makes `visited[i]` false for every `i` in `1..n`
and leaves `visited[0]` and every `visited[i]` with `i > n` as they were. -/
theorem C14_reset_visited_frame (n : Nat) (vis : Visited) :
    (∀ i, 1 ≤ i → i ≤ n → reset_visited n vis i = false) ∧
    reset_visited n vis 0 = vis 0 ∧
    ∀ i, n < i → reset_visited n vis i = vis i := by
  refine ⟨fun i h1 h2 => ?_, ?_, fun i hi => ?_⟩
  · rw [reset_visited_apply, if_pos ⟨h1, h2⟩]
  · rw [reset_visited_apply, if_neg (by omega)]
  · rw [reset_visited_apply, if_neg (by omega)]

end BfsDfs

namespace BfsDfs

/-! ## C17: the levels of `parallel_bfs` are the distance classes -/

theorem levelInv_bfsBoundary (adj : Adj) (s k : Nat) :
    LevelInv adj s k (bfsBoundary adj allFalse s k) := by
  induction k with
  | zero => exact levelInv_init adj s
  | succ k ih =>
    have h := levelInv_bfsIter (winv_bfsBoundary adj allFalse s rfl k) ih
    unfold bfsBoundary at h ⊢
    rw [Function.iterate_succ_apply']
    exact h

theorem currentLevel_eq (adj : Adj) (s k : Nat) :
    currentLevel adj s k = (bfsBoundary adj allFalse s k).work := by
  unfold currentLevel
  rw [drainLevel_all]
  simp

/-! ## C18: repeated neighbours and self-loops -/

theorem bfsVisit_marks (st : Visited × List Nat) (u x : Nat) :
    (bfsVisit st u).1 x = true ↔ st.1 x = true ∨ x = u := by
  have := scan_visited [u] st x
  simpa using this

theorem scan_dedupFrom (l : List Nat) :
    ∀ (seen : List Nat) (st : Visited × List Nat), (∀ x, x ∈ seen → st.1 x = true) →
      (dedupFrom seen l).foldl bfsVisit st = l.foldl bfsVisit st := by
  induction l with
  | nil => intro seen st _; rfl
  | cons x l ih =>
    intro seen st hseen
    unfold dedupFrom
    by_cases hx : x ∈ seen
    · rw [if_pos hx, List.foldl_cons, bfsVisit_seen st x (hseen x hx)]
      exact ih seen st hseen
    · rw [if_neg hx, List.foldl_cons, List.foldl_cons]
      apply ih
      intro y hy
      rw [bfsVisit_marks]
      rcases List.mem_cons.mp hy with hy | hy
      · exact Or.inr hy
      · exact Or.inl (hseen y hy)

theorem bfsNeighbors_cleanAdj (adj : Adj) (st : Visited × List Nat) (v : Nat)
    (hv : st.1 v = true) : bfsNeighbors (cleanAdj adj) st v = bfsNeighbors adj st v := by
  unfold bfsNeighbors cleanAdj
  apply scan_dedupFrom
  intro x hx
  rw [List.mem_singleton] at hx
  rw [hx]; exact hv

theorem bfsExpand_cleanAdj (adj : Adj) (cur : List Nat) :
    ∀ st : Visited × List Nat, (∀ v, v ∈ cur → st.1 v = true) →
      cur.foldl (bfsNeighbors (cleanAdj adj)) st = cur.foldl (bfsNeighbors adj) st := by
  induction cur with
  | nil => intro st _; rfl
  | cons v cur ih =>
    intro st hst
    rw [List.foldl_cons, List.foldl_cons, bfsNeighbors_cleanAdj adj st v (hst v (by simp))]
    apply ih
    intro w hw
    unfold bfsNeighbors
    rw [scan_visited]
    exact Or.inl (hst w (List.mem_cons_of_mem _ hw))

theorem bfsIter_cleanAdj (adj : Adj) (st : TState) (h : ∀ v, v ∈ st.work → st.visited v = true) :
    bfsIter (cleanAdj adj) st = bfsIter adj st := by
  unfold bfsIter
  rw [bfsIterWith_eq, bfsIterWith_eq]
  unfold bfsExpand
  rw [bfsExpand_cleanAdj adj st.work (st.visited, []) h]

theorem bfsIter_marked (adj : Adj) (st : TState) (v : Nat) (hv : v ∈ (bfsIter adj st).work) :
    (bfsIter adj st).visited v = true := by
  rw [bfsIter_eq] at hv ⊢
  obtain ⟨fresh, hf1, _, hf3⟩ := scan_collected (st.work.flatMap adj) (st.visited, [])
  simp only [List.nil_append] at hf1 hf3
  show ((st.work.flatMap adj).foldl bfsVisit (st.visited, [])).1 v = true
  rw [scan_visited]
  have : v ∈ fresh := by rw [← hf1]; exact hv
  exact Or.inr ((hf3 v).mp this).1

theorem bfsLoop_cleanAdj (adj : Adj) (fuel : Nat) (st : TState)
    (h : ∀ v, v ∈ st.work → st.visited v = true) :
    bfsLoop (cleanAdj adj) fuel st = bfsLoop adj fuel st := by
  induction fuel generalizing st with
  | zero => rfl
  | succ fuel ih =>
    unfold bfsLoop
    by_cases he : st.work.isEmpty = true
    · rw [if_pos he, if_pos he]
    · rw [if_neg he, if_neg he, bfsIter_cleanAdj adj st h]
      exact ih _ (bfsIter_marked adj st)

theorem dfsExpand_cleanAdj (adj : Adj) (vis : Visited) (v : Nat) (hv : vis v = true) :
    dfsExpand (cleanAdj adj) vis v = dfsExpand adj vis v := by
  unfold dfsExpand cleanAdj
  rw [dfsVisit_eq_bfsVisit]
  apply scan_dedupFrom
  intro x hx
  rw [List.mem_singleton] at hx
  rw [hx]; exact hv

theorem dfsIter_cleanAdj (adj : Adj) (st : TState) (h : ∀ v, v ∈ st.work → st.visited v = true) :
    dfsIter (cleanAdj adj) st = dfsIter adj st := by
  unfold dfsIter
  cases hw : st.work with
  | nil => rfl
  | cons v rest =>
    simp only
    rw [dfsExpand_cleanAdj adj st.visited v (h v (by rw [hw]; simp))]

theorem dfsIter_marked (adj : Adj) (st : TState) (h : ∀ v, v ∈ st.work → st.visited v = true)
    (v : Nat) (hv : v ∈ (dfsIter adj st).work) : (dfsIter adj st).visited v = true := by
  by_cases hw : st.work = []
  · rw [dfsIter_of_empty adj st hw] at hv ⊢
    exact h v hv
  · obtain ⟨w, rest, hwr⟩ := List.exists_cons_of_ne_nil hw
    rw [dfsIter_eq adj st w rest hwr] at hv ⊢
    obtain ⟨fresh, hf1, _, hf3⟩ := scan_collected ([w].flatMap adj) (st.visited, [])
    simp only [List.nil_append] at hf1 hf3
    show (([w].flatMap adj).foldl bfsVisit (st.visited, [])).1 v = true
    rw [scan_visited]
    have hv2 : v ∈ fresh.reverse ++ rest := by rw [← hf1]; exact hv
    rcases List.mem_append.mp hv2 with hv2 | hv2
    · exact Or.inr ((hf3 v).mp (List.mem_reverse.mp hv2)).1
    · exact Or.inl (h v (by rw [hwr]; exact List.mem_cons_of_mem _ hv2))

theorem dfsLoop_cleanAdj (adj : Adj) (fuel : Nat) (st : TState)
    (h : ∀ v, v ∈ st.work → st.visited v = true) :
    dfsLoop (cleanAdj adj) fuel st = dfsLoop adj fuel st := by
  induction fuel generalizing st with
  | zero => rfl
  | succ fuel ih =>
    unfold dfsLoop
    by_cases he : st.work.isEmpty = true
    · rw [if_pos he, if_pos he]
    · rw [if_neg he, if_neg he, dfsIter_cleanAdj adj st h]
      exact ih _ (dfsIter_marked adj st h)

theorem initState_marked (vis : Visited) (s v : Nat) (hv : v ∈ (initState vis s).work) :
    (initState vis s).visited v = true := by
  simp only [initState, List.mem_singleton] at hv
  simp [initState, markVisited, hv]

/-- C18: for every graph, start node, array and fuel, `parallel_bfs` returns
the same result (the same printed sequence, and the same array) on the
adjacency lists `adj` and on the lists obtained by deleting, in each list, the
node's own identifier and every occurrence of a neighbour after its first; and
so does `parallel_dfs`. -/
theorem C18_duplicates_and_self_loops (adj : Adj) (fuel s : Nat) (vis : Visited) :
    parallel_bfs (cleanAdj adj) fuel s vis = parallel_bfs adj fuel s vis ∧
    parallel_dfs (cleanAdj adj) fuel s vis = parallel_dfs adj fuel s vis := by
  unfold parallel_bfs parallel_dfs
  rw [bfsLoop_cleanAdj adj fuel _ (initState_marked vis s),
    dfsLoop_cleanAdj adj fuel _ (initState_marked vis s)]
  exact ⟨rfl, rfl⟩

end BfsDfs

namespace BfsDfs

/-- C18 on the pairs (1,2), (2,1), (1,1), (1,2), (2,3), start 1: both
traversals return, and return the same on the cleaned lists. -/
theorem C18_duplicates_and_self_loops_witness :
    ((parallel_bfs (buildGraph [(1, 2), (2, 1), (1, 1), (1, 2), (2, 3)]) 4 1 allFalse).map
        (fun r => r.2) = some [1, 2, 3] ∧
      (parallel_dfs (buildGraph [(1, 2), (2, 1), (1, 1), (1, 2), (2, 3)]) 4 1 allFalse).map
        (fun r => r.2) = some [1, 2, 3] ∧
      cleanAdj (buildGraph [(1, 2), (2, 1), (1, 1), (1, 2), (2, 3)]) 1 = [2]) ∧
    (parallel_bfs (cleanAdj (buildGraph [(1, 2), (2, 1), (1, 1), (1, 2), (2, 3)])) 4 1 allFalse =
        parallel_bfs (buildGraph [(1, 2), (2, 1), (1, 1), (1, 2), (2, 3)]) 4 1 allFalse ∧
      parallel_dfs (cleanAdj (buildGraph [(1, 2), (2, 1), (1, 1), (1, 2), (2, 3)])) 4 1 allFalse =
        parallel_dfs (buildGraph [(1, 2), (2, 1), (1, 1), (1, 2), (2, 3)]) 4 1 allFalse) :=
  ⟨by decide, C18_duplicates_and_self_loops _ 4 1 allFalse⟩

/-! ## C16: `parallel_bfs` in index order is the textbook BFS -/

theorem textbookVisit_eq : textbookVisit = bfsVisit := rfl

theorem scan_acc_prefix (l p : List Nat) (vis : Visited) (acc : List Nat) :
    l.foldl bfsVisit (vis, p ++ acc) =
      ((l.foldl bfsVisit (vis, acc)).1, p ++ (l.foldl bfsVisit (vis, acc)).2) := by
  induction l generalizing vis acc with
  | nil => rfl
  | cons u l ih =>
    rw [List.foldl_cons, List.foldl_cons]
    by_cases h : vis u = true
    · rw [bfsVisit_seen (vis, p ++ acc) u h, bfsVisit_seen (vis, acc) u h]
      exact ih vis acc
    · rw [bfsVisit_unseen (vis, p ++ acc) u h, bfsVisit_unseen (vis, acc) u h]
      show l.foldl bfsVisit (markVisited vis u, (p ++ acc) ++ [u]) = _
      rw [List.append_assoc]
      exact ih (markVisited vis u) (acc ++ [u])

theorem textbookIter_cons (adj : Adj) (vis : Visited) (v : Nat) (rest out : List Nat) :
    textbookIter adj { visited := vis, work := v :: rest, out := out } =
      { visited := ((adj v).foldl bfsVisit (vis, rest)).1,
        work := ((adj v).foldl bfsVisit (vis, rest)).2, out := out ++ [v] } := rfl

/-- As many textbook steps as the level has nodes do what one iteration of
the level loop does: `cur` is the level, `acc` the part of the next level
already in the queue. -/
theorem textbook_level (adj : Adj) (cur : List Nat) :
    ∀ (vis : Visited) (acc out : List Nat),
      Nat.iterate (textbookIter adj) cur.length
          { visited := vis, work := cur ++ acc, out := out } =
        { visited := ((cur.flatMap adj).foldl bfsVisit (vis, acc)).1,
          work := ((cur.flatMap adj).foldl bfsVisit (vis, acc)).2, out := out ++ cur } := by
  induction cur with
  | nil => intro vis acc out; simp
  | cons v cur ih =>
    intro vis acc out
    rw [List.length_cons, Function.iterate_succ_apply, List.cons_append, textbookIter_cons,
      scan_acc_prefix]
    show Nat.iterate (textbookIter adj) cur.length
      { visited := ((adj v).foldl bfsVisit (vis, acc)).1,
        work := cur ++ ((adj v).foldl bfsVisit (vis, acc)).2, out := out ++ [v] } = _
    rw [ih, List.flatMap_cons, List.foldl_append]
    simp

theorem bfsIter_eq_textbook (adj : Adj) (st : TState) :
    bfsIter adj st = Nat.iterate (textbookIter adj) st.work.length st := by
  have h := textbook_level adj st.work st.visited [] st.out
  rw [List.append_nil] at h
  rw [bfsIter_eq]
  exact h.symm

theorem textbookIter_of_empty (adj : Adj) (st : TState) (hw : st.work = []) :
    textbookIter adj st = st := by
  unfold textbookIter
  rw [hw]

theorem textbookLoop_step (adj : Adj) (fuel : Nat) (st fin : TState)
    (h : textbookLoop adj fuel (textbookIter adj st) = some fin) :
    textbookLoop adj (fuel + 1) st = some fin := by
  unfold textbookLoop
  by_cases he : st.work.isEmpty = true
  · rw [if_pos he]
    have hw : st.work = [] := by simpa using he
    rw [textbookIter_of_empty adj st hw] at h
    cases fuel with
    | zero => simp [textbookLoop] at h
    | succ fuel =>
      unfold textbookLoop at h
      rw [if_pos he] at h
      exact h
  · rw [if_neg he]
    exact h

theorem textbookLoop_steps (adj : Adj) (k fuel : Nat) (st fin : TState)
    (h : textbookLoop adj fuel (Nat.iterate (textbookIter adj) k st) = some fin) :
    textbookLoop adj (fuel + k) st = some fin := by
  induction k generalizing st with
  | zero => exact h
  | succ k ih =>
    rw [Function.iterate_succ_apply] at h
    exact textbookLoop_step adj (fuel + k) st fin (ih _ h)

/-- Every result of the level loop is a result of the textbook loop. -/
theorem bfsLoop_textbook (adj : Adj) (fuel : Nat) (st fin : TState)
    (h : bfsLoop adj fuel st = some fin) : ∃ fuel2, textbookLoop adj fuel2 st = some fin := by
  induction fuel generalizing st with
  | zero => simp [bfsLoop] at h
  | succ fuel ih =>
    unfold bfsLoop at h
    by_cases he : st.work.isEmpty = true
    · rw [if_pos he] at h
      refine ⟨1, ?_⟩
      unfold textbookLoop
      rw [if_pos he]; exact h
    · rw [if_neg he] at h
      obtain ⟨f2, hf2⟩ := ih _ h
      rw [bfsIter_eq_textbook] at hf2
      exact ⟨f2 + st.work.length, textbookLoop_steps adj _ f2 st fin hf2⟩

theorem textbookLoop_mono (adj : Adj) (fuel : Nat) (st fin : TState)
    (h : textbookLoop adj fuel st = some fin) (fuel2 : Nat) (hle : fuel ≤ fuel2) :
    textbookLoop adj fuel2 st = some fin := by
  induction fuel generalizing st fuel2 with
  | zero => simp [textbookLoop] at h
  | succ fuel ih =>
    obtain ⟨f, rfl⟩ : ∃ f, fuel2 = f + 1 := ⟨fuel2 - 1, by omega⟩
    unfold textbookLoop at h ⊢
    by_cases he : st.work.isEmpty = true
    · rw [if_pos he] at h ⊢; exact h
    · rw [if_neg he] at h ⊢
      exact ih _ h f (by omega)

theorem winv_textbookIter {adj : Adj} {vis0 : Visited} {s : Nat} {st : TState}
    (h : WInv adj vis0 s st) (hw : st.work ≠ []) : WInv adj vis0 s (textbookIter adj st) := by
  obtain ⟨v, rest, hvr⟩ := List.exists_cons_of_ne_nil hw
  have hst : st = { visited := st.visited, work := v :: rest, out := st.out } := by
    rw [← hvr]
  rw [hst, textbookIter_cons]
  have hs := scan_acc_prefix (adj v) rest st.visited []
  rw [List.append_nil] at hs
  rw [hs]
  have hf : [v].flatMap adj = adj v := by simp
  have hr := winv_round h [v] rest
    (rest ++ (([v].flatMap adj).foldl bfsVisit (st.visited, [])).2)
    (by rw [hvr]; rfl) (List.Perm.refl _)
  rw [hf] at hr
  exact hr

theorem textbookIter_out_length (adj : Adj) (st : TState) (hw : st.work ≠ []) :
    (textbookIter adj st).out.length = st.out.length + 1 := by
  obtain ⟨v, rest, hvr⟩ := List.exists_cons_of_ne_nil hw
  have hst : st = { visited := st.visited, work := v :: rest, out := st.out } := by
    rw [← hvr]
  rw [hst, textbookIter_cons]
  simp

theorem textbookLoop_terminates (adj : Adj) (vis0 : Visited) (s : Nat) (U : List Nat)
    (hU : ∀ x, Reach adj s x → x ∈ U) (fuel : Nat) (st : TState)
    (h : WInv adj vis0 s st) (hfuel : U.length + 1 ≤ fuel + st.out.length) :
    ∃ fin, textbookLoop adj fuel st = some fin := by
  induction fuel generalizing st with
  | zero =>
    have := winv_length_le h U hU
    omega
  | succ fuel ih =>
    unfold textbookLoop
    by_cases hw : st.work = []
    · exact ⟨st, by simp [hw]⟩
    · have he : st.work.isEmpty = false := by simpa using hw
      rw [he]
      simp only [Bool.false_eq_true, if_false]
      apply ih _ (winv_textbookIter h hw)
      have := textbookIter_out_length adj st hw
      omega

end BfsDfs

namespace BfsDfs

/-- Closed form of a scan: the collected nodes are the unvisited elements of
the scanned list, in scan order, each at its first occurrence. -/
theorem scan_closed_form (l : List Nat) (vis0 : Visited) :
    ∀ (seen : List Nat) (vis : Visited) (acc : List Nat),
      (∀ x, vis x = true ↔ vis0 x = true ∨ x ∈ seen) →
      (l.foldl bfsVisit (vis, acc)).2 =
        acc ++ dedupFrom seen (l.filter (fun x => !vis0 x)) := by
  induction l with
  | nil => intro seen vis acc _; simp [dedupFrom]
  | cons x l ih =>
    intro seen vis acc hv
    rw [List.foldl_cons]
    by_cases h : vis x = true
    · rw [bfsVisit_seen (vis, acc) x h, ih seen vis acc hv]
      by_cases h0 : vis0 x = true
      · rw [List.filter_cons_of_neg (by simp [h0])]
      · have hx : x ∈ seen := by
          rcases (hv x).mp h with h1 | h1
          · exact absurd h1 h0
          · exact h1
        rw [List.filter_cons_of_pos (by simpa using h0)]
        conv_rhs => rw [dedupFrom, if_pos hx]
    · have h0 : ¬ vis0 x = true := fun h1 => h ((hv x).mpr (Or.inl h1))
      have hx : x ∉ seen := fun h1 => h ((hv x).mpr (Or.inr h1))
      rw [bfsVisit_unseen (vis, acc) x h, List.filter_cons_of_pos (by simpa using h0)]
      conv_rhs => rw [dedupFrom, if_neg hx]
      rw [ih (x :: seen) (markVisited vis x) (acc ++ [x])]
      · simp
      · intro y
        rw [markVisited_eq_true, hv, List.mem_cons]
        tauto

/-- C16: with the iterations of the parallel for in index order, `next_level`
holds the unvisited neighbours in scan order of `current_level` and, within
each node, in neighbour order, each at its first occurrence; and when the nodes
reached from `s` lie in the finite list `U`, `parallel_bfs` and the textbook
single-queue BFS, both started on an all-false array with fuel above the
length of `U`, return the same printed sequence (and the same array). -/
theorem C16_bfs_is_textbook (adj : Adj) (vis : Visited) (cur : List Nat) (s : Nat)
    (U : List Nat) (hU : ∀ x, Reach adj s x → x ∈ U) (fuel : Nat)
    (hfuel : U.length + 1 ≤ fuel) :
    (bfsExpand adj vis cur).2 = dedupFrom [] ((cur.flatMap adj).filter (fun x => !vis x)) ∧
    ∃ v out, parallel_bfs adj fuel s allFalse = some (v, out) ∧
      textbook_bfs adj fuel s allFalse = some (v, out) := by
  constructor
  · rw [bfsExpand_eq_scan, scan_closed_form (cur.flatMap adj) vis [] vis [] (by simp)]
    simp
  · have h0 := winv_init adj allFalse s rfl
    obtain ⟨fin, h1, _, _⟩ :=
      bfsLoop_terminates adj allFalse s U hU fuel _ h0 (by simp [initState]; omega)
    obtain ⟨f2, h2⟩ := bfsLoop_textbook adj fuel _ fin h1
    obtain ⟨fin2, h3⟩ :=
      textbookLoop_terminates adj allFalse s U hU fuel _ h0 (by simp [initState]; omega)
    have h4 := textbookLoop_mono adj f2 _ fin h2 (max f2 fuel) (Nat.le_max_left _ _)
    have h5 := textbookLoop_mono adj fuel _ fin2 h3 (max f2 fuel) (Nat.le_max_right _ _)
    have h6 : fin2 = fin := by
      rw [h4] at h5
      exact (Option.some.inj h5).symm
    refine ⟨fin.visited, fin.out, ?_, ?_⟩
    · unfold parallel_bfs; rw [h1]; rfl
    · unfold textbook_bfs; rw [h3, h6]; rfl

/-- C16 on the graph with edges (1,2), (1,3), (3,4), (2,4), (4,5), start 1,
and the level [2, 3] scanned when nodes 1, 2, 3 are marked. -/
theorem C16_bfs_is_textbook_witness :
    (bfsExpand (buildGraph [(1, 2), (1, 3), (3, 4), (2, 4), (4, 5)])
        (markVisited (markVisited (markVisited allFalse 1) 2) 3) [2, 3]).2 =
      dedupFrom [] (([2, 3].flatMap (buildGraph [(1, 2), (1, 3), (3, 4), (2, 4), (4, 5)])).filter
        (fun x => !(markVisited (markVisited (markVisited allFalse 1) 2) 3) x)) ∧
    ∃ v out,
      parallel_bfs (buildGraph [(1, 2), (1, 3), (3, 4), (2, 4), (4, 5)]) 6 1 allFalse
        = some (v, out) ∧
      textbook_bfs (buildGraph [(1, 2), (1, 3), (3, 4), (2, 4), (4, 5)]) 6 1 allFalse
        = some (v, out) :=
  C16_bfs_is_textbook (buildGraph [(1, 2), (1, 3), (3, 4), (2, 4), (4, 5)])
    (markVisited (markVisited (markVisited allFalse 1) 2) 3) [2, 3] 1 (List.range' 1 5)
    (reach_in_range (by decide) (by decide)) 6 (by decide)

end BfsDfs

namespace BfsDfs

/-! ## C15: `parallel_dfs` is not a recursive preorder DFS -/

theorem recDfs_covers {adj : Adj} {seen todo out : List Nat} (h : RecDfs adj seen todo out) :
    ∀ y, y ∈ todo → y ∈ seen ∨ y ∈ out := by
  induction h with
  | nil seen => intro y hy; cases hy
  | skip seen u todo out hu _ ih =>
    intro y hy
    rcases List.mem_cons.mp hy with hy | hy
    · rw [hy]; exact Or.inl hu
    · exact ih y hy
  | visit seen u todo nbrs out1 out2 _ _ _ _ _ ih2 =>
    intro y hy
    rcases List.mem_cons.mp hy with hy | hy
    · rw [hy]; exact Or.inr (by simp)
    · rcases ih2 y hy with h | h
      · rcases List.mem_cons.mp h with h | h
        · exact Or.inr (by rw [h]; simp)
        · rcases List.mem_append.mp h with h | h
          · exact Or.inr (by simp [h])
          · exact Or.inl h
      · exact Or.inr (by simp [h])

theorem recDfs_first {adj : Adj} {seen todo out : List Nat} (h : RecDfs adj seen todo out) :
    ∀ b o, out = b :: o → b ∈ todo := by
  induction h with
  | nil seen => intro b o hb; cases hb
  | skip seen u todo out _ _ ih =>
    intro b o hb
    exact List.mem_cons_of_mem _ (ih b o hb)
  | visit seen u todo nbrs out1 out2 _ _ _ _ _ _ =>
    intro b o hb
    rw [List.cons_append] at hb
    rw [(List.cons.inj hb).1]
    simp

theorem recDfs_closed {adj : Adj} {seen todo out : List Nat} (h : RecDfs adj seen todo out) :
    ∀ x, x ∈ out → ∀ c, c ∈ adj x → c ∈ seen ∨ c ∈ out := by
  induction h with
  | nil seen => intro x hx; cases hx
  | skip seen u todo out _ _ ih => exact ih
  | visit seen u todo nbrs out1 out2 _ hp h1 _ ih1 ih2 =>
    intro x hx c hc
    rw [List.cons_append] at hx
    rcases List.mem_cons.mp hx with hx | hx
    · rw [hx] at hc
      rcases recDfs_covers h1 c (hp.mem_iff.mpr hc) with h | h
      · rcases List.mem_cons.mp h with h | h
        · exact Or.inr (by rw [h]; simp)
        · exact Or.inl h
      · exact Or.inr (by simp [h])
    · rcases List.mem_append.mp hx with hx | hx
      · rcases ih1 x hx c hc with h | h
        · rcases List.mem_cons.mp h with h | h
          · exact Or.inr (by rw [h]; simp)
          · exact Or.inl h
        · exact Or.inr (by simp [h])
      · rcases ih2 x hx c hc with h | h
        · rcases List.mem_cons.mp h with h | h
          · exact Or.inr (by rw [h]; simp)
          · rcases List.mem_append.mp h with h | h
            · exact Or.inr (by simp [h])
            · exact Or.inl h
        · exact Or.inr (by simp [h])

/-- In a recursive preorder, a node `a` that still has an unvisited neighbour
when it is printed is followed by one of its neighbours. -/
theorem recDfs_next {adj : Adj} {seen todo out : List Nat} (h : RecDfs adj seen todo out) :
    ∀ pre a b post, out = pre ++ a :: b :: post →
      ∀ c, c ∈ adj a → c ∉ seen → c ∉ pre → c ≠ a → b ∈ adj a := by
  induction h with
  | nil seen =>
    intro pre a b post ho
    cases pre <;> cases ho
  | skip seen u todo out _ _ ih => exact ih
  | visit seen u todo nbrs out1 out2 hu hp h1 h2 ih1 ih2 =>
    intro pre a b post ho c hc hcs hcp hca
    rw [List.cons_append] at ho
    cases pre with
    | nil =>
      rw [List.nil_append] at ho
      obtain ⟨hua, hrest⟩ := List.cons.inj ho
      subst hua
      cases out1 with
      | nil =>
        exfalso
        rcases recDfs_covers h1 c (hp.mem_iff.mpr hc) with h | h
        · rcases List.mem_cons.mp h with h | h
          · exact hca h
          · exact hcs h
        · cases h
      | cons b1 o1 =>
        rw [List.cons_append] at hrest
        have hb : b1 = b := (List.cons.inj hrest).1
        have := recDfs_first h1 b1 o1 rfl
        rw [hb] at this
        exact hp.mem_iff.mp this
    | cons p pre2 =>
      rw [List.cons_append] at ho
      obtain ⟨hup, hrest⟩ := List.cons.inj ho
      subst hup
      have hcu : c ≠ u := fun h => hcp (by rw [h]; simp)
      have hcp2 : c ∉ pre2 := fun h => hcp (List.mem_cons_of_mem _ h)
      rcases List.append_eq_append_iff.mp hrest with ⟨a2, e1, e2⟩ | ⟨c2, e1, e2⟩
      · -- the pair lies in the output of the rest of `todo`
        refine ih2 a2 a b post e2 c hc ?_ ?_ hca
        · intro h
          rcases List.mem_cons.mp h with h | h
          · exact hcu h
          · rcases List.mem_append.mp h with h | h
            · exact hcp2 (by rw [e1]; exact List.mem_append.mpr (Or.inl h))
            · exact hcs h
        · intro h
          exact hcp2 (by rw [e1]; exact List.mem_append.mpr (Or.inr h))
      · cases c2 with
        | nil =>
          rw [List.nil_append] at e2
          rw [List.append_nil] at e1
          refine ih2 [] a b post e2.symm c hc ?_ (by simp) hca
          intro h
          rcases List.mem_cons.mp h with h | h
          · exact hcu h
          · rcases List.mem_append.mp h with h | h
            · exact hcp2 (by rw [← e1]; exact h)
            · exact hcs h
        | cons a3 c3 =>
          rw [List.cons_append] at e2
          obtain ⟨ha3, e3⟩ := List.cons.inj e2
          subst ha3
          cases c3 with
          | nil =>
            -- `a` is the last node printed below `u`: all its neighbours are seen
            exfalso
            rcases recDfs_closed h1 a (by rw [e1]; simp) c hc with h | h
            · rcases List.mem_cons.mp h with h | h
              · exact hcu h
              · exact hcs h
            · rw [e1] at h
              rcases List.mem_append.mp h with h | h
              · exact hcp2 h
              · rw [List.mem_singleton] at h
                exact hca h
          | cons b3 c4 =>
            rw [List.cons_append] at e3
            obtain ⟨hb3, _⟩ := List.cons.inj e3
            subst hb3
            refine ih1 pre2 a b c4 e1 c hc ?_ hcp2 hca
            intro h
            rcases List.mem_cons.mp h with h | h
            · exact hcu h
            · exact hcs h

/-- C15: on the graph with edges (1,2), (1,3), (1,4), (4,5), (5,2) and start
1, `parallel_dfs` (index order) prints 1, 4, 5, 3, 2.  This is not the preorder
of a recursive depth-first search from 1 for any ordering of the neighbour
lists: after 5 such a search prints the unvisited neighbour 2 of node 5.  The
sequence 1, 4, 5, 2, 3 is such a preorder. -/
theorem C15_not_recursive_preorder :
    (parallel_dfs (buildGraph [(1, 2), (1, 3), (1, 4), (4, 5), (5, 2)]) 6 1 allFalse).map
        (fun r => r.2) = some [1, 4, 5, 3, 2] ∧
    ¬ RecDfs (buildGraph [(1, 2), (1, 3), (1, 4), (4, 5), (5, 2)]) [] [1] [1, 4, 5, 3, 2] ∧
    RecDfs (buildGraph [(1, 2), (1, 3), (1, 4), (4, 5), (5, 2)]) [] [1] [1, 4, 5, 2, 3] := by
  refine ⟨by decide, fun h => ?_, ?_⟩
  · have h3 := recDfs_next h [1, 4] 5 3 [2] rfl 2 (by decide) (by simp) (by decide) (by decide)
    revert h3
    decide
  · exact RecDfs.visit [] 1 [] [4, 2, 3] [4, 5, 2, 3] [] (by decide) (by decide)
      (RecDfs.visit [1] 4 [2, 3] [1, 5] [5, 2] [3] (by decide) (by decide)
        (RecDfs.skip _ 1 [5] [5, 2] (by decide)
          (RecDfs.visit _ 5 [] [4, 2] [2] [] (by decide) (by decide)
            (RecDfs.skip _ 4 [2] [2] (by decide)
              (RecDfs.visit _ 2 [] [1, 5] [] [] (by decide) (by decide)
                (RecDfs.skip _ 1 [5] [] (by decide)
                  (RecDfs.skip _ 5 [] [] (by decide) (RecDfs.nil _)))
                (RecDfs.nil _)))
            (RecDfs.nil _)))
        (RecDfs.skip _ 2 [3] [3] (by decide)
          (RecDfs.visit _ 3 [] [1] [] [] (by decide) (by decide)
            (RecDfs.skip _ 1 [] [] (by decide) (RecDfs.nil _))
            (RecDfs.nil _))))
      (RecDfs.nil _)

end BfsDfs

namespace BfsDfs

/-! ## C19: the two critical sections of the region of `parallel_dfs` -/

theorem regionInv_init (nbrs : List Nat) (vis : Visited) :
    RegionInv nbrs vis [] [] (regionInit vis) where
  vis_iff := fun x => by simp [regionInit]
  needs := fun i h => by simp [regionInit] at h
  unique := fun i j h => by simp [regionInit] at h
  claimed_by := fun i x h => by cases h
  nodup := by simp [regionInit]
  mem_iff := fun x => by simp [regionInit]
  app_sub := fun i h => by cases h

theorem regionAct_claim_none {nbrs : List Nat} {st : RegionState} {i : Nat}
    (hn : nbrs[i]? = none) : regionAct nbrs st (RegionStep.claim i) = st := by
  simp [regionAct, hn]

theorem regionAct_claim_seen {nbrs : List Nat} {st : RegionState} {i u : Nat}
    (hn : nbrs[i]? = some u) (hv : st.visited u = true) :
    regionAct nbrs st (RegionStep.claim i) = st := by
  simp [regionAct, hn, hv]

theorem regionAct_claim_fresh {nbrs : List Nat} {st : RegionState} {i u : Nat}
    (hn : nbrs[i]? = some u) (hv : ¬ st.visited u = true) :
    regionAct nbrs st (RegionStep.claim i) =
      RegionState.mk (markVisited st.visited u) st.neighbors
        (fun j => if j = i then true else st.needs_push j) := by
  simp [regionAct, hn, hv]

theorem regionAct_append_none {nbrs : List Nat} {st : RegionState} {i : Nat}
    (hn : nbrs[i]? = none) : regionAct nbrs st (RegionStep.append i) = st := by
  simp [regionAct, hn]

theorem regionAct_append_push {nbrs : List Nat} {st : RegionState} {i u : Nat}
    (hn : nbrs[i]? = some u) (hp : st.needs_push i = true) :
    regionAct nbrs st (RegionStep.append i) =
      RegionState.mk st.visited (st.neighbors ++ [u]) st.needs_push := by
  simp [regionAct, hn, hp]

theorem regionAct_append_skip {nbrs : List Nat} {st : RegionState} {i u : Nat}
    (hn : nbrs[i]? = some u) (hp : ¬ st.needs_push i = true) :
    regionAct nbrs st (RegionStep.append i) = st := by
  simp [regionAct, hn, hp]

theorem regionInv_claim {nbrs : List Nat} {vis : Visited} {claimed appended : List Nat}
    {st : RegionState} (h : RegionInv nbrs vis claimed appended st) (i : Nat)
    (hic : i ∉ claimed) :
    RegionInv nbrs vis (i :: claimed) appended (regionAct nbrs st (RegionStep.claim i)) := by
  have hia : i ∉ appended := fun ha => hic (h.app_sub i ha)
  rcases Option.eq_none_or_eq_some (nbrs[i]?) with hn | ⟨u, hn⟩
  · rw [regionAct_claim_none hn]
    exact
      { vis_iff := fun x => by
          rw [h.vis_iff]
          constructor
          · rintro (h1 | ⟨j, hj, hx⟩)
            · exact Or.inl h1
            · exact Or.inr ⟨j, List.mem_cons_of_mem _ hj, hx⟩
          · rintro (h1 | ⟨j, hj, hx⟩)
            · exact Or.inl h1
            · rcases List.mem_cons.mp hj with hj | hj
              · rw [hj, hn] at hx; cases hx
              · exact Or.inr ⟨j, hj, hx⟩
        needs := fun j hj => ⟨List.mem_cons_of_mem _ (h.needs j hj).1, (h.needs j hj).2⟩
        unique := h.unique
        claimed_by := fun j x hj hx hv => by
          rcases List.mem_cons.mp hj with hj | hj
          · rw [hj, hn] at hx; cases hx
          · exact h.claimed_by j x hj hx hv
        nodup := h.nodup
        mem_iff := h.mem_iff
        app_sub := fun j hj => List.mem_cons_of_mem _ (h.app_sub j hj) }
  · by_cases hv : st.visited u = true
    · rw [regionAct_claim_seen hn hv]
      exact
        { vis_iff := fun x => by
            constructor
            · intro hx
              rcases (h.vis_iff x).mp hx with h1 | ⟨j, hj, hx2⟩
              · exact Or.inl h1
              · exact Or.inr ⟨j, List.mem_cons_of_mem _ hj, hx2⟩
            · rintro (h1 | ⟨j, hj, hx⟩)
              · exact (h.vis_iff x).mpr (Or.inl h1)
              · rcases List.mem_cons.mp hj with hj | hj
                · rw [hj, hn] at hx
                  rw [← Option.some.inj hx]; exact hv
                · exact (h.vis_iff x).mpr (Or.inr ⟨j, hj, hx⟩)
          needs := fun j hj => ⟨List.mem_cons_of_mem _ (h.needs j hj).1, (h.needs j hj).2⟩
          unique := h.unique
          claimed_by := fun j x hj hx hvx => by
            rcases List.mem_cons.mp hj with hj | hj
            · rw [hj, hn] at hx
              have hxu : u = x := Option.some.inj hx
              rw [hxu] at hv
              rcases (h.vis_iff x).mp hv with h1 | ⟨j2, hj2, hx2⟩
              · rw [hvx] at h1; cases h1
              · exact h.claimed_by j2 x hj2 hx2 hvx
            · exact h.claimed_by j x hj hx hvx
          nodup := h.nodup
          mem_iff := h.mem_iff
          app_sub := fun j hj => List.mem_cons_of_mem _ (h.app_sub j hj) }
    · rw [regionAct_claim_fresh hn hv]
      have hvu : vis u = false := by
        by_contra hne
        exact hv ((h.vis_iff u).mpr (Or.inl (by simpa using hne)))
      have hnone : ∀ j, j ∈ claimed → nbrs[j]? ≠ some u := fun j hj hx =>
        hv ((h.vis_iff u).mpr (Or.inr ⟨j, hj, hx⟩))
      exact
        { vis_iff := fun x => by
            show markVisited st.visited u x = true ↔ _
            rw [markVisited_eq_true, h.vis_iff]
            constructor
            · rintro (h1 | h1 | ⟨j, hj, hx⟩)
              · exact Or.inr ⟨i, by simp, by rw [hn, h1]⟩
              · exact Or.inl h1
              · exact Or.inr ⟨j, List.mem_cons_of_mem _ hj, hx⟩
            · rintro (h1 | ⟨j, hj, hx⟩)
              · exact Or.inr (Or.inl h1)
              · rcases List.mem_cons.mp hj with hj | hj
                · rw [hj, hn] at hx
                  exact Or.inl (Option.some.inj hx).symm
                · exact Or.inr (Or.inr ⟨j, hj, hx⟩)
          needs := fun j hj => by
            by_cases hji : j = i
            · rw [hji]
              exact ⟨by simp, u, hn, hvu⟩
            · have hj2 : st.needs_push j = true := by simpa [hji] using hj
              exact ⟨List.mem_cons_of_mem _ (h.needs j hj2).1, (h.needs j hj2).2⟩
          unique := fun j1 j2 h1 h2 he => by
            by_cases e1 : j1 = i <;> by_cases e2 : j2 = i
            · rw [e1, e2]
            · exfalso
              have h2b : st.needs_push j2 = true := by simpa [e2] using h2
              rw [e1, hn] at he
              exact hnone j2 (h.needs j2 h2b).1 he.symm
            · exfalso
              have h1b : st.needs_push j1 = true := by simpa [e1] using h1
              rw [e2, hn] at he
              exact hnone j1 (h.needs j1 h1b).1 he
            · have h1b : st.needs_push j1 = true := by simpa [e1] using h1
              have h2b : st.needs_push j2 = true := by simpa [e2] using h2
              exact h.unique j1 j2 h1b h2b he
          claimed_by := fun j x hj hx hvx => by
            rcases List.mem_cons.mp hj with hj | hj
            · rw [hj] at hx
              exact ⟨i, by simp, hx⟩
            · obtain ⟨j2, hj2, hx2⟩ := h.claimed_by j x hj hx hvx
              refine ⟨j2, ?_, hx2⟩
              show (if j2 = i then true else st.needs_push j2) = true
              by_cases e : j2 = i
              · rw [if_pos e]
              · rw [if_neg e]; exact hj2
          nodup := h.nodup
          mem_iff := fun x => by
            show x ∈ st.neighbors ↔ _
            rw [h.mem_iff]
            constructor
            · rintro ⟨j, hj, h1, h2⟩
              refine ⟨j, hj, ?_, h2⟩
              show (if j = i then true else st.needs_push j) = true
              by_cases e : j = i
              · rw [if_pos e]
              · rw [if_neg e]; exact h1
            · rintro ⟨j, hj, h1, h2⟩
              have e : j ≠ i := fun e => hia (e ▸ hj)
              refine ⟨j, hj, ?_, h2⟩
              have h1b : (if j = i then true else st.needs_push j) = true := h1
              rwa [if_neg e] at h1b
          app_sub := fun j hj => List.mem_cons_of_mem _ (h.app_sub j hj) }

theorem regionInv_append {nbrs : List Nat} {vis : Visited} {claimed appended : List Nat}
    {st : RegionState} (h : RegionInv nbrs vis claimed appended st) (i : Nat)
    (hic : i ∈ claimed) (hia : i ∉ appended) :
    RegionInv nbrs vis claimed (i :: appended) (regionAct nbrs st (RegionStep.append i)) := by
  have hsub : ∀ j, j ∈ i :: appended → j ∈ claimed := fun j hj => by
    rcases List.mem_cons.mp hj with hj | hj
    · rw [hj]; exact hic
    · exact h.app_sub j hj
  rcases Option.eq_none_or_eq_some (nbrs[i]?) with hn | ⟨u, hn⟩
  · rw [regionAct_append_none hn]
    exact
      { vis_iff := h.vis_iff
        needs := h.needs
        unique := h.unique
        claimed_by := h.claimed_by
        nodup := h.nodup
        mem_iff := fun x => by
          rw [h.mem_iff]
          constructor
          · rintro ⟨j, hj, h1, h2⟩
            exact ⟨j, List.mem_cons_of_mem _ hj, h1, h2⟩
          · rintro ⟨j, hj, h1, h2⟩
            rcases List.mem_cons.mp hj with hj | hj
            · rw [hj, hn] at h2; cases h2
            · exact ⟨j, hj, h1, h2⟩
        app_sub := hsub }
  · by_cases hp : st.needs_push i = true
    · rw [regionAct_append_push hn hp]
      exact
        { vis_iff := h.vis_iff
          needs := h.needs
          unique := h.unique
          claimed_by := h.claimed_by
          nodup := by
            show (st.neighbors ++ [u]).Nodup
            rw [List.nodup_append]
            refine ⟨h.nodup, List.nodup_singleton u, fun x hx hx2 => ?_⟩
            rw [List.mem_singleton] at hx2
            rw [hx2] at hx
            obtain ⟨j, hj, h1, h2⟩ := (h.mem_iff u).mp hx
            have := h.unique i j hp h1 (by rw [hn, h2])
            exact hia (this ▸ hj)
          mem_iff := fun x => by
            show x ∈ st.neighbors ++ [u] ↔ _
            rw [List.mem_append, h.mem_iff, List.mem_singleton]
            constructor
            · rintro (⟨j, hj, h1, h2⟩ | hx)
              · exact ⟨j, List.mem_cons_of_mem _ hj, h1, h2⟩
              · exact ⟨i, by simp, hp, by rw [hn, hx]⟩
            · rintro ⟨j, hj, h1, h2⟩
              rcases List.mem_cons.mp hj with hj | hj
              · rw [hj, hn] at h2
                exact Or.inr (Option.some.inj h2).symm
              · exact Or.inl ⟨j, hj, h1, h2⟩
          app_sub := hsub }
    · rw [regionAct_append_skip hn hp]
      exact
        { vis_iff := h.vis_iff
          needs := h.needs
          unique := h.unique
          claimed_by := h.claimed_by
          nodup := h.nodup
          mem_iff := fun x => by
            rw [h.mem_iff]
            constructor
            · rintro ⟨j, hj, h1, h2⟩
              exact ⟨j, List.mem_cons_of_mem _ hj, h1, h2⟩
            · rintro ⟨j, hj, h1, h2⟩
              rcases List.mem_cons.mp hj with hj | hj
              · rw [hj] at h1; exact absurd h1 hp
              · exact ⟨j, hj, h1, h2⟩
          app_sub := hsub }

theorem region_fold (nbrs : List Nat) (vis : Visited) (sched : List RegionStep) :
    ∀ (claimed appended : List Nat) (st : RegionState),
      RegionInv nbrs vis claimed appended st →
      schedOk nbrs.length sched claimed appended = true →
      (sched.foldl (regionAct nbrs) st).neighbors.Nodup ∧
        (∀ x, x ∈ (sched.foldl (regionAct nbrs) st).neighbors ↔ x ∈ nbrs ∧ vis x = false) ∧
        ∀ x, (sched.foldl (regionAct nbrs) st).visited x = true ↔ vis x = true ∨ x ∈ nbrs := by
  induction sched with
  | nil =>
    intro claimed appended st h hok
    simp only [schedOk, List.all_eq_true, List.mem_range, Bool.and_eq_true,
      decide_eq_true_eq] at hok
    refine ⟨h.nodup, fun x => ?_, fun x => ?_⟩
    · show x ∈ st.neighbors ↔ _
      rw [h.mem_iff]
      constructor
      · rintro ⟨i, _, h1, h2⟩
        obtain ⟨_, y, hy, hvy⟩ := h.needs i h1
        rw [h2] at hy
        rw [Option.some.inj hy]
        exact ⟨List.getElem?_mem (hy ▸ h2), hvy⟩
      · rintro ⟨hx, hvx⟩
        obtain ⟨i, hi, hxi⟩ := List.getElem_of_mem hx
        have hget : nbrs[i]? = some x := by rw [List.getElem?_eq_getElem hi, hxi]
        obtain ⟨j, hj1, hj2⟩ := h.claimed_by i x (hok i hi).1 hget hvx
        have hjlen : j < nbrs.length := by
          by_contra hge
          rw [List.getElem?_eq_none (by omega)] at hj2
          cases hj2
        exact ⟨j, (hok j hjlen).2, hj1, hj2⟩
    · show st.visited x = true ↔ _
      rw [h.vis_iff]
      constructor
      · rintro (h1 | ⟨i, _, hx⟩)
        · exact Or.inl h1
        · exact Or.inr (List.getElem?_mem hx)
      · rintro (h1 | hx)
        · exact Or.inl h1
        · obtain ⟨i, hi, hxi⟩ := List.getElem_of_mem hx
          exact Or.inr ⟨i, (hok i hi).1, by rw [List.getElem?_eq_getElem hi, hxi]⟩
  | cons a sched ih =>
    intro claimed appended st h hok
    rw [List.foldl_cons]
    cases a with
    | claim i =>
      simp only [schedOk, Bool.and_eq_true, decide_eq_true_eq] at hok
      exact ih _ _ _ (regionInv_claim h i hok.1.2) hok.2
    | append i =>
      simp only [schedOk, Bool.and_eq_true, decide_eq_true_eq] at hok
      exact ih _ _ _ (regionInv_append h i hok.1.1 hok.1.2) hok.2

/-- What the region of `parallel_dfs` leaves in `neighbors` and `visited`, for
every schedule of its critical sections. -/
theorem runRegion_spec (nbrs : List Nat) (vis : Visited) (sched : List RegionStep)
    (h : ValidRegionSched nbrs.length sched) :
    (runRegion nbrs sched vis).neighbors.Nodup ∧
      (∀ x, x ∈ (runRegion nbrs sched vis).neighbors ↔ x ∈ nbrs ∧ vis x = false) ∧
      ∀ x, (runRegion nbrs sched vis).visited x = true ↔ vis x = true ∨ x ∈ nbrs :=
  region_fold nbrs vis sched [] [] _ (regionInv_init nbrs vis) h

end BfsDfs

namespace BfsDfs

/-- A run under schedules of the critical sections is a run in which every
batch is collected in some order. -/
theorem dfsFineRun_schedRun {adj : Adj} {vis : Visited} {stack : List Nat}
    {t : List (Nat × List Nat)} (h : DfsFineRun adj vis stack t) :
    DfsSchedRun adj vis stack t := by
  induction h with
  | done vis => exact DfsSchedRun.done vis
  | step vis v rest sched t hs _ ih =>
    obtain ⟨r1, r2, r3⟩ := runRegion_spec (adj v) vis sched hs
    obtain ⟨e1, e2, e3⟩ := dfsExpand_spec adj vis v
    have hvis : (runRegion (adj v) sched vis).visited = (dfsExpand adj vis v).1 := by
      funext x
      rw [Bool.eq_iff_iff, r3, e3]
    have hperm : (runRegion (adj v) sched vis).neighbors.Perm (dfsExpand adj vis v).2 := by
      rw [List.perm_ext_iff_of_nodup r1 e1]
      intro x
      rw [r2, e2]
    rw [hvis] at ih
    exact DfsSchedRun.step vis v rest _ t hperm ih

/-- Along a run of `DfsSchedRun` the traversal invariant is kept; at the end
the stack is empty. -/
theorem dfsSchedRun_winv {adj : Adj} {vis0 : Visited} {s : Nat} {vis : Visited}
    {stack : List Nat} {t : List (Nat × List Nat)} (h : DfsSchedRun adj vis stack t) :
    ∀ out, WInv adj vis0 s { visited := vis, work := stack, out := out } →
      ∃ visf, WInv adj vis0 s { visited := visf, work := [], out := out ++ emittedSoFar t } := by
  induction h with
  | done vis =>
    intro out hw
    exact ⟨vis, by simpa [emittedSoFar] using hw⟩
  | step vis v rest batch t hb _ ih =>
    intro out hw
    have hf : [v].flatMap adj = adj v := by simp
    have hexp : dfsExpand adj vis v = (([v].flatMap adj).foldl bfsVisit (vis, [])) := by
      unfold dfsExpand
      rw [dfsVisit_eq_bfsVisit, hf]
    have hr := winv_round hw [v] rest (pushAll rest batch) (List.Perm.refl _) (by
      show (pushAll rest batch).Perm (rest ++ (([v].flatMap adj).foldl bfsVisit (vis, [])).2)
      rw [pushAll_eq, ← hexp]
      exact (List.perm_append_comm).trans
        (List.Perm.append_left _ ((List.reverse_perm _).trans hb)))
    rw [← hexp] at hr
    obtain ⟨visf, hfin⟩ := ih (out ++ [v]) hr
    refine ⟨visf, ?_⟩
    have he : (out ++ [v]) ++ emittedSoFar t = out ++ emittedSoFar ((v, batch) :: t) := by
      simp [emittedSoFar]
    rw [he] at hfin
    exact hfin

theorem dfsSchedRun_emitted {adj : Adj} {vis0 : Visited} {s : Nat}
    {t : List (Nat × List Nat)} (hfree : ∀ x, Reach adj s x → vis0 x = false)
    (h : DfsSchedRun adj (markVisited vis0 s) [s] t) :
    (emittedSoFar t).Nodup ∧ ∀ x, x ∈ emittedSoFar t ↔ Reach adj s x := by
  have h0 := winv_init adj vis0 s (hfree s Relation.ReflTransGen.refl)
  obtain ⟨visf, hfin⟩ := dfsSchedRun_winv h [] h0
  rw [List.nil_append] at hfin
  obtain ⟨h1, h2, _⟩ := traversal_result hfin rfl hfree
  exact ⟨h1, h2⟩

/-- C19: in `parallel_dfs` the check-and-set and the append are separate
critical sections.  For every schedule of these steps over the neighbours of a
popped node `v`, the vector `neighbors` pushed after the region has no repeated
node and holds exactly the neighbours of `v` that were unvisited when `v` was
popped.  Hence any two runs from `s` on an all-false array, whatever schedule
each region takes, print the same set of nodes, the nodes reached from `s`,
each once. -/
theorem C19_dfs_region_schedules (adj : Adj) (vis : Visited) (v : Nat)
    (sched : List RegionStep) (hsched : ValidRegionSched (adj v).length sched)
    (s : Nat) (t1 t2 : List (Nat × List Nat))
    (h1 : DfsFineRun adj (markVisited allFalse s) [s] t1)
    (h2 : DfsFineRun adj (markVisited allFalse s) [s] t2) :
    ((runRegion (adj v) sched vis).neighbors.Nodup ∧
      ∀ x, x ∈ (runRegion (adj v) sched vis).neighbors ↔ x ∈ adj v ∧ vis x = false) ∧
    (∀ x, x ∈ emittedSoFar t1 ↔ x ∈ emittedSoFar t2) ∧
    (emittedSoFar t1).Nodup ∧ ∀ x, x ∈ emittedSoFar t1 ↔ Reach adj s x := by
  obtain ⟨r1, r2, _⟩ := runRegion_spec (adj v) vis sched hsched
  obtain ⟨a1, a2⟩ := dfsSchedRun_emitted (fun _ _ => rfl) (dfsFineRun_schedRun h1)
  obtain ⟨_, b2⟩ := dfsSchedRun_emitted (fun _ _ => rfl) (dfsFineRun_schedRun h2)
  exact ⟨⟨r1, r2⟩, fun x => by rw [a2, b2], a1, a2⟩

/-- C19 on the graph with edges (1,2), (1,3): the region of node 1 under the
schedule claim 1, claim 0, append 1, append 0 collects [3, 2]; one run takes
the regions in index order, the other takes this schedule for node 1. -/
theorem C19_dfs_region_schedules_witness :
    ValidRegionSched (buildGraph [(1, 2), (1, 3)] 1).length
      [RegionStep.claim 1, RegionStep.claim 0, RegionStep.append 1, RegionStep.append 0] ∧
    DfsFineRun (buildGraph [(1, 2), (1, 3)]) (markVisited allFalse 1) [1]
      [(1, [2, 3]), (3, []), (2, [])] ∧
    DfsFineRun (buildGraph [(1, 2), (1, 3)]) (markVisited allFalse 1) [1]
      [(1, [3, 2]), (2, []), (3, [])] ∧
    (((runRegion (buildGraph [(1, 2), (1, 3)] 1)
        [RegionStep.claim 1, RegionStep.claim 0, RegionStep.append 1, RegionStep.append 0]
        (markVisited allFalse 1)).neighbors.Nodup ∧
      ∀ x, x ∈ (runRegion (buildGraph [(1, 2), (1, 3)] 1)
        [RegionStep.claim 1, RegionStep.claim 0, RegionStep.append 1, RegionStep.append 0]
        (markVisited allFalse 1)).neighbors ↔
          x ∈ buildGraph [(1, 2), (1, 3)] 1 ∧ (markVisited allFalse 1) x = false) ∧
    (∀ x, x ∈ emittedSoFar [(1, [2, 3]), (3, []), (2, [])] ↔
      x ∈ emittedSoFar [(1, [3, 2]), (2, []), (3, [])]) ∧
    (emittedSoFar [(1, [2, 3]), (3, []), (2, [])]).Nodup ∧
    ∀ x, x ∈ emittedSoFar [(1, [2, 3]), (3, []), (2, [])] ↔
      Reach (buildGraph [(1, 2), (1, 3)]) 1 x) :=
  have hs : ValidRegionSched (buildGraph [(1, 2), (1, 3)] 1).length
      [RegionStep.claim 1, RegionStep.claim 0, RegionStep.append 1, RegionStep.append 0] := by
    decide
  have r1 : DfsFineRun (buildGraph [(1, 2), (1, 3)]) (markVisited allFalse 1) [1]
      [(1, [2, 3]), (3, []), (2, [])] :=
    DfsFineRun.step _ 1 []
      [RegionStep.claim 0, RegionStep.append 0, RegionStep.claim 1, RegionStep.append 1] _
      (by decide)
      (DfsFineRun.step _ 3 [2] [RegionStep.claim 0, RegionStep.append 0] _ (by decide)
        (DfsFineRun.step _ 2 [] [RegionStep.claim 0, RegionStep.append 0] _ (by decide)
          (DfsFineRun.done _)))
  have r2 : DfsFineRun (buildGraph [(1, 2), (1, 3)]) (markVisited allFalse 1) [1]
      [(1, [3, 2]), (2, []), (3, [])] :=
    DfsFineRun.step _ 1 []
      [RegionStep.claim 1, RegionStep.claim 0, RegionStep.append 1, RegionStep.append 0] _
      hs
      (DfsFineRun.step _ 2 [3] [RegionStep.claim 0, RegionStep.append 0] _ (by decide)
        (DfsFineRun.step _ 3 [] [RegionStep.claim 0, RegionStep.append 0] _ (by decide)
          (DfsFineRun.done _)))
  ⟨hs, r1, r2, C19_dfs_region_schedules _ (markVisited allFalse 1) 1 _ hs 1 _ _ r1 r2⟩

end BfsDfs

namespace BfsDfs

/-! ## The traversals under every scheduler: invariant, termination, result -/

/-- Under any interleaving, the region of `parallel_bfs` leaves the array the
index order leaves, and a permutation of its `next_level`. -/
theorem bfsExpandSched_index {adj : Adj} {cur sched : List Nat}
    (h : Interleave (cur.map adj) sched) (vis : Visited) :
    (bfsExpandSched sched vis).1 = ((cur.flatMap adj).foldl bfsVisit (vis, [])).1 ∧
      (bfsExpandSched sched vis).2.Perm ((cur.flatMap adj).foldl bfsVisit (vis, [])).2 := by
  obtain ⟨a1, a2, a3⟩ := bfsExpandSched_spec h vis
  obtain ⟨b1, b2, b3⟩ := bfsExpandSched_spec (interleave_index_order adj cur) vis
  unfold bfsExpandSched at b1 b2 b3
  constructor
  · funext x
    rw [Bool.eq_iff_iff, a3, b3]
  · rw [List.perm_ext_iff_of_nodup a1 b1]
    intro x
    rw [a2, b2]

theorem bfsIterSched_eq (σ : BfsScheduler) (st : TState) :
    bfsIterSched σ st =
      { visited := (bfsExpandSched (σ st) st.visited).1,
        work := (bfsExpandSched (σ st) st.visited).2, out := st.out ++ st.work } := by
  unfold bfsIterSched
  rw [bfsIterWith_eq]

theorem winv_bfsIterWith {adj : Adj} {vis0 : Visited} {s : Nat} {st : TState}
    {sched : List Nat} (hint : Interleave (st.work.map adj) sched) (h : WInv adj vis0 s st) :
    WInv adj vis0 s (bfsIterWith (fun vis _ => bfsExpandSched sched vis) st) := by
  obtain ⟨e1, e2⟩ := bfsExpandSched_index hint st.visited
  rw [bfsIterWith_eq, e1]
  exact winv_round h st.work [] _ (by simp) (by simpa using e2)

theorem winv_bfsIterSched {adj : Adj} {vis0 : Visited} {s : Nat} {st : TState}
    {σ : BfsScheduler} (hσ : BfsSchedulerOk adj σ) (h : WInv adj vis0 s st) :
    WInv adj vis0 s (bfsIterSched σ st) :=
  winv_bfsIterWith (hσ st) h

theorem bfsIterSched_out_length (σ : BfsScheduler) (st : TState) (hw : st.work ≠ []) :
    st.out.length + 1 ≤ (bfsIterSched σ st).out.length := by
  rw [bfsIterSched_eq]
  simp only [List.length_append]
  have := List.length_pos.mpr hw
  omega

/-- Under every scheduler, with more fuel than there are nodes to reach, the
loop of `parallel_bfs` ends with an empty queue. -/
theorem bfsLoopSched_terminates (adj : Adj) (σ : BfsScheduler) (hσ : BfsSchedulerOk adj σ)
    (vis0 : Visited) (s : Nat) (U : List Nat)
    (hU : ∀ x, Reach adj s x → x ∈ U) (fuel : Nat) (st : TState)
    (h : WInv adj vis0 s st) (hfuel : U.length + 1 ≤ fuel + st.out.length) :
    ∃ fin, bfsLoopSched σ fuel st = some fin ∧ fin.work = [] ∧ WInv adj vis0 s fin := by
  induction fuel generalizing st with
  | zero =>
    have := winv_length_le h U hU
    omega
  | succ fuel ih =>
    unfold bfsLoopSched
    by_cases hw : st.work = []
    · exact ⟨st, by simp [hw], hw, h⟩
    · have he : st.work.isEmpty = false := by simpa using hw
      rw [he]
      simp only [Bool.false_eq_true, if_false]
      apply ih _ (winv_bfsIterSched hσ h)
      have := bfsIterSched_out_length σ st hw
      omega

theorem parallel_bfs_sched_spec (adj : Adj) (σ : BfsScheduler) (hσ : BfsSchedulerOk adj σ)
    (vis0 : Visited) (s : Nat) (U : List Nat)
    (hU : ∀ x, Reach adj s x → x ∈ U) (hfree : ∀ x, Reach adj s x → vis0 x = false)
    (fuel : Nat) (hfuel : U.length + 1 ≤ fuel) :
    ∃ vis out, parallel_bfs_sched σ fuel s vis0 = some (vis, out) ∧ out.Nodup ∧
      (∀ x, x ∈ out ↔ Reach adj s x) ∧
      ∀ x, vis x = true ↔ vis0 x = true ∨ Reach adj s x := by
  have h0 := winv_init adj vis0 s (hfree s Relation.ReflTransGen.refl)
  obtain ⟨fin, h1, h2, h3⟩ :=
    bfsLoopSched_terminates adj σ hσ vis0 s U hU fuel _ h0 (by simp [initState]; omega)
  refine ⟨fin.visited, fin.out, ?_, traversal_result h3 h2 hfree⟩
  unfold parallel_bfs_sched
  rw [h1]; rfl

/-- Under any schedule of its critical sections, the region of `parallel_dfs`
leaves the array the index order leaves, and a permutation of its
`neighbors`. -/
theorem runRegion_index (adj : Adj) (vis : Visited) (v : Nat) (sched : List RegionStep)
    (hs : ValidRegionSched (adj v).length sched) :
    (runRegion (adj v) sched vis).visited = (dfsExpand adj vis v).1 ∧
      (runRegion (adj v) sched vis).neighbors.Perm (dfsExpand adj vis v).2 := by
  obtain ⟨r1, r2, r3⟩ := runRegion_spec (adj v) vis sched hs
  obtain ⟨e1, e2, e3⟩ := dfsExpand_spec adj vis v
  constructor
  · funext x
    rw [Bool.eq_iff_iff, r3, e3]
  · rw [List.perm_ext_iff_of_nodup r1 e1]
    intro x
    rw [r2, e2]

theorem dfsIterSched_eq (adj : Adj) (τ : DfsScheduler) (st : TState) (v : Nat)
    (rest : List Nat) (hw : st.work = v :: rest) :
    dfsIterSched adj τ st =
      TState.mk (runRegion (adj v) (τ st) st.visited).visited
        (pushAll rest (runRegion (adj v) (τ st) st.visited).neighbors) (st.out ++ [v]) := by
  unfold dfsIterSched
  rw [hw]

theorem dfsIterSched_of_empty (adj : Adj) (τ : DfsScheduler) (st : TState)
    (hw : st.work = []) : dfsIterSched adj τ st = st := by
  unfold dfsIterSched
  rw [hw]

theorem winv_dfsIterSched {adj : Adj} {vis0 : Visited} {s : Nat} {st : TState}
    {τ : DfsScheduler} (hτ : DfsSchedulerOk adj τ) (h : WInv adj vis0 s st)
    (hw : st.work ≠ []) : WInv adj vis0 s (dfsIterSched adj τ st) := by
  obtain ⟨v, rest, hvr⟩ := List.exists_cons_of_ne_nil hw
  obtain ⟨e1, e2⟩ := runRegion_index adj st.visited v (τ st) (hτ st v rest hvr)
  have hf : [v].flatMap adj = adj v := by simp
  have hexp : dfsExpand adj st.visited v =
      (([v].flatMap adj).foldl bfsVisit (st.visited, [])) := by
    unfold dfsExpand
    rw [dfsVisit_eq_bfsVisit, hf]
  rw [dfsIterSched_eq adj τ st v rest hvr, e1, hexp]
  refine winv_round h [v] rest _ (by rw [hvr]; rfl) ?_
  rw [pushAll_eq, ← hexp]
  exact (List.perm_append_comm).trans
    (List.Perm.append_left _ ((List.reverse_perm _).trans e2))

theorem dfsIterSched_out_length (adj : Adj) (τ : DfsScheduler) (st : TState)
    (hw : st.work ≠ []) : (dfsIterSched adj τ st).out.length = st.out.length + 1 := by
  obtain ⟨v, rest, hvr⟩ := List.exists_cons_of_ne_nil hw
  rw [dfsIterSched_eq adj τ st v rest hvr]
  simp

/-- Under every scheduler, with more fuel than there are nodes to reach, the
loop of `parallel_dfs` ends with an empty stack. -/
theorem dfsLoopSched_terminates (adj : Adj) (τ : DfsScheduler) (hτ : DfsSchedulerOk adj τ)
    (vis0 : Visited) (s : Nat) (U : List Nat)
    (hU : ∀ x, Reach adj s x → x ∈ U) (fuel : Nat) (st : TState)
    (h : WInv adj vis0 s st) (hfuel : U.length + 1 ≤ fuel + st.out.length) :
    ∃ fin, dfsLoopSched adj τ fuel st = some fin ∧ fin.work = [] ∧ WInv adj vis0 s fin := by
  induction fuel generalizing st with
  | zero =>
    have := winv_length_le h U hU
    omega
  | succ fuel ih =>
    unfold dfsLoopSched
    by_cases hw : st.work = []
    · exact ⟨st, by simp [hw], hw, h⟩
    · have he : st.work.isEmpty = false := by simpa using hw
      rw [he]
      simp only [Bool.false_eq_true, if_false]
      apply ih _ (winv_dfsIterSched hτ h hw)
      have := dfsIterSched_out_length adj τ st hw
      omega

theorem parallel_dfs_sched_spec (adj : Adj) (τ : DfsScheduler) (hτ : DfsSchedulerOk adj τ)
    (vis0 : Visited) (s : Nat) (U : List Nat)
    (hU : ∀ x, Reach adj s x → x ∈ U) (hfree : ∀ x, Reach adj s x → vis0 x = false)
    (fuel : Nat) (hfuel : U.length + 1 ≤ fuel) :
    ∃ vis out, parallel_dfs_sched adj τ fuel s vis0 = some (vis, out) ∧ out.Nodup ∧
      (∀ x, x ∈ out ↔ Reach adj s x) ∧
      ∀ x, vis x = true ↔ vis0 x = true ∨ Reach adj s x := by
  have h0 := winv_init adj vis0 s (hfree s Relation.ReflTransGen.refl)
  obtain ⟨fin, h1, h2, h3⟩ :=
    dfsLoopSched_terminates adj τ hτ vis0 s U hU fuel _ h0 (by simp [initState]; omega)
  refine ⟨fin.visited, fin.out, ?_, traversal_result h3 h2 hfree⟩
  unfold parallel_dfs_sched
  rw [h1]; rfl

end BfsDfs

namespace BfsDfs

/-! ## Schedulers: the index order, a reversed order, and the runs they give -/

theorem interleave_snoc_list (l : List Nat) {ls : List (List Nat)} {sched : List Nat}
    (h : Interleave ls sched) : Interleave (l :: ls) (sched ++ l) := by
  induction h with
  | done ls hnil =>
    rw [List.nil_append]
    have h0 : Interleave ls [] := Interleave.done ls hnil
    have := interleave_cons l h0
    rwa [List.append_nil] at this
  | step pre post u rest sched _ ih =>
    exact Interleave.step (l :: pre) post u rest (sched ++ l) ih

theorem interleave_reverse_order (adj : Adj) (cur : List Nat) :
    Interleave (cur.map adj) (cur.reverse.flatMap adj) := by
  induction cur with
  | nil => exact Interleave.done _ (fun l hl => by cases hl)
  | cons v cur ih =>
    rw [List.map_cons, List.reverse_cons, List.flatMap_append]
    have := interleave_snoc_list (adj v) ih
    simpa using this

theorem indexBfsScheduler_ok (adj : Adj) : BfsSchedulerOk adj (indexBfsScheduler adj) :=
  fun st => interleave_index_order adj st.work

theorem reverseBfsScheduler_ok (adj : Adj) : BfsSchedulerOk adj (reverseBfsScheduler adj) :=
  fun st => interleave_reverse_order adj st.work

theorem schedOk_index (len : Nat) :
    ∀ (m k : Nat) (claimed appended : List Nat), k + m = len →
      (∀ i, i ∈ claimed ↔ i < k) → (∀ i, i ∈ appended ↔ i < k) →
      schedOk len ((List.range' k m).flatMap
        (fun i => [RegionStep.claim i, RegionStep.append i])) claimed appended = true := by
  intro m
  induction m with
  | zero =>
    intro k claimed appended hk hc ha
    simp only [List.range'_zero, List.flatMap_nil, schedOk, List.all_eq_true, List.mem_range,
      Bool.and_eq_true, decide_eq_true_eq]
    intro i hi
    exact ⟨(hc i).mpr (by omega), (ha i).mpr (by omega)⟩
  | succ m ih =>
    intro k claimed appended hk hc ha
    rw [List.range'_succ, List.flatMap_cons]
    simp only [List.cons_append, List.nil_append, schedOk, Bool.and_eq_true, decide_eq_true_eq]
    refine ⟨⟨by omega, fun h => by have := (hc k).mp h; omega⟩,
      ⟨by simp, fun h => by have := (ha k).mp h; omega⟩, ?_⟩
    apply ih (k + 1) _ _ (by omega)
    · intro i
      rw [List.mem_cons, hc]; omega
    · intro i
      rw [List.mem_cons, ha]; omega

theorem indexRegionSched_valid (len : Nat) : ValidRegionSched len (indexRegionSched len) := by
  unfold ValidRegionSched indexRegionSched
  rw [List.range_eq_range']
  exact schedOk_index len len 0 [] [] (by omega) (by simp) (by simp)

theorem indexDfsScheduler_ok (adj : Adj) : DfsSchedulerOk adj (indexDfsScheduler adj) := by
  intro st v rest hw
  unfold indexDfsScheduler
  rw [hw]
  exact indexRegionSched_valid _

theorem reverseDfsScheduler_ok (adj : Adj) : DfsSchedulerOk adj (reverseDfsScheduler adj) := by
  intro st v rest hw
  unfold reverseDfsScheduler
  rw [hw]
  simp only
  by_cases h : ValidRegionSched (adj v).length (reverseRegionSched (adj v).length)
  · rw [if_pos h]; exact h
  · rw [if_neg h]; exact indexRegionSched_valid _

/-- The executable `parallel_bfs` is `parallel_bfs` under the index-order
scheduler. -/
theorem bfsLoop_eq_sched (adj : Adj) (fuel : Nat) (st : TState) :
    bfsLoop adj fuel st = bfsLoopSched (indexBfsScheduler adj) fuel st := by
  induction fuel generalizing st with
  | zero => rfl
  | succ fuel ih =>
    unfold bfsLoop bfsLoopSched
    have : bfsIter adj st = bfsIterSched (indexBfsScheduler adj) st := by
      rw [bfsIter_eq, bfsIterSched_eq]
      rfl
    rw [this, ih]

theorem parallel_bfs_eq_sched (adj : Adj) (fuel s : Nat) (vis : Visited) :
    parallel_bfs adj fuel s vis = parallel_bfs_sched (indexBfsScheduler adj) fuel s vis := by
  unfold parallel_bfs parallel_bfs_sched
  rw [bfsLoop_eq_sched]

theorem region_index_fold (nbrs : List Nat) :
    ∀ (suf pre : List Nat) (st : RegionState), nbrs = pre ++ suf →
      (∀ j, pre.length ≤ j → st.needs_push j = false) →
      ((((List.range' pre.length suf.length).flatMap
          (fun i => [RegionStep.claim i, RegionStep.append i])).foldl (regionAct nbrs) st).visited,
        (((List.range' pre.length suf.length).flatMap
          (fun i => [RegionStep.claim i, RegionStep.append i])).foldl
            (regionAct nbrs) st).neighbors) =
        suf.foldl dfsVisit (st.visited, st.neighbors) := by
  intro suf
  induction suf with
  | nil => intro pre st _ _; rfl
  | cons u suf ih =>
    intro pre st hn hp
    have hget : nbrs[pre.length]? = some u := by
      rw [hn, List.getElem?_append_right (Nat.le_refl _)]
      simp
    rw [List.length_cons, List.range'_succ, List.flatMap_cons, List.foldl_append,
      List.foldl_cons, List.foldl_cons, List.foldl_nil, List.foldl_cons]
    have hn2 : nbrs = (pre ++ [u]) ++ suf := by rw [hn]; simp
    have hlen : (pre ++ [u]).length = pre.length + 1 := by simp
    by_cases hv : st.visited u = true
    · rw [regionAct_claim_seen hget hv,
        regionAct_append_skip hget (by rw [hp _ (Nat.le_refl _)]; simp)]
      have hd : dfsVisit (st.visited, st.neighbors) u = (st.visited, st.neighbors) := by
        rw [dfsVisit_eq_bfsVisit]; exact bfsVisit_seen _ u hv
      rw [hd, ← hlen]
      exact ih (pre ++ [u]) st hn2 (fun j hj => hp j (by rw [hlen] at hj; omega))
    · rw [regionAct_claim_fresh hget hv]
      have hget2 := hget
      rw [regionAct_append_push hget2 (by simp)]
      have hd : dfsVisit (st.visited, st.neighbors) u =
          (markVisited st.visited u, st.neighbors ++ [u]) := by
        rw [dfsVisit_eq_bfsVisit]; exact bfsVisit_unseen _ u hv
      rw [hd, ← hlen]
      refine ih (pre ++ [u]) _ hn2 (fun j hj => ?_)
      rw [hlen] at hj
      have hne : j ≠ pre.length := by omega
      simp only [hne, if_false]
      exact hp j (by omega)

theorem runRegion_indexSched (adj : Adj) (vis : Visited) (v : Nat) :
    ((runRegion (adj v) (indexRegionSched (adj v).length) vis).visited,
      (runRegion (adj v) (indexRegionSched (adj v).length) vis).neighbors) =
      dfsExpand adj vis v := by
  unfold runRegion indexRegionSched dfsExpand
  rw [List.range_eq_range']
  exact region_index_fold (adj v) (adj v) [] (regionInit vis) rfl (fun _ _ => rfl)

/-- The executable `parallel_dfs` is `parallel_dfs` under the index-order
scheduler. -/
theorem dfsIter_eq_sched (adj : Adj) (st : TState) :
    dfsIter adj st = dfsIterSched adj (indexDfsScheduler adj) st := by
  unfold dfsIter dfsIterSched
  cases hw : st.work with
  | nil => rfl
  | cons v rest =>
    simp only
    have hτ : indexDfsScheduler adj st = indexRegionSched (adj v).length := by
      unfold indexDfsScheduler; rw [hw]
    rw [hτ]
    have h := runRegion_indexSched adj st.visited v
    rw [← h]

theorem dfsLoop_eq_sched (adj : Adj) (fuel : Nat) (st : TState) :
    dfsLoop adj fuel st = dfsLoopSched adj (indexDfsScheduler adj) fuel st := by
  induction fuel generalizing st with
  | zero => rfl
  | succ fuel ih =>
    unfold dfsLoop dfsLoopSched
    rw [dfsIter_eq_sched, ih]

theorem parallel_dfs_eq_sched (adj : Adj) (fuel s : Nat) (vis : Visited) :
    parallel_dfs adj fuel s vis = parallel_dfs_sched adj (indexDfsScheduler adj) fuel s vis := by
  unfold parallel_dfs parallel_dfs_sched
  rw [dfsLoop_eq_sched]

end BfsDfs

namespace BfsDfs

/-! ## Runs under a scheduler and the run relations are the same runs -/

/-- A run of `parallel_bfs` under a scheduler is a run of `BfsSchedRun`. -/
theorem bfsLoopSched_schedRun (adj : Adj) (σ : BfsScheduler) (hσ : BfsSchedulerOk adj σ)
    (fuel : Nat) (st fin : TState) (h : bfsLoopSched σ fuel st = some fin) :
    ∃ levels, BfsSchedRun adj st levels fin := by
  induction fuel generalizing st with
  | zero => simp [bfsLoopSched] at h
  | succ fuel ih =>
    unfold bfsLoopSched at h
    by_cases he : st.work.isEmpty = true
    · rw [if_pos he] at h
      simp only [Option.some.injEq] at h
      rw [← h]
      exact ⟨[], BfsSchedRun.done st (by simpa using he)⟩
    · rw [if_neg he] at h
      obtain ⟨levels, hl⟩ := ih _ h
      exact ⟨st.work :: levels,
        BfsSchedRun.step st (σ st) levels fin (by simpa using he) (hσ st) hl⟩

theorem bfsLoopSched_congr (σ σ2 : BfsScheduler) (bound : Nat)
    (hagree : ∀ x : TState, bound ≤ x.out.length → σ x = σ2 x) (fuel : Nat) (st : TState)
    (hst : bound ≤ st.out.length) : bfsLoopSched σ fuel st = bfsLoopSched σ2 fuel st := by
  induction fuel generalizing st with
  | zero => rfl
  | succ fuel ih =>
    unfold bfsLoopSched
    have e : bfsIterSched σ st = bfsIterSched σ2 st := by
      unfold bfsIterSched
      rw [hagree st hst]
    rw [e]
    by_cases he : st.work.isEmpty = true
    · rw [if_pos he, if_pos he]
    · rw [if_neg he, if_neg he]
      apply ih
      rw [bfsIterSched_eq]
      simp only [List.length_append]
      omega

/-- Every run of `BfsSchedRun` is the run of `parallel_bfs` under some
scheduler. -/
theorem bfsSchedRun_scheduler (adj : Adj) (st : TState) (levels : List (List Nat))
    (fin : TState) (h : BfsSchedRun adj st levels fin) :
    ∃ σ, BfsSchedulerOk adj σ ∧ bfsLoopSched σ (levels.length + 1) st = some fin := by
  classical
  induction h with
  | done st hw =>
    refine ⟨indexBfsScheduler adj, indexBfsScheduler_ok adj, ?_⟩
    unfold bfsLoopSched
    simp [hw]
  | step st sched levels fin hne hint _ ih =>
    obtain ⟨σ2, hσ2, hrun⟩ := ih
    let σ : BfsScheduler := fun x =>
      if x.out.length ≤ st.out.length then
        (if Interleave (x.work.map adj) sched then sched else x.work.flatMap adj)
      else σ2 x
    have hσ : BfsSchedulerOk adj σ := by
      intro x
      show Interleave (x.work.map adj) (if x.out.length ≤ st.out.length then
        (if Interleave (x.work.map adj) sched then sched else x.work.flatMap adj) else σ2 x)
      by_cases h1 : x.out.length ≤ st.out.length
      · rw [if_pos h1]
        by_cases h2 : Interleave (x.work.map adj) sched
        · rw [if_pos h2]; exact h2
        · rw [if_neg h2]; exact interleave_index_order adj x.work
      · rw [if_neg h1]; exact hσ2 x
    have hst : σ st = sched := by
      show (if st.out.length ≤ st.out.length then
        (if Interleave (st.work.map adj) sched then sched else st.work.flatMap adj)
        else σ2 st) = sched
      rw [if_pos (Nat.le_refl _), if_pos hint]
    refine ⟨σ, hσ, ?_⟩
    have he : ¬ (st.work.isEmpty = true) := by simpa using hne
    rw [List.length_cons]
    unfold bfsLoopSched
    rw [if_neg he]
    have hiter : bfsIterSched σ st =
        bfsIterWith (fun vis _ => bfsExpandSched sched vis) st := by
      unfold bfsIterSched
      rw [hst]
    rw [hiter]
    rw [bfsLoopSched_congr σ σ2 (st.out.length + 1) (fun x hx => by
      show (if x.out.length ≤ st.out.length then
        (if Interleave (x.work.map adj) sched then sched else x.work.flatMap adj)
        else σ2 x) = σ2 x
      rw [if_neg (by omega)]) _ _ (by
      rw [bfsIterWith_eq]
      simp only [List.length_append]
      have := List.length_pos.mpr hne
      omega)]
    exact hrun

/-- A run of `parallel_dfs` under a scheduler is a run of `DfsFineRun`. -/
theorem dfsLoopSched_fineRun (adj : Adj) (τ : DfsScheduler) (hτ : DfsSchedulerOk adj τ)
    (fuel : Nat) (st fin : TState) (h : dfsLoopSched adj τ fuel st = some fin) :
    ∃ t, DfsFineRun adj st.visited st.work t ∧ fin.out = st.out ++ emittedSoFar t := by
  induction fuel generalizing st with
  | zero => simp [dfsLoopSched] at h
  | succ fuel ih =>
    unfold dfsLoopSched at h
    by_cases he : st.work.isEmpty = true
    · rw [if_pos he] at h
      simp only [Option.some.injEq] at h
      have hw : st.work = [] := by simpa using he
      refine ⟨[], ?_, by simp [emittedSoFar, h]⟩
      rw [hw]; exact DfsFineRun.done _
    · rw [if_neg he] at h
      have hw : st.work ≠ [] := by simpa using he
      obtain ⟨v, rest, hvr⟩ := List.exists_cons_of_ne_nil hw
      obtain ⟨t, ht1, ht2⟩ := ih _ h
      rw [dfsIterSched_eq adj τ st v rest hvr] at ht1 ht2
      refine ⟨(v, (runRegion (adj v) (τ st) st.visited).neighbors) :: t, ?_, ?_⟩
      · rw [hvr]
        exact DfsFineRun.step _ v rest (τ st) t (hτ st v rest hvr) ht1
      · rw [ht2]; simp [emittedSoFar]

theorem dfsLoopSched_congr (adj : Adj) (τ τ2 : DfsScheduler) (bound : Nat)
    (hagree : ∀ x : TState, bound ≤ x.out.length → τ x = τ2 x) (fuel : Nat) (st : TState)
    (hst : bound ≤ st.out.length) :
    dfsLoopSched adj τ fuel st = dfsLoopSched adj τ2 fuel st := by
  induction fuel generalizing st with
  | zero => rfl
  | succ fuel ih =>
    unfold dfsLoopSched
    have e : dfsIterSched adj τ st = dfsIterSched adj τ2 st := by
      unfold dfsIterSched
      rw [hagree st hst]
    rw [e]
    by_cases he : st.work.isEmpty = true
    · rw [if_pos he, if_pos he]
    · rw [if_neg he, if_neg he]
      apply ih
      have hw : st.work ≠ [] := by simpa using he
      rw [dfsIterSched_out_length adj τ2 st hw]
      omega

/-- Every run of `DfsFineRun` is the run of `parallel_dfs` under some
scheduler. -/
theorem dfsFineRun_scheduler (adj : Adj) (vis : Visited) (stack : List Nat)
    (t : List (Nat × List Nat)) (h : DfsFineRun adj vis stack t) :
    ∀ out, ∃ τ, DfsSchedulerOk adj τ ∧ ∃ fin,
      dfsLoopSched adj τ (t.length + 1) (TState.mk vis stack out) = some fin ∧
        fin.out = out ++ emittedSoFar t := by
  induction h with
  | done vis =>
    intro out
    refine ⟨indexDfsScheduler adj, indexDfsScheduler_ok adj, TState.mk vis [] out, ?_, ?_⟩
    · unfold dfsLoopSched
      simp
    · simp [emittedSoFar]
  | step vis v rest sched t hs _ ih =>
    intro out
    obtain ⟨τ2, hτ2, fin, hrun, hout⟩ := ih (out ++ [v])
    let τ : DfsScheduler := fun x =>
      if x.out.length ≤ out.length then
        (match x.work with
          | [] => []
          | w :: _ =>
            if ValidRegionSched (adj w).length sched then sched
            else indexRegionSched (adj w).length)
      else τ2 x
    have hτ : DfsSchedulerOk adj τ := by
      intro x w rest2 hx
      show ValidRegionSched (adj w).length (if x.out.length ≤ out.length then
        (match x.work with
          | [] => []
          | w :: _ =>
            if ValidRegionSched (adj w).length sched then sched
            else indexRegionSched (adj w).length)
        else τ2 x)
      by_cases h1 : x.out.length ≤ out.length
      · rw [if_pos h1, hx]
        simp only
        by_cases h2 : ValidRegionSched (adj w).length sched
        · rw [if_pos h2]; exact h2
        · rw [if_neg h2]; exact indexRegionSched_valid _
      · rw [if_neg h1]; exact hτ2 x w rest2 hx
    have hst : τ (TState.mk vis (v :: rest) out) = sched := by
      show (if out.length ≤ out.length then
        (if ValidRegionSched (adj v).length sched then sched
          else indexRegionSched (adj v).length)
        else τ2 (TState.mk vis (v :: rest) out)) = sched
      rw [if_pos (Nat.le_refl _), if_pos hs]
    refine ⟨τ, hτ, fin, ?_, ?_⟩
    · rw [List.length_cons]
      unfold dfsLoopSched
      have he : ¬ ((TState.mk vis (v :: rest) out).work.isEmpty = true) := by simp
      rw [if_neg he, dfsIterSched_eq adj τ _ v rest rfl, hst]
      rw [dfsLoopSched_congr adj τ τ2 (out.length + 1) (fun x hx => by
        show (if x.out.length ≤ out.length then
          (match x.work with
            | [] => []
            | w :: _ =>
              if ValidRegionSched (adj w).length sched then sched
              else indexRegionSched (adj w).length)
          else τ2 x) = τ2 x
        rw [if_neg (by omega)]) _ _ (by simp)]
      exact hrun
    · rw [hout]; simp [emittedSoFar]

end BfsDfs

namespace BfsDfs

/-! ## C3: the output of `parallel_bfs` is ordered by distance, under every schedule -/

theorem levelInv_transfer {adj : Adj} {s k : Nat} {st st2 : TState}
    (h : LevelInv adj s k st) (hout : st2.out = st.out)
    (hwork : ∀ x, x ∈ st2.work ↔ x ∈ st.work) : LevelInv adj s k st2 where
  out_iff := fun x => by rw [hout]; exact h.out_iff x
  work_sub := fun x hx => h.work_sub x ((hwork x).mp hx)
  cover := fun x hx => by
    rw [hout, hwork]; exact h.cover x hx
  sorted := by rw [hout]; exact h.sorted

theorem levelInv_bfsIterWith {adj : Adj} {s k : Nat} {st : TState} {sched : List Nat}
    (hint : Interleave (st.work.map adj) sched) (hw : WInv adj allFalse s st)
    (h : LevelInv adj s k st) :
    LevelInv adj s (k + 1) (bfsIterWith (fun vis _ => bfsExpandSched sched vis) st) := by
  obtain ⟨_, e2⟩ := bfsExpandSched_index hint st.visited
  refine levelInv_transfer (levelInv_bfsIter hw h) ?_ ?_
  · rw [bfsIterWith_eq, bfsIter_eq]
  · intro x
    rw [bfsIterWith_eq, bfsIter_eq]
    exact e2.mem_iff

theorem levelInv_bfsIterSched {adj : Adj} {s k : Nat} {st : TState} {σ : BfsScheduler}
    (hσ : BfsSchedulerOk adj σ) (hw : WInv adj allFalse s st) (h : LevelInv adj s k st) :
    LevelInv adj s (k + 1) (bfsIterSched σ st) :=
  levelInv_bfsIterWith (hσ st) hw h

theorem bfsLoopSched_levels (adj : Adj) (σ : BfsScheduler) (hσ : BfsSchedulerOk adj σ)
    (s : Nat) (fuel : Nat) (st fin : TState) (k : Nat)
    (hw : WInv adj allFalse s st) (h : LevelInv adj s k st)
    (hrun : bfsLoopSched σ fuel st = some fin) : ∃ k2, LevelInv adj s k2 fin := by
  induction fuel generalizing st k with
  | zero => simp [bfsLoopSched] at hrun
  | succ fuel ih =>
    unfold bfsLoopSched at hrun
    by_cases he : st.work.isEmpty = true
    · rw [he] at hrun
      simp only [if_true, Option.some.injEq] at hrun
      exact ⟨k, hrun ▸ h⟩
    · simp only [he, Bool.false_eq_true, if_false] at hrun
      exact ih _ (k + 1) (winv_bfsIterSched hσ hw) (levelInv_bfsIterSched hσ hw h) hrun

theorem levelInv_ordered {adj : Adj} {s k : Nat} {fin : TState} (hk : LevelInv adj s k fin) :
    (∀ u, u ∈ fin.out → ∃ d, HasDist adj s u d) ∧
      ∀ (i j u w du dw : Nat), i < j → fin.out[i]? = some u → fin.out[j]? = some w →
        HasDist adj s u du → HasDist adj s w dw → du ≤ dw := by
  constructor
  · intro u hu
    obtain ⟨j, _, hx⟩ := (hk.out_iff u).mp hu
    exact exists_hasDist hx
  · intro i j u w du dw hij hi hj hdu hdw
    have hs := List.pairwise_iff_getElem.mp hk.sorted
    obtain ⟨hi1, hi2⟩ := List.getElem?_eq_some.mp hi
    obtain ⟨hj1, hj2⟩ := List.getElem?_eq_some.mp hj
    have := hs i j hi1 hj1 hij du dw
    rw [hi2, hj2] at this
    exact this hdu hdw

/-- C3: when the nodes reached from `s` lie in the finite list `U`, under
every scheduler of the parallel region `parallel_bfs` run on an all-false
array (with fuel above the length of `U`) returns; every printed node has a
shortest-path distance from `s`, and whenever `u` is printed before `w` the
distance of `u` is at most the distance of `w`.  The same holds for the output
of every run of `BfsSchedRun`. -/
theorem C3_bfs_output_ordered_by_distance (adj : Adj) (σ : BfsScheduler)
    (hσ : BfsSchedulerOk adj σ) (s : Nat) (U : List Nat)
    (hU : ∀ x, Reach adj s x → x ∈ U) (fuel : Nat) (hfuel : U.length + 1 ≤ fuel) :
    (∃ vis out, parallel_bfs_sched σ fuel s allFalse = some (vis, out) ∧
      (∀ u, u ∈ out → ∃ d, HasDist adj s u d) ∧
      ∀ (i j u w du dw : Nat), i < j → out[i]? = some u → out[j]? = some w →
        HasDist adj s u du → HasDist adj s w dw → du ≤ dw) ∧
    ∀ levels fin, BfsSchedRun adj (initState allFalse s) levels fin →
      (∀ u, u ∈ fin.out → ∃ d, HasDist adj s u d) ∧
      ∀ (i j u w du dw : Nat), i < j → fin.out[i]? = some u → fin.out[j]? = some w →
        HasDist adj s u du → HasDist adj s w dw → du ≤ dw := by
  have h0 := winv_init adj allFalse s rfl
  constructor
  · obtain ⟨fin, h1, _, _⟩ :=
      bfsLoopSched_terminates adj σ hσ allFalse s U hU fuel _ h0 (by simp [initState]; omega)
    obtain ⟨k, hk⟩ := bfsLoopSched_levels adj σ hσ s fuel _ fin 0 h0 (levelInv_init adj s) h1
    exact ⟨fin.visited, fin.out, by unfold parallel_bfs_sched; rw [h1]; rfl,
      levelInv_ordered hk⟩
  · intro levels fin hrun
    obtain ⟨σ2, hσ2, h1⟩ := bfsSchedRun_scheduler adj _ levels fin hrun
    obtain ⟨k, hk⟩ :=
      bfsLoopSched_levels adj σ2 hσ2 s _ _ fin 0 h0 (levelInv_init adj s) h1
    exact levelInv_ordered hk

/-- C3 on the graph with edges (1,2), (1,3), (2,4), (3,5) and start 1, under
the scheduler that scans every level from its last node to its first: the
output is 1, 2, 3, 5, 4. -/
theorem C3_bfs_output_ordered_by_distance_witness :
    (parallel_bfs_sched (reverseBfsScheduler (buildGraph [(1, 2), (1, 3), (2, 4), (3, 5)]))
        6 1 allFalse).map (fun r => r.2) = some [1, 2, 3, 5, 4] ∧
    ((∃ vis out,
      parallel_bfs_sched (reverseBfsScheduler (buildGraph [(1, 2), (1, 3), (2, 4), (3, 5)]))
        6 1 allFalse = some (vis, out) ∧
      (∀ u, u ∈ out → ∃ d, HasDist (buildGraph [(1, 2), (1, 3), (2, 4), (3, 5)]) 1 u d) ∧
      ∀ (i j u w du dw : Nat), i < j → out[i]? = some u → out[j]? = some w →
        HasDist (buildGraph [(1, 2), (1, 3), (2, 4), (3, 5)]) 1 u du →
        HasDist (buildGraph [(1, 2), (1, 3), (2, 4), (3, 5)]) 1 w dw → du ≤ dw) ∧
    ∀ levels fin,
      BfsSchedRun (buildGraph [(1, 2), (1, 3), (2, 4), (3, 5)]) (initState allFalse 1)
        levels fin →
      (∀ u, u ∈ fin.out → ∃ d, HasDist (buildGraph [(1, 2), (1, 3), (2, 4), (3, 5)]) 1 u d) ∧
      ∀ (i j u w du dw : Nat), i < j → fin.out[i]? = some u → fin.out[j]? = some w →
        HasDist (buildGraph [(1, 2), (1, 3), (2, 4), (3, 5)]) 1 u du →
        HasDist (buildGraph [(1, 2), (1, 3), (2, 4), (3, 5)]) 1 w dw → du ≤ dw) :=
  ⟨by decide,
    C3_bfs_output_ordered_by_distance (buildGraph [(1, 2), (1, 3), (2, 4), (3, 5)])
      (reverseBfsScheduler (buildGraph [(1, 2), (1, 3), (2, 4), (3, 5)]))
      (reverseBfsScheduler_ok _) 1 (List.range' 1 5)
      (reach_in_range (by decide) (by decide)) 6 (by decide)⟩

end BfsDfs

namespace BfsDfs

/-! ## C11: under every schedule the loops end, and how many iterations they make -/

theorem bfsLoopSched_iterate (σ : BfsScheduler) (fuel : Nat) (st fin : TState)
    (h : bfsLoopSched σ fuel st = some fin) :
    ∃ k, k < fuel ∧ fin = Nat.iterate (bfsIterSched σ) k st ∧ fin.work = [] ∧
      ∀ j, j < k → (Nat.iterate (bfsIterSched σ) j st).work ≠ [] := by
  induction fuel generalizing st with
  | zero => simp [bfsLoopSched] at h
  | succ fuel ih =>
    unfold bfsLoopSched at h
    by_cases he : st.work.isEmpty = true
    · rw [if_pos he] at h
      simp only [Option.some.injEq] at h
      refine ⟨0, by omega, h.symm, by rw [← h]; simpa using he, fun j hj => by omega⟩
    · rw [if_neg he] at h
      obtain ⟨k, hk, h1, h2, h3⟩ := ih _ h
      refine ⟨k + 1, by omega, by rw [Function.iterate_succ_apply]; exact h1, h2, fun j hj => ?_⟩
      cases j with
      | zero => simpa using he
      | succ j =>
        rw [Function.iterate_succ_apply]
        exact h3 j (by omega)

theorem dfsLoopSched_iterate (adj : Adj) (τ : DfsScheduler) (fuel : Nat) (st fin : TState)
    (h : dfsLoopSched adj τ fuel st = some fin) :
    ∃ k, k < fuel ∧ fin = Nat.iterate (dfsIterSched adj τ) k st ∧ fin.work = [] ∧
      ∀ j, j < k → (Nat.iterate (dfsIterSched adj τ) j st).work ≠ [] := by
  induction fuel generalizing st with
  | zero => simp [dfsLoopSched] at h
  | succ fuel ih =>
    unfold dfsLoopSched at h
    by_cases he : st.work.isEmpty = true
    · rw [if_pos he] at h
      simp only [Option.some.injEq] at h
      refine ⟨0, by omega, h.symm, by rw [← h]; simpa using he, fun j hj => by omega⟩
    · rw [if_neg he] at h
      obtain ⟨k, hk, h1, h2, h3⟩ := ih _ h
      refine ⟨k + 1, by omega, by rw [Function.iterate_succ_apply]; exact h1, h2, fun j hj => ?_⟩
      cases j with
      | zero => simpa using he
      | succ j =>
        rw [Function.iterate_succ_apply]
        exact h3 j (by omega)

theorem bfsSched_iterate_out_length (σ : BfsScheduler) (st : TState) (k : Nat)
    (h : ∀ j, j < k → (Nat.iterate (bfsIterSched σ) j st).work ≠ []) :
    st.out.length + k ≤ (Nat.iterate (bfsIterSched σ) k st).out.length := by
  induction k with
  | zero => simp
  | succ k ih =>
    rw [Function.iterate_succ_apply']
    have h1 := ih (fun j hj => h j (by omega))
    have h2 := bfsIterSched_out_length σ _ (h k (by omega))
    omega

theorem dfsSched_iterate_out_length (adj : Adj) (τ : DfsScheduler) (st : TState) (k : Nat)
    (h : ∀ j, j < k → (Nat.iterate (dfsIterSched adj τ) j st).work ≠ []) :
    (Nat.iterate (dfsIterSched adj τ) k st).out.length = st.out.length + k := by
  induction k with
  | zero => simp
  | succ k ih =>
    rw [Function.iterate_succ_apply']
    have h1 := ih (fun j hj => h j (by omega))
    have h2 := dfsIterSched_out_length adj τ _ (h k (by omega))
    omega

/-- C11: when the nodes reached from `s` lie in the list `U` of the nodes of
the graph, under every scheduler of the parallel regions both traversals,
started on an all-false array with fuel above the length of `U`, return with
the queue (stack) empty.  No node is printed twice (each node is enqueued or
pushed at most once), the number of nodes dequeued by `parallel_bfs` is at most
the length of `U`, and `parallel_dfs` makes exactly as many outer iterations as
it prints nodes, at most the length of `U`. -/
theorem C11_traversals_terminate (adj : Adj) (σ : BfsScheduler) (τ : DfsScheduler)
    (hσ : BfsSchedulerOk adj σ) (hτ : DfsSchedulerOk adj τ) (s : Nat) (U : List Nat)
    (hU : ∀ x, Reach adj s x → x ∈ U) (fuel : Nat) (hfuel : U.length + 1 ≤ fuel) :
    (∃ fin k, bfsLoopSched σ fuel (initState allFalse s) = some fin ∧ fin.work = [] ∧
      fin.out.Nodup ∧ fin.out.length ≤ U.length ∧
      fin = bfsBoundarySched σ allFalse s k ∧ k ≤ fin.out.length ∧
      ∀ j, j < k → (bfsBoundarySched σ allFalse s j).work ≠ []) ∧
    (∃ fin k, dfsLoopSched adj τ fuel (initState allFalse s) = some fin ∧ fin.work = [] ∧
      fin.out.Nodup ∧ fin.out.length ≤ U.length ∧
      fin = dfsBoundarySched adj τ allFalse s k ∧ k = fin.out.length ∧
      ∀ j, j < k → (dfsBoundarySched adj τ allFalse s j).work ≠ []) := by
  have h0 := winv_init adj allFalse s rfl
  constructor
  · obtain ⟨fin, h1, h2, h3⟩ :=
      bfsLoopSched_terminates adj σ hσ allFalse s U hU fuel _ h0 (by simp [initState]; omega)
    obtain ⟨k, _, k1, _, k3⟩ := bfsLoopSched_iterate σ fuel _ fin h1
    have hn : fin.out.Nodup := by
      have := h3.nodup
      rwa [h2, List.append_nil] at this
    have hl := winv_length_le h3 U hU
    have hk := bfsSched_iterate_out_length σ _ k k3
    rw [← k1] at hk
    exact ⟨fin, k, h1, h2, hn, by omega, k1, by simp [initState] at hk; omega, k3⟩
  · obtain ⟨fin, h1, h2, h3⟩ :=
      dfsLoopSched_terminates adj τ hτ allFalse s U hU fuel _ h0 (by simp [initState]; omega)
    obtain ⟨k, _, k1, _, k3⟩ := dfsLoopSched_iterate adj τ fuel _ fin h1
    have hn : fin.out.Nodup := by
      have := h3.nodup
      rwa [h2, List.append_nil] at this
    have hl := winv_length_le h3 U hU
    have hk := dfsSched_iterate_out_length adj τ _ k k3
    rw [← k1] at hk
    exact ⟨fin, k, h1, h2, hn, by omega, k1, by simp [initState] at hk; omega, k3⟩

/-- C11 on the graph with edges (1,2), (1,3), (2,4), (3,5) and start 1, under
the reversed schedulers. -/
theorem C11_traversals_terminate_witness :
    (∃ fin k, bfsLoopSched (reverseBfsScheduler (buildGraph [(1, 2), (1, 3), (2, 4), (3, 5)]))
        6 (initState allFalse 1) = some fin ∧
      fin.work = [] ∧ fin.out.Nodup ∧ fin.out.length ≤ (List.range' 1 5).length ∧
      fin = bfsBoundarySched (reverseBfsScheduler (buildGraph [(1, 2), (1, 3), (2, 4), (3, 5)]))
        allFalse 1 k ∧
      k ≤ fin.out.length ∧
      ∀ j, j < k →
        (bfsBoundarySched (reverseBfsScheduler (buildGraph [(1, 2), (1, 3), (2, 4), (3, 5)]))
          allFalse 1 j).work ≠ []) ∧
    (∃ fin k, dfsLoopSched (buildGraph [(1, 2), (1, 3), (2, 4), (3, 5)])
        (reverseDfsScheduler (buildGraph [(1, 2), (1, 3), (2, 4), (3, 5)]))
        6 (initState allFalse 1) = some fin ∧
      fin.work = [] ∧ fin.out.Nodup ∧ fin.out.length ≤ (List.range' 1 5).length ∧
      fin = dfsBoundarySched (buildGraph [(1, 2), (1, 3), (2, 4), (3, 5)])
        (reverseDfsScheduler (buildGraph [(1, 2), (1, 3), (2, 4), (3, 5)])) allFalse 1 k ∧
      k = fin.out.length ∧
      ∀ j, j < k →
        (dfsBoundarySched (buildGraph [(1, 2), (1, 3), (2, 4), (3, 5)])
          (reverseDfsScheduler (buildGraph [(1, 2), (1, 3), (2, 4), (3, 5)]))
          allFalse 1 j).work ≠ []) :=
  C11_traversals_terminate (buildGraph [(1, 2), (1, 3), (2, 4), (3, 5)])
    (reverseBfsScheduler _) (reverseDfsScheduler _) (reverseBfsScheduler_ok _)
    (reverseDfsScheduler_ok _) 1 (List.range' 1 5)
    (reach_in_range (by decide) (by decide)) 6 (by decide)

/-! ## C12, C20: `visited` at the iteration boundaries, under every schedule -/

theorem winv_bfsBoundarySched (adj : Adj) (σ : BfsScheduler) (hσ : BfsSchedulerOk adj σ)
    (vis0 : Visited) (s : Nat) (hs : vis0 s = false) (k : Nat) :
    WInv adj vis0 s (bfsBoundarySched σ vis0 s k) := by
  unfold bfsBoundarySched
  induction k with
  | zero => exact winv_init adj vis0 s hs
  | succ k ih =>
    rw [Function.iterate_succ_apply']
    exact winv_bfsIterSched hσ ih

theorem winv_dfsBoundarySched (adj : Adj) (τ : DfsScheduler) (hτ : DfsSchedulerOk adj τ)
    (vis0 : Visited) (s : Nat) (hs : vis0 s = false) (k : Nat) :
    WInv adj vis0 s (dfsBoundarySched adj τ vis0 s k) := by
  unfold dfsBoundarySched
  induction k with
  | zero => exact winv_init adj vis0 s hs
  | succ k ih =>
    rw [Function.iterate_succ_apply']
    by_cases hw : (Nat.iterate (dfsIterSched adj τ) k (initState vis0 s)).work = []
    · rw [dfsIterSched_of_empty adj τ _ hw]; exact ih
    · exact winv_dfsIterSched hτ ih hw

/-- C12, amended: in a run of either traversal started on an all-false array,
under every scheduler of the parallel regions, at every boundary of the outer
loop every printed node is marked in `visited`, and a marked node has been
printed or waits in the queue (stack): a node is marked when it is enqueued
(pushed).  At return, `visited[i]` is true if and only if node `i` has been
printed during the run. -/
theorem C12_visited_at_boundaries_and_return (adj : Adj) (σ : BfsScheduler)
    (τ : DfsScheduler) (hσ : BfsSchedulerOk adj σ) (hτ : DfsSchedulerOk adj τ)
    (s : Nat) (U : List Nat)
    (hU : ∀ x, Reach adj s x → x ∈ U) (fuel : Nat) (hfuel : U.length + 1 ≤ fuel) :
    (∀ k i, (i ∈ (bfsBoundarySched σ allFalse s k).out →
        (bfsBoundarySched σ allFalse s k).visited i = true) ∧
      ((bfsBoundarySched σ allFalse s k).visited i = true →
        i ∈ (bfsBoundarySched σ allFalse s k).out ∨ i ∈ (bfsBoundarySched σ allFalse s k).work)) ∧
    (∀ k i, (i ∈ (dfsBoundarySched adj τ allFalse s k).out →
        (dfsBoundarySched adj τ allFalse s k).visited i = true) ∧
      ((dfsBoundarySched adj τ allFalse s k).visited i = true →
        i ∈ (dfsBoundarySched adj τ allFalse s k).out ∨
          i ∈ (dfsBoundarySched adj τ allFalse s k).work)) ∧
    (∃ vis out, parallel_bfs_sched σ fuel s allFalse = some (vis, out) ∧
      ∀ i, vis i = true ↔ i ∈ out) ∧
    (∃ vis out, parallel_dfs_sched adj τ fuel s allFalse = some (vis, out) ∧
      ∀ i, vis i = true ↔ i ∈ out) := by
  refine ⟨fun k i => ?_, fun k i => ?_, ?_, ?_⟩
  · have h := (winv_boundary_facts (winv_bfsBoundarySched adj σ hσ allFalse s rfl k)).2.2 i
    exact ⟨fun hi => h.mpr (Or.inl hi), h.mp⟩
  · have h := (winv_boundary_facts (winv_dfsBoundarySched adj τ hτ allFalse s rfl k)).2.2 i
    exact ⟨fun hi => h.mpr (Or.inl hi), h.mp⟩
  · obtain ⟨vis, out, h1, _, h3, h4⟩ :=
      parallel_bfs_sched_spec adj σ hσ allFalse s U hU (fun _ _ => rfl) fuel hfuel
    refine ⟨vis, out, h1, fun i => ?_⟩
    rw [h4, h3]; simp [allFalse]
  · obtain ⟨vis, out, h1, _, h3, h4⟩ :=
      parallel_dfs_sched_spec adj τ hτ allFalse s U hU (fun _ _ => rfl) fuel hfuel
    refine ⟨vis, out, h1, fun i => ?_⟩
    rw [h4, h3]; simp [allFalse]

/-- C12 amended, on the graph with edges (1,2), (1,3), (2,4), (3,5) and start
1, under the reversed schedulers. -/
theorem C12_visited_at_boundaries_and_return_witness :
    (∀ k i,
      (i ∈ (bfsBoundarySched (reverseBfsScheduler (buildGraph [(1, 2), (1, 3), (2, 4), (3, 5)]))
          allFalse 1 k).out →
        (bfsBoundarySched (reverseBfsScheduler (buildGraph [(1, 2), (1, 3), (2, 4), (3, 5)]))
          allFalse 1 k).visited i = true) ∧
      ((bfsBoundarySched (reverseBfsScheduler (buildGraph [(1, 2), (1, 3), (2, 4), (3, 5)]))
          allFalse 1 k).visited i = true →
        i ∈ (bfsBoundarySched (reverseBfsScheduler (buildGraph [(1, 2), (1, 3), (2, 4), (3, 5)]))
          allFalse 1 k).out ∨
        i ∈ (bfsBoundarySched (reverseBfsScheduler (buildGraph [(1, 2), (1, 3), (2, 4), (3, 5)]))
          allFalse 1 k).work)) ∧
    (∀ k i,
      (i ∈ (dfsBoundarySched (buildGraph [(1, 2), (1, 3), (2, 4), (3, 5)])
          (reverseDfsScheduler (buildGraph [(1, 2), (1, 3), (2, 4), (3, 5)])) allFalse 1 k).out →
        (dfsBoundarySched (buildGraph [(1, 2), (1, 3), (2, 4), (3, 5)])
          (reverseDfsScheduler (buildGraph [(1, 2), (1, 3), (2, 4), (3, 5)]))
          allFalse 1 k).visited i = true) ∧
      ((dfsBoundarySched (buildGraph [(1, 2), (1, 3), (2, 4), (3, 5)])
          (reverseDfsScheduler (buildGraph [(1, 2), (1, 3), (2, 4), (3, 5)]))
          allFalse 1 k).visited i = true →
        i ∈ (dfsBoundarySched (buildGraph [(1, 2), (1, 3), (2, 4), (3, 5)])
          (reverseDfsScheduler (buildGraph [(1, 2), (1, 3), (2, 4), (3, 5)])) allFalse 1 k).out ∨
        i ∈ (dfsBoundarySched (buildGraph [(1, 2), (1, 3), (2, 4), (3, 5)])
          (reverseDfsScheduler (buildGraph [(1, 2), (1, 3), (2, 4), (3, 5)]))
          allFalse 1 k).work)) ∧
    (∃ vis out,
      parallel_bfs_sched (reverseBfsScheduler (buildGraph [(1, 2), (1, 3), (2, 4), (3, 5)]))
        6 1 allFalse = some (vis, out) ∧
      ∀ i, vis i = true ↔ i ∈ out) ∧
    (∃ vis out,
      parallel_dfs_sched (buildGraph [(1, 2), (1, 3), (2, 4), (3, 5)])
        (reverseDfsScheduler (buildGraph [(1, 2), (1, 3), (2, 4), (3, 5)])) 6 1 allFalse
        = some (vis, out) ∧
      ∀ i, vis i = true ↔ i ∈ out) :=
  C12_visited_at_boundaries_and_return (buildGraph [(1, 2), (1, 3), (2, 4), (3, 5)])
    (reverseBfsScheduler _) (reverseDfsScheduler _) (reverseBfsScheduler_ok _)
    (reverseDfsScheduler_ok _) 1 (List.range' 1 5)
    (reach_in_range (by decide) (by decide)) 6 (by decide)

/-- C20: in a run of `parallel_bfs` or of `parallel_dfs` started on an
all-false array, under every scheduler of the parallel regions, at every
boundary of the outer loop the queue (stack) holds no node twice and no node
already printed, and `visited[i]` is true exactly for the nodes printed or
waiting in the queue (stack). -/
theorem C20_loop_invariant (adj : Adj) (σ : BfsScheduler) (τ : DfsScheduler)
    (hσ : BfsSchedulerOk adj σ) (hτ : DfsSchedulerOk adj τ) (s k : Nat) :
    ((bfsBoundarySched σ allFalse s k).work.Nodup ∧
      (∀ x, x ∈ (bfsBoundarySched σ allFalse s k).work →
        x ∉ (bfsBoundarySched σ allFalse s k).out) ∧
      ∀ i, (bfsBoundarySched σ allFalse s k).visited i = true ↔
        i ∈ (bfsBoundarySched σ allFalse s k).out ∨ i ∈ (bfsBoundarySched σ allFalse s k).work) ∧
    ((dfsBoundarySched adj τ allFalse s k).work.Nodup ∧
      (∀ x, x ∈ (dfsBoundarySched adj τ allFalse s k).work →
        x ∉ (dfsBoundarySched adj τ allFalse s k).out) ∧
      ∀ i, (dfsBoundarySched adj τ allFalse s k).visited i = true ↔
        i ∈ (dfsBoundarySched adj τ allFalse s k).out ∨
          i ∈ (dfsBoundarySched adj τ allFalse s k).work) :=
  ⟨winv_boundary_facts (winv_bfsBoundarySched adj σ hσ allFalse s rfl k),
    winv_boundary_facts (winv_dfsBoundarySched adj τ hτ allFalse s rfl k)⟩

/-- C20 on the graph with edges (1,2), (1,3), (2,4), (3,5) and start 1, under
the reversed schedulers, at the boundary after two iterations. -/
theorem C20_loop_invariant_witness :
    ((bfsBoundarySched (reverseBfsScheduler (buildGraph [(1, 2), (1, 3), (2, 4), (3, 5)]))
        allFalse 1 2).work = [5, 4] ∧
      (dfsBoundarySched (buildGraph [(1, 2), (1, 3), (2, 4), (3, 5)])
        (reverseDfsScheduler (buildGraph [(1, 2), (1, 3), (2, 4), (3, 5)]))
        allFalse 1 2).work = [4, 3]) ∧
    (((bfsBoundarySched (reverseBfsScheduler (buildGraph [(1, 2), (1, 3), (2, 4), (3, 5)]))
        allFalse 1 2).work.Nodup ∧
      (∀ x, x ∈ (bfsBoundarySched (reverseBfsScheduler
          (buildGraph [(1, 2), (1, 3), (2, 4), (3, 5)])) allFalse 1 2).work →
        x ∉ (bfsBoundarySched (reverseBfsScheduler
          (buildGraph [(1, 2), (1, 3), (2, 4), (3, 5)])) allFalse 1 2).out) ∧
      ∀ i, (bfsBoundarySched (reverseBfsScheduler
          (buildGraph [(1, 2), (1, 3), (2, 4), (3, 5)])) allFalse 1 2).visited i = true ↔
        i ∈ (bfsBoundarySched (reverseBfsScheduler
          (buildGraph [(1, 2), (1, 3), (2, 4), (3, 5)])) allFalse 1 2).out ∨
        i ∈ (bfsBoundarySched (reverseBfsScheduler
          (buildGraph [(1, 2), (1, 3), (2, 4), (3, 5)])) allFalse 1 2).work) ∧
    ((dfsBoundarySched (buildGraph [(1, 2), (1, 3), (2, 4), (3, 5)])
        (reverseDfsScheduler (buildGraph [(1, 2), (1, 3), (2, 4), (3, 5)]))
        allFalse 1 2).work.Nodup ∧
      (∀ x, x ∈ (dfsBoundarySched (buildGraph [(1, 2), (1, 3), (2, 4), (3, 5)])
          (reverseDfsScheduler (buildGraph [(1, 2), (1, 3), (2, 4), (3, 5)]))
          allFalse 1 2).work →
        x ∉ (dfsBoundarySched (buildGraph [(1, 2), (1, 3), (2, 4), (3, 5)])
          (reverseDfsScheduler (buildGraph [(1, 2), (1, 3), (2, 4), (3, 5)]))
          allFalse 1 2).out) ∧
      ∀ i, (dfsBoundarySched (buildGraph [(1, 2), (1, 3), (2, 4), (3, 5)])
          (reverseDfsScheduler (buildGraph [(1, 2), (1, 3), (2, 4), (3, 5)]))
          allFalse 1 2).visited i = true ↔
        i ∈ (dfsBoundarySched (buildGraph [(1, 2), (1, 3), (2, 4), (3, 5)])
          (reverseDfsScheduler (buildGraph [(1, 2), (1, 3), (2, 4), (3, 5)]))
          allFalse 1 2).out ∨
        i ∈ (dfsBoundarySched (buildGraph [(1, 2), (1, 3), (2, 4), (3, 5)])
          (reverseDfsScheduler (buildGraph [(1, 2), (1, 3), (2, 4), (3, 5)]))
          allFalse 1 2).work)) :=
  ⟨by decide,
    C20_loop_invariant (buildGraph [(1, 2), (1, 3), (2, 4), (3, 5)])
      (reverseBfsScheduler _) (reverseDfsScheduler _) (reverseBfsScheduler_ok _)
      (reverseDfsScheduler_ok _) 1 2⟩

end BfsDfs

namespace BfsDfs

/-! ## C17: the levels of `parallel_bfs` are the distance classes, under every schedule -/

theorem level_work_iff {adj : Adj} {s k : Nat} {st : TState}
    (hw : WInv adj allFalse s st) (hl : LevelInv adj s k st) :
    st.work.Nodup ∧ ∀ x, x ∈ st.work ↔ HasDist adj s x k := by
  obtain ⟨_, h2, h3⟩ := List.nodup_append.mp hw.nodup
  refine ⟨h2, fun x => ?_⟩
  constructor
  · intro hx
    refine ⟨hl.work_sub x hx, fun j hj hxj => ?_⟩
    exact h3 ((hl.out_iff x).mpr ⟨j, hj, hxj⟩) hx
  · intro hd
    rcases hl.cover x hd.1 with h | h
    · obtain ⟨j, hj, hxj⟩ := (hl.out_iff x).mp h
      exact absurd hxj (hd.2 j hj)
    · exact h

theorem levelInv_bfsBoundarySched (adj : Adj) (σ : BfsScheduler) (hσ : BfsSchedulerOk adj σ)
    (s k : Nat) : LevelInv adj s k (bfsBoundarySched σ allFalse s k) := by
  induction k with
  | zero => exact levelInv_init adj s
  | succ k ih =>
    have h := levelInv_bfsIterSched hσ (winv_bfsBoundarySched adj σ hσ allFalse s rfl k) ih
    unfold bfsBoundarySched at h ⊢
    rw [Function.iterate_succ_apply']
    exact h

theorem currentLevelSched_eq (σ : BfsScheduler) (s k : Nat) :
    currentLevelSched σ s k = (bfsBoundarySched σ allFalse s k).work := by
  unfold currentLevelSched
  rw [drainLevel_all]
  simp

theorem bfsSchedRun_levels {adj : Adj} {s : Nat} {st fin : TState} {levels : List (List Nat)}
    (hrun : BfsSchedRun adj st levels fin) :
    ∀ k0, WInv adj allFalse s st → LevelInv adj s k0 st →
      ∀ (j : Nat) (lv : List Nat), levels[j]? = some lv →
        lv.Nodup ∧ ∀ x, x ∈ lv ↔ HasDist adj s x (k0 + j) := by
  induction hrun with
  | done st _ => intro k0 _ _ j lv h; simp at h
  | step st sched levels fin _ hint _ ih =>
    intro k0 hw hl j lv h
    cases j with
    | zero =>
      simp only [List.getElem?_cons_zero, Option.some.injEq] at h
      rw [← h]
      exact level_work_iff hw hl
    | succ j =>
      simp only [List.getElem?_cons_succ] at h
      have := ih (k0 + 1) (winv_bfsIterWith hint hw) (levelInv_bfsIterWith hint hw hl) j lv h
      rwa [Nat.add_assoc, Nat.add_comm 1 j] at this

/-- C17: under every scheduler of the parallel region, for every `k` the
vector `current_level` drained by iteration `k` of the outer loop of
`parallel_bfs(s)` (counting from 0, `visited` initially all false) holds
exactly the nodes at shortest-path distance `k` from `s`, each once.  The same
holds for level `k` of every run of `BfsSchedRun`. -/
theorem C17_level_is_distance_class (adj : Adj) (σ : BfsScheduler)
    (hσ : BfsSchedulerOk adj σ) (s : Nat) :
    (∀ k, (currentLevelSched σ s k).Nodup ∧
      ∀ x, x ∈ currentLevelSched σ s k ↔ HasDist adj s x k) ∧
    ∀ levels fin, BfsSchedRun adj (initState allFalse s) levels fin →
      ∀ (k : Nat) (lv : List Nat), levels[k]? = some lv →
        lv.Nodup ∧ ∀ x, x ∈ lv ↔ HasDist adj s x k := by
  constructor
  · intro k
    rw [currentLevelSched_eq]
    exact level_work_iff (winv_bfsBoundarySched adj σ hσ allFalse s rfl k)
      (levelInv_bfsBoundarySched adj σ hσ s k)
  · intro levels fin hrun k lv h
    have := bfsSchedRun_levels hrun 0 (winv_init adj allFalse s rfl) (levelInv_init adj s) k lv h
    simpa using this

/-- C17 on the graph with edges (1,2), (1,3), (2,4), (3,5) and start 1 under
the reversed scheduler: the levels are [1], [2, 3], [5, 4]. -/
theorem C17_level_is_distance_class_witness :
    (currentLevelSched (reverseBfsScheduler (buildGraph [(1, 2), (1, 3), (2, 4), (3, 5)])) 1 0
        = [1] ∧
      currentLevelSched (reverseBfsScheduler (buildGraph [(1, 2), (1, 3), (2, 4), (3, 5)])) 1 1
        = [2, 3] ∧
      currentLevelSched (reverseBfsScheduler (buildGraph [(1, 2), (1, 3), (2, 4), (3, 5)])) 1 2
        = [5, 4] ∧
      currentLevelSched (reverseBfsScheduler (buildGraph [(1, 2), (1, 3), (2, 4), (3, 5)])) 1 3
        = []) ∧
    ((∀ k, (currentLevelSched
        (reverseBfsScheduler (buildGraph [(1, 2), (1, 3), (2, 4), (3, 5)])) 1 k).Nodup ∧
      ∀ x, x ∈ currentLevelSched
          (reverseBfsScheduler (buildGraph [(1, 2), (1, 3), (2, 4), (3, 5)])) 1 k ↔
        HasDist (buildGraph [(1, 2), (1, 3), (2, 4), (3, 5)]) 1 x k) ∧
    ∀ levels fin,
      BfsSchedRun (buildGraph [(1, 2), (1, 3), (2, 4), (3, 5)]) (initState allFalse 1)
        levels fin →
      ∀ (k : Nat) (lv : List Nat), levels[k]? = some lv →
        lv.Nodup ∧ ∀ x, x ∈ lv ↔ HasDist (buildGraph [(1, 2), (1, 3), (2, 4), (3, 5)]) 1 x k) :=
  ⟨by decide,
    C17_level_is_distance_class (buildGraph [(1, 2), (1, 3), (2, 4), (3, 5)])
      (reverseBfsScheduler _) (reverseBfsScheduler_ok _) 1⟩

end BfsDfs

namespace BfsDfs

/-! ## The menu handling under every schedule -/

theorem runChoice_eq_sched (adj : Adj) (fuel choice start : Nat) (vis : Visited) :
    runChoice adj fuel choice start vis
      = runChoiceSched adj (indexBfsScheduler adj) (indexDfsScheduler adj) fuel choice start
          vis := by
  unfold runChoice runChoiceSched
  rw [parallel_bfs_eq_sched, parallel_dfs_eq_sched]

theorem runAgain_eq_sched (adj : Adj) (fuel choice i : Nat) (vis : Visited) :
    runAgain adj fuel choice i vis
      = runAgainSched adj (indexBfsScheduler adj) (indexDfsScheduler adj) fuel choice i vis := by
  unfold runAgain runAgainSched
  rw [parallel_bfs_eq_sched, parallel_dfs_eq_sched]

theorem sweep_eq_sched (adj : Adj) (fuel choice k i : Nat) (r : ChoiceResult) :
    sweep adj fuel choice k i r
      = sweepSched adj (indexBfsScheduler adj) (indexDfsScheduler adj) fuel choice k i r := by
  induction k generalizing i r with
  | zero => rfl
  | succ k ih =>
    unfold sweep sweepSched
    rw [runAgain_eq_sched]
    split
    · split
      · rfl
      · exact ih _ _
    · exact ih _ _

/-- The handling of a menu choice with the parallel fors in index order is the
handling under the index-order schedulers. -/
theorem handleChoice_eq_sched (adj : Adj) (fuel n choice start : Nat) (vis : Visited) :
    handleChoice adj fuel n choice start vis
      = handleChoiceSched adj (indexBfsScheduler adj) (indexDfsScheduler adj) fuel n choice
          start vis := by
  unfold handleChoice handleChoiceSched
  rw [runChoice_eq_sched]
  split
  · rfl
  · exact sweep_eq_sched _ _ _ _ _ _

theorem runAgainSched_spec (adj : Adj) (σ : BfsScheduler) (τ : DfsScheduler)
    (hσ : BfsSchedulerOk adj σ) (hτ : DfsSchedulerOk adj τ) (vis0 : Visited) (i : Nat)
    (U : List Nat)
    (hU : ∀ x, Reach adj i x → x ∈ U) (hfree : ∀ x, Reach adj i x → vis0 x = false)
    (fuel : Nat) (hfuel : U.length + 1 ≤ fuel) (choice : Nat) :
    ∃ vis out, runAgainSched adj σ τ fuel choice i vis0 = some (vis, out) ∧ out.Nodup ∧
      (∀ x, x ∈ out ↔ Reach adj i x) ∧
      ∀ x, vis x = true ↔ vis0 x = true ∨ Reach adj i x := by
  unfold runAgainSched
  by_cases hc : choice = 1
  · simp only [hc, if_true]
    exact parallel_bfs_sched_spec adj σ hσ vis0 i U hU hfree fuel hfuel
  · simp only [hc, if_false]
    exact parallel_dfs_sched_spec adj τ hτ vis0 i U hU hfree fuel hfuel

/-- Under every pair of schedulers the sweep loop returns, and the invariant
holds for the index `n + 1`. -/
theorem sweepSched_spec (adj : Adj) (σ : BfsScheduler) (τ : DfsScheduler)
    (hσ : BfsSchedulerOk adj σ) (hτ : DfsSchedulerOk adj τ) (vis0 : Visited) (s n : Nat)
    (hsym : ∀ x y, y ∈ adj x → x ∈ adj y)
    (hrng : ∀ x y, y ∈ adj x → (1 ≤ x ∧ x ≤ n) ∧ (1 ≤ y ∧ y ≤ n))
    (hv0 : ∀ x, 1 ≤ x → x ≤ n → vis0 x = false)
    (fuel : Nat) (hfuel : n + 1 ≤ fuel) (choice : Nat) (k i : Nat) (r : ChoiceResult)
    (hki : k + i = n + 1) (hi : 1 ≤ i) (h : SweepInv adj vis0 s i r) :
    ∃ r2, sweepSched adj σ τ fuel choice k i r = some r2 ∧ SweepInv adj vis0 s (n + 1) r2 := by
  induction k generalizing i r with
  | zero =>
    have : i = n + 1 := by omega
    subst this
    exact ⟨r, rfl, h⟩
  | succ k ih =>
    have hin : 1 ≤ i ∧ i ≤ n := by omega
    unfold sweepSched
    by_cases hc : r.visited i = false ∧ adj i ≠ []
    · have hcond : (!r.visited i && !(adj i).isEmpty) = true := by
        simp [hc.1, hc.2]
      rw [if_pos hcond]
      obtain ⟨vis, out, hrun, hn, hout, hvis⟩ :=
        runAgainSched_spec adj σ τ hσ hτ r.visited i (List.range' 1 n)
          (fun x hx => by
            have := reach_range hrng hx hin
            rw [List.mem_range'_1]; omega)
          (sweep_free hsym hrng hv0 h hin hc.1) fuel (by simpa using hfuel) choice
      rw [hrun]
      exact ih (i + 1) _ (by omega) (by omega)
        (sweepInv_restart hsym hrng hv0 h hin hc.1 hc.2 vis out hn hout hvis)
    · have hcond : ¬ ((!r.visited i && !(adj i).isEmpty) = true) := by
        intro hb
        apply hc
        simp only [Bool.and_eq_true, Bool.not_eq_true', List.isEmpty_eq_false] at hb
        exact hb
      rw [if_neg hcond]
      refine ih (i + 1) r (by omega) (by omega) (sweepInv_skip h (hv0 i hin.1 hin.2) ?_)
      intro hai
      by_contra hv
      exact hc ⟨by simpa using hv, hai⟩

/-- What `main` does for a menu choice 1 or 2 on the graph built from the
input pairs, under every pair of schedulers: the call returns and the sweep
invariant holds at the end. -/
theorem handleChoiceSched_spec (n : Nat) (edges : List (Nat × Nat)) (σ : BfsScheduler)
    (τ : DfsScheduler) (hσ : BfsSchedulerOk (buildGraph edges) σ)
    (hτ : DfsSchedulerOk (buildGraph edges) τ) (choice s : Nat) (vis : Visited)
    (hE : EndpointsIn n edges) (hs : 1 ≤ s ∧ s ≤ n) (hc : choice = 1 ∨ choice = 2)
    (fuel : Nat) (hfuel : n + 1 ≤ fuel) :
    ∃ r, handleChoiceSched (buildGraph edges) σ τ fuel n choice s vis = some r ∧
      SweepInv (buildGraph edges) (reset_visited n vis) s (n + 1) r := by
  have hsym : ∀ x y, y ∈ buildGraph edges x → x ∈ buildGraph edges y := fun x y h =>
    (mem_buildGraph edges y x).mpr (linked_symm ((mem_buildGraph edges x y).mp h))
  have hrng : ∀ x y, y ∈ buildGraph edges x → (1 ≤ x ∧ x ≤ n) ∧ (1 ≤ y ∧ y ≤ n) := fun x y h =>
    linked_bounds hE ((mem_buildGraph edges x y).mp h)
  have hv0 : ∀ x, 1 ≤ x → x ≤ n → reset_visited n vis x = false := fun x h1 h2 => by
    rw [reset_visited_apply, if_pos ⟨h1, h2⟩]
  have hfree : ∀ x, Reach (buildGraph edges) s x → reset_visited n vis x = false := fun x hx => by
    have := reach_range hrng hx hs
    exact hv0 x this.1 this.2
  have hrun : ∃ v out, runChoiceSched (buildGraph edges) σ τ fuel choice s (reset_visited n vis)
      = some (v, out) ∧ out.Nodup ∧ (∀ x, x ∈ out ↔ Reach (buildGraph edges) s x) ∧
      ∀ x, v x = true ↔ reset_visited n vis x = true ∨ Reach (buildGraph edges) s x := by
    unfold runChoiceSched
    rcases hc with hc | hc
    · simp only [hc, if_true]
      exact parallel_bfs_sched_spec _ σ hσ _ s (List.range' 1 n) (reach_in_range hE hs) hfree
        fuel (by simpa using hfuel)
    · have h21 : ¬ ((2 : Nat) = 1) := by decide
      simp only [hc, h21, if_true, if_false]
      exact parallel_dfs_sched_spec _ τ hτ _ s (List.range' 1 n) (reach_in_range hE hs) hfree
        fuel (by simpa using hfuel)
  obtain ⟨v, out, h1, h2, h3, h4⟩ := hrun
  unfold handleChoiceSched
  rw [h1]
  refine sweepSched_spec (buildGraph edges) σ τ hσ hτ (reset_visited n vis) s n hsym hrng hv0
    fuel hfuel choice n 1 _ (by omega) (by omega) ?_
  constructor
  · exact h2
  · intro x
    show v x = true ↔ reset_visited n vis x = true ∨ x ∈ out
    rw [h4, h3]
  · intro x
    show x ∈ out ↔ _
    rw [h3]
    simp
  · exact List.Pairwise.nil
  · intro j hj; cases hj
  · intro j h5 h6; omega
  · intro j h5 h6; omega

/-! ## C6, C7: what one menu choice prints, and where it restarts -/

/-- C6: for a graph built from input pairs with endpoints in `[1, n]`, a
choice 1 (BFS) or 2 (DFS) and a start `s` in `[1, n]`, under every scheduler
of the parallel regions the handling of the menu choice returns (fuel above
`n`); over the initial run and the continuation runs together no node is
printed twice, the printed nodes are exactly the component of `s` and the
nodes of `1..n` with a neighbour, a node without neighbours other than `s` is
not printed, and the continuation runs start at strictly increasing nodes. -/
theorem C6_menu_choice_output (n : Nat) (edges : List (Nat × Nat)) (σ : BfsScheduler)
    (τ : DfsScheduler) (hσ : BfsSchedulerOk (buildGraph edges) σ)
    (hτ : DfsSchedulerOk (buildGraph edges) τ) (choice s : Nat)
    (vis : Visited) (hE : EndpointsIn n edges) (hs : 1 ≤ s ∧ s ≤ n)
    (hc : choice = 1 ∨ choice = 2) (fuel : Nat) (hfuel : n + 1 ≤ fuel) :
    ∃ r, handleChoiceSched (buildGraph edges) σ τ fuel n choice s vis = some r ∧
      r.out.Nodup ∧
      (∀ x, x ∈ r.out ↔
        InComponent edges s x ∨ (1 ≤ x ∧ x ≤ n ∧ buildGraph edges x ≠ [])) ∧
      (∀ x, buildGraph edges x = [] → x ≠ s → x ∉ r.out) ∧
      r.restarts.Pairwise (fun a b => a < b) := by
  obtain ⟨r, hr, h⟩ := handleChoiceSched_spec n edges σ τ hσ hτ choice s vis hE hs hc fuel hfuel
  have hsym : ∀ x y, y ∈ buildGraph edges x → x ∈ buildGraph edges y := fun x y h =>
    (mem_buildGraph edges y x).mpr (linked_symm ((mem_buildGraph edges x y).mp h))
  have hrng : ∀ x y, y ∈ buildGraph edges x → (1 ≤ x ∧ x ≤ n) ∧ (1 ≤ y ∧ y ≤ n) := fun x y h =>
    linked_bounds hE ((mem_buildGraph edges x y).mp h)
  have hiff : ∀ x, x ∈ r.out ↔
      InComponent edges s x ∨ (1 ≤ x ∧ x ≤ n ∧ buildGraph edges x ≠ []) := by
    intro x
    rw [h.out_iff, reach_buildGraph]
    constructor
    · rintro (hx | ⟨j, hj, hx⟩)
      · exact Or.inl hx
      · obtain ⟨a, b, c, _⟩ := h.rs_sound j hj
        by_cases hjx : x = j
        · rw [hjx]; exact Or.inr ⟨a, by omega, c⟩
        · have hxr := reach_range hrng hx ⟨a, by omega⟩
          exact Or.inr ⟨hxr.1, hxr.2, reach_ne_neighbours (reach_symm hsym hx) hjx⟩
    · rintro (hx | ⟨h1, h2, h3⟩)
      · exact Or.inl hx
      · have hv := h.seen x h1 (by omega) h3
        rw [h.vis_iff, reset_visited_apply, if_pos ⟨h1, h2⟩] at hv
        rcases hv with hv | hv
        · cases hv
        · rw [← reach_buildGraph]
          exact (h.out_iff x).mp hv
  refine ⟨r, hr, h.nodup, hiff, ?_, h.rs_sorted⟩
  intro x h0 hxs hx
  rcases (hiff x).mp hx with h1 | ⟨_, _, h3⟩
  · have hr2 := reach_symm hsym ((reach_buildGraph edges s x).mpr h1)
    exact reach_ne_neighbours hr2 hxs h0
  · exact h3 h0

/-- C6 on N = 7 with edges (1,2), (1,3), (2,4), (3,5), (6,7), choice BFS,
start 1, under the reversed schedulers: the output is 1 2 3 5 4 6 7. -/
theorem C6_menu_choice_output_witness :
    (handleChoiceSched (buildGraph [(1, 2), (1, 3), (2, 4), (3, 5), (6, 7)])
        (reverseBfsScheduler (buildGraph [(1, 2), (1, 3), (2, 4), (3, 5), (6, 7)]))
        (reverseDfsScheduler (buildGraph [(1, 2), (1, 3), (2, 4), (3, 5), (6, 7)]))
        8 7 1 1 allFalse).map (fun r => r.out) = some [1, 2, 3, 5, 4, 6, 7] ∧
    ∃ r, handleChoiceSched (buildGraph [(1, 2), (1, 3), (2, 4), (3, 5), (6, 7)])
        (reverseBfsScheduler (buildGraph [(1, 2), (1, 3), (2, 4), (3, 5), (6, 7)]))
        (reverseDfsScheduler (buildGraph [(1, 2), (1, 3), (2, 4), (3, 5), (6, 7)]))
        8 7 1 1 allFalse = some r ∧
      r.out.Nodup ∧
      (∀ x, x ∈ r.out ↔ InComponent [(1, 2), (1, 3), (2, 4), (3, 5), (6, 7)] 1 x ∨
        (1 ≤ x ∧ x ≤ 7 ∧ buildGraph [(1, 2), (1, 3), (2, 4), (3, 5), (6, 7)] x ≠ [])) ∧
      (∀ x, buildGraph [(1, 2), (1, 3), (2, 4), (3, 5), (6, 7)] x = [] → x ≠ 1 → x ∉ r.out) ∧
      r.restarts.Pairwise (fun a b => a < b) :=
  ⟨by decide,
    C6_menu_choice_output 7 [(1, 2), (1, 3), (2, 4), (3, 5), (6, 7)]
      (reverseBfsScheduler _) (reverseDfsScheduler _) (reverseBfsScheduler_ok _)
      (reverseDfsScheduler_ok _) 1 1 allFalse (by decide) (by decide)
      (by decide) 8 (by decide)⟩

/-- C7, amended: under every scheduler of the parallel regions, the sweep of
one menu choice starts a continuation traversal from every node of `1..n` that
has a neighbour, is not in the component of the start, and is the smallest
node of its component, and from no other node; each such node is announced
once.  So every component with an edge is covered in the same choice. -/
theorem C7_restart_per_component (n : Nat) (edges : List (Nat × Nat)) (σ : BfsScheduler)
    (τ : DfsScheduler) (hσ : BfsSchedulerOk (buildGraph edges) σ)
    (hτ : DfsSchedulerOk (buildGraph edges) τ) (choice s : Nat)
    (vis : Visited) (hE : EndpointsIn n edges) (hs : 1 ≤ s ∧ s ≤ n)
    (hc : choice = 1 ∨ choice = 2) (fuel : Nat) (hfuel : n + 1 ≤ fuel) :
    ∃ r, handleChoiceSched (buildGraph edges) σ τ fuel n choice s vis = some r ∧
      r.restarts.Nodup ∧
      ∀ j, j ∈ r.restarts ↔
        (1 ≤ j ∧ j ≤ n) ∧ buildGraph edges j ≠ [] ∧ ¬ InComponent edges s j ∧
          ∀ j2, j2 < j → ¬ InComponent edges j2 j := by
  obtain ⟨r, hr, h⟩ := handleChoiceSched_spec n edges σ τ hσ hτ choice s vis hE hs hc fuel hfuel
  refine ⟨r, hr, ?_, fun j => ?_⟩
  · exact h.rs_sorted.imp (fun hab => Nat.ne_of_lt hab)
  · simp only [← reach_buildGraph]
    constructor
    · intro hj
      obtain ⟨a, b, c, d, e⟩ := h.rs_sound j hj
      exact ⟨⟨a, by omega⟩, c, d, e⟩
    · rintro ⟨⟨a, b⟩, c, d, e⟩
      exact h.rs_complete j a (by omega) c d e

/-- C7 amended, on N = 5 with edges (2,3), (4,5), choice DFS, start 1, under
the reversed schedulers: the sweep restarts from 2 and from 4. -/
theorem C7_restart_per_component_witness :
    (handleChoiceSched (buildGraph [(2, 3), (4, 5)])
        (reverseBfsScheduler (buildGraph [(2, 3), (4, 5)]))
        (reverseDfsScheduler (buildGraph [(2, 3), (4, 5)]))
        6 5 2 1 allFalse).map (fun r => r.restarts) = some [2, 4] ∧
    ∃ r, handleChoiceSched (buildGraph [(2, 3), (4, 5)])
        (reverseBfsScheduler (buildGraph [(2, 3), (4, 5)]))
        (reverseDfsScheduler (buildGraph [(2, 3), (4, 5)]))
        6 5 2 1 allFalse = some r ∧
      r.restarts.Nodup ∧
      ∀ j, j ∈ r.restarts ↔
        (1 ≤ j ∧ j ≤ 5) ∧ buildGraph [(2, 3), (4, 5)] j ≠ [] ∧
          ¬ InComponent [(2, 3), (4, 5)] 1 j ∧
          ∀ j2, j2 < j → ¬ InComponent [(2, 3), (4, 5)] j2 j :=
  ⟨by decide,
    C7_restart_per_component 5 [(2, 3), (4, 5)]
      (reverseBfsScheduler _) (reverseDfsScheduler _) (reverseBfsScheduler_ok _)
      (reverseDfsScheduler_ok _) 2 1 allFalse (by decide) (by decide)
      (by decide) 6 (by decide)⟩

end BfsDfs

namespace BfsDfs

/-! ## C9: a second traversal after `reset_visited`, under every schedule -/

theorem runChoiceSched_spec (n : Nat) (edges : List (Nat × Nat)) (σ : BfsScheduler)
    (τ : DfsScheduler) (hσ : BfsSchedulerOk (buildGraph edges) σ)
    (hτ : DfsSchedulerOk (buildGraph edges) τ) (choice s : Nat) (vis0 : Visited)
    (hE : EndpointsIn n edges) (hs : 1 ≤ s ∧ s ≤ n) (hc : choice = 1 ∨ choice = 2)
    (hv0 : ∀ x, 1 ≤ x → x ≤ n → vis0 x = false) (fuel : Nat) (hfuel : n + 1 ≤ fuel) :
    ∃ v out, runChoiceSched (buildGraph edges) σ τ fuel choice s vis0 = some (v, out) ∧
      out.Nodup ∧ (∀ x, x ∈ out ↔ InComponent edges s x) ∧
      ∀ x, v x = true ↔ vis0 x = true ∨ InComponent edges s x := by
  have hfree : ∀ x, Reach (buildGraph edges) s x → vis0 x = false := fun x hx => by
    have := inComponent_bounds hE hs ((reach_buildGraph edges s x).mp hx)
    exact hv0 x this.1 this.2
  simp only [← reach_buildGraph]
  unfold runChoiceSched
  rcases hc with hc | hc
  · simp only [hc, if_true]
    exact parallel_bfs_sched_spec _ σ hσ _ s (List.range' 1 n) (reach_in_range hE hs) hfree fuel
      (by simpa using hfuel)
  · have h21 : ¬ ((2 : Nat) = 1) := by decide
    simp only [hc, h21, if_true, if_false]
    exact parallel_dfs_sched_spec _ τ hτ _ s (List.range' 1 n) (reach_in_range hE hs) hfree fuel
      (by simpa using hfuel)

/-- C9: for a graph built from input pairs with endpoints in `[1, n]`, a start
`s` in `[1, n]` and either strategy, `reset_visited(n)` followed by the
traversal from `s`, done twice in a row, each time under any scheduler of the
parallel regions (the two runs may be scheduled differently), returns both
times (fuel above `n`) and prints the same set of nodes; after the first run
`reset_visited(n)` makes `visited` false at every node the traversal printed,
and at every index the first reset had made false. -/
theorem C9_retraversal_same_set (n : Nat) (edges : List (Nat × Nat))
    (σ1 σ2 : BfsScheduler) (τ1 τ2 : DfsScheduler)
    (hσ1 : BfsSchedulerOk (buildGraph edges) σ1) (hσ2 : BfsSchedulerOk (buildGraph edges) σ2)
    (hτ1 : DfsSchedulerOk (buildGraph edges) τ1) (hτ2 : DfsSchedulerOk (buildGraph edges) τ2)
    (choice s : Nat)
    (vis : Visited) (hE : EndpointsIn n edges) (hs : 1 ≤ s ∧ s ≤ n)
    (hc : choice = 1 ∨ choice = 2) (fuel : Nat) (hfuel : n + 1 ≤ fuel) :
    ∃ v1 out1 v2 out2,
      runChoiceSched (buildGraph edges) σ1 τ1 fuel choice s (reset_visited n vis)
        = some (v1, out1) ∧
      runChoiceSched (buildGraph edges) σ2 τ2 fuel choice s (reset_visited n v1)
        = some (v2, out2) ∧
      (∀ x, x ∈ out1 ↔ x ∈ out2) ∧
      (∀ x, x ∈ out1 → reset_visited n v1 x = false) ∧
      (∀ x, reset_visited n vis x = false → reset_visited n v1 x = false) := by
  have hv0 : ∀ (w : Visited) (x : Nat), 1 ≤ x → x ≤ n → reset_visited n w x = false :=
    fun w x h1 h2 => by rw [reset_visited_apply, if_pos ⟨h1, h2⟩]
  obtain ⟨v1, out1, h1, _, h3, h4⟩ :=
    runChoiceSched_spec n edges σ1 τ1 hσ1 hτ1 choice s (reset_visited n vis) hE hs hc (hv0 vis)
      fuel hfuel
  obtain ⟨v2, out2, k1, _, k3, _⟩ :=
    runChoiceSched_spec n edges σ2 τ2 hσ2 hτ2 choice s (reset_visited n v1) hE hs hc (hv0 v1)
      fuel hfuel
  refine ⟨v1, out1, v2, out2, h1, k1, fun x => by rw [h3, k3], fun x hx => ?_, fun x hx => ?_⟩
  · have := inComponent_bounds hE hs ((h3 x).mp hx)
    exact hv0 v1 x this.1 this.2
  · by_cases hr : 1 ≤ x ∧ x ≤ n
    · exact hv0 v1 x hr.1 hr.2
    · rw [reset_visited_apply, if_neg hr]
      by_contra hne
      have hv : v1 x = true := by simpa using hne
      rw [h4, hx] at hv
      rcases hv with hv | hv
      · cases hv
      · exact hr (inComponent_bounds hE hs hv)

/-- C9 on N = 5 with edges (1,2), (1,3), (2,4), (3,5), choice DFS, start 1:
the first run in index order prints 1 3 5 2 4, the second under the reversed
scheduler prints 1 2 4 3 5. -/
theorem C9_retraversal_same_set_witness :
    ((runChoiceSched (buildGraph [(1, 2), (1, 3), (2, 4), (3, 5)])
        (indexBfsScheduler (buildGraph [(1, 2), (1, 3), (2, 4), (3, 5)]))
        (indexDfsScheduler (buildGraph [(1, 2), (1, 3), (2, 4), (3, 5)]))
        6 2 1 (reset_visited 5 allFalse)).map (fun t => t.2) = some [1, 3, 5, 2, 4] ∧
      (runChoiceSched (buildGraph [(1, 2), (1, 3), (2, 4), (3, 5)])
        (reverseBfsScheduler (buildGraph [(1, 2), (1, 3), (2, 4), (3, 5)]))
        (reverseDfsScheduler (buildGraph [(1, 2), (1, 3), (2, 4), (3, 5)]))
        6 2 1 (reset_visited 5 allFalse)).map (fun t => t.2) = some [1, 2, 4, 3, 5]) ∧
    ∃ v1 out1 v2 out2,
      runChoiceSched (buildGraph [(1, 2), (1, 3), (2, 4), (3, 5)])
        (indexBfsScheduler (buildGraph [(1, 2), (1, 3), (2, 4), (3, 5)]))
        (indexDfsScheduler (buildGraph [(1, 2), (1, 3), (2, 4), (3, 5)]))
        6 2 1 (reset_visited 5 allFalse) = some (v1, out1) ∧
      runChoiceSched (buildGraph [(1, 2), (1, 3), (2, 4), (3, 5)])
        (reverseBfsScheduler (buildGraph [(1, 2), (1, 3), (2, 4), (3, 5)]))
        (reverseDfsScheduler (buildGraph [(1, 2), (1, 3), (2, 4), (3, 5)]))
        6 2 1 (reset_visited 5 v1) = some (v2, out2) ∧
      (∀ x, x ∈ out1 ↔ x ∈ out2) ∧
      (∀ x, x ∈ out1 → reset_visited 5 v1 x = false) ∧
      (∀ x, reset_visited 5 allFalse x = false → reset_visited 5 v1 x = false) :=
  ⟨by decide,
    C9_retraversal_same_set 5 [(1, 2), (1, 3), (2, 4), (3, 5)]
      (indexBfsScheduler _) (reverseBfsScheduler _) (indexDfsScheduler _)
      (reverseDfsScheduler _) (indexBfsScheduler_ok _) (reverseBfsScheduler_ok _)
      (indexDfsScheduler_ok _) (reverseDfsScheduler_ok _) 2 1 allFalse (by decide) (by decide)
      (by decide) 6 (by decide)⟩

/-! ## C8: `main` does not validate node identifiers -/

theorem initState_clear (vis : Visited) (s : Nat) :
    initState vis s = initState (clearVisited vis s) s := by
  unfold initState
  congr 1
  funext i
  unfold markVisited clearVisited
  by_cases h : i = s
  · simp [h]
  · simp [h]

theorem length_endpoints (edges : List (Nat × Nat)) :
    (edges.flatMap (fun e => [e.1, e.2])).length = 2 * edges.length := by
  induction edges with
  | nil => rfl
  | cons e edges ih =>
    simp only [List.flatMap_cons, List.length_append, List.length_cons, List.length_nil, ih]
    omega

/-- A node reached from `s` in the graph built from the input pairs is `s` or
an endpoint of a pair, whatever the identifiers are. -/
theorem reach_endpoints (edges : List (Nat × Nat)) (s x : Nat)
    (h : Reach (buildGraph edges) s x) : x ∈ s :: edges.flatMap (fun e => [e.1, e.2]) := by
  induction h with
  | refl => exact List.mem_cons_self _ _
  | @tail b c _ hbc _ =>
    have hl : Linked edges b c := (mem_buildGraph edges b c).mp hbc
    refine List.mem_cons_of_mem _ (List.mem_flatMap.mpr ?_)
    rcases hl with hl | hl
    · exact ⟨(b, c), hl, by simp⟩
    · exact ⟨(c, b), hl, by simp⟩

theorem bfsLoopSched_out_prefix (σ : BfsScheduler) (fuel : Nat) (st fin : TState)
    (h : bfsLoopSched σ fuel st = some fin) : st.out <+: fin.out := by
  induction fuel generalizing st with
  | zero => simp [bfsLoopSched] at h
  | succ fuel ih =>
    unfold bfsLoopSched at h
    by_cases he : st.work.isEmpty = true
    · rw [if_pos he] at h
      simp only [Option.some.injEq] at h
      rw [h]
    · rw [if_neg he] at h
      have := ih _ h
      rw [bfsIterSched_eq] at this
      exact (List.prefix_append _ _).trans this

theorem dfsLoopSched_out_prefix (adj : Adj) (τ : DfsScheduler) (fuel : Nat) (st fin : TState)
    (h : dfsLoopSched adj τ fuel st = some fin) : st.out <+: fin.out := by
  induction fuel generalizing st with
  | zero => simp [dfsLoopSched] at h
  | succ fuel ih =>
    unfold dfsLoopSched at h
    by_cases he : st.work.isEmpty = true
    · rw [if_pos he] at h
      simp only [Option.some.injEq] at h
      rw [h]
    · rw [if_neg he] at h
      have := ih _ h
      have hw : st.work ≠ [] := by simpa using he
      obtain ⟨v, rest, hvr⟩ := List.exists_cons_of_ne_nil hw
      rw [dfsIterSched_eq adj τ st v rest hvr] at this
      exact (List.prefix_append _ _).trans this

theorem parallel_bfs_sched_head (σ : BfsScheduler) (fuel s : Nat) (vis v : Visited)
    (out : List Nat) (h : parallel_bfs_sched σ fuel s vis = some (v, out)) :
    out.head? = some s := by
  unfold parallel_bfs_sched at h
  rw [Option.map_eq_some'] at h
  obtain ⟨fin, h1, h2⟩ := h
  cases fuel with
  | zero => simp [bfsLoopSched] at h1
  | succ fuel =>
    unfold bfsLoopSched at h1
    have he : ¬ ((initState vis s).work.isEmpty = true) := by simp [initState]
    rw [if_neg he] at h1
    have hp := bfsLoopSched_out_prefix σ fuel _ fin h1
    rw [bfsIterSched_eq] at hp
    have : out = fin.out := by
      have := congrArg Prod.snd h2
      exact this.symm
    rw [this]
    exact head_of_prefix hp

theorem parallel_dfs_sched_head (adj : Adj) (τ : DfsScheduler) (fuel s : Nat) (vis v : Visited)
    (out : List Nat) (h : parallel_dfs_sched adj τ fuel s vis = some (v, out)) :
    out.head? = some s := by
  unfold parallel_dfs_sched at h
  rw [Option.map_eq_some'] at h
  obtain ⟨fin, h1, h2⟩ := h
  cases fuel with
  | zero => simp [dfsLoopSched] at h1
  | succ fuel =>
    unfold dfsLoopSched at h1
    have he : ¬ ((initState vis s).work.isEmpty = true) := by simp [initState]
    rw [if_neg he] at h1
    have hp := dfsLoopSched_out_prefix adj τ fuel _ fin h1
    rw [dfsIterSched_eq adj τ _ s [] rfl] at hp
    have : out = fin.out := by
      have := congrArg Prod.snd h2
      exact this.symm
    rw [this]
    exact head_of_prefix hp

/-- On the graph built from any input pairs, from any start node and on any
`visited` array, `parallel_bfs` returns under every scheduler when the fuel
exceeds twice the number of pairs plus one. -/
theorem parallel_bfs_sched_total (edges : List (Nat × Nat)) (σ : BfsScheduler)
    (hσ : BfsSchedulerOk (buildGraph edges) σ) (fuel s : Nat) (vis : Visited)
    (hfuel : 2 * edges.length + 2 ≤ fuel) :
    ∃ t, parallel_bfs_sched σ fuel s vis = some t := by
  have h0 := winv_init (buildGraph edges) (clearVisited vis s) s (by simp [clearVisited])
  obtain ⟨fin, h1, _, _⟩ :=
    bfsLoopSched_terminates (buildGraph edges) σ hσ (clearVisited vis s) s
      (s :: edges.flatMap (fun e => [e.1, e.2])) (reach_endpoints edges s) fuel _ h0
      (by simp only [List.length_cons, length_endpoints]; omega)
  unfold parallel_bfs_sched
  rw [initState_clear, h1]
  exact ⟨_, rfl⟩

theorem parallel_dfs_sched_total (edges : List (Nat × Nat)) (τ : DfsScheduler)
    (hτ : DfsSchedulerOk (buildGraph edges) τ) (fuel s : Nat) (vis : Visited)
    (hfuel : 2 * edges.length + 2 ≤ fuel) :
    ∃ t, parallel_dfs_sched (buildGraph edges) τ fuel s vis = some t := by
  have h0 := winv_init (buildGraph edges) (clearVisited vis s) s (by simp [clearVisited])
  obtain ⟨fin, h1, _, _⟩ :=
    dfsLoopSched_terminates (buildGraph edges) τ hτ (clearVisited vis s) s
      (s :: edges.flatMap (fun e => [e.1, e.2])) (reach_endpoints edges s) fuel _ h0
      (by simp only [List.length_cons, length_endpoints]; omega)
  unfold parallel_dfs_sched
  rw [initState_clear, h1]
  exact ⟨_, rfl⟩

/-- The sweep of `main` returns for every `n`, whatever the identifiers in the
input pairs are, and keeps what was printed before it. -/
theorem sweepSched_total (edges : List (Nat × Nat)) (σ : BfsScheduler) (τ : DfsScheduler)
    (hσ : BfsSchedulerOk (buildGraph edges) σ) (hτ : DfsSchedulerOk (buildGraph edges) τ)
    (fuel choice : Nat) (hfuel : 2 * edges.length + 2 ≤ fuel) (k i : Nat) (r : ChoiceResult) :
    ∃ r2, sweepSched (buildGraph edges) σ τ fuel choice k i r = some r2 ∧ r.out <+: r2.out := by
  induction k generalizing i r with
  | zero => exact ⟨r, rfl, List.prefix_refl _⟩
  | succ k ih =>
    unfold sweepSched
    by_cases hc : (!r.visited i && !(buildGraph edges i).isEmpty) = true
    · rw [if_pos hc]
      have ht : ∃ t, runAgainSched (buildGraph edges) σ τ fuel choice i r.visited = some t := by
        unfold runAgainSched
        by_cases h1 : choice = 1
        · rw [if_pos h1]; exact parallel_bfs_sched_total edges σ hσ fuel i _ hfuel
        · rw [if_neg h1]; exact parallel_dfs_sched_total edges τ hτ fuel i _ hfuel
      obtain ⟨t, ht⟩ := ht
      rw [ht]
      obtain ⟨r2, h1, h2⟩ := ih (i + 1)
        { visited := t.1, out := r.out ++ t.2, restarts := r.restarts ++ [i] }
      exact ⟨r2, h1, (List.prefix_append _ _).trans h2⟩
    · rw [if_neg hc]
      exact ih (i + 1) r

/-- C8, amended: `main` makes no range check on node identifiers.  Every pair
`(u, v)` that the edge loop reads is appended to the lists of `u` and of `v`,
whatever `N` is, and for every start node, under every scheduler of the
parallel regions, the handling of a menu choice 1 or 2 returns (fuel above
twice the number of pairs plus one) with the traversal run from that node: it
is the first node printed. -/
theorem C8_no_range_check (edges : List (Nat × Nat)) (σ : BfsScheduler) (τ : DfsScheduler)
    (hσ : BfsSchedulerOk (buildGraph edges) σ) (hτ : DfsSchedulerOk (buildGraph edges) τ)
    (u v : Nat) (fuel n choice start : Nat) (vis : Visited)
    (he : (u, v) ∈ edges) (hc : choice = 1 ∨ choice = 2)
    (hfuel : 2 * edges.length + 2 ≤ fuel) :
    (v ∈ buildGraph edges u ∧ u ∈ buildGraph edges v) ∧
      ∃ r, handleChoiceSched (buildGraph edges) σ τ fuel n choice start vis = some r ∧
        r.out.head? = some start := by
  refine ⟨⟨(mem_buildGraph edges u v).mpr (Or.inl he),
    (mem_buildGraph edges v u).mpr (Or.inr he)⟩, ?_⟩
  have hrun : ∃ t, runChoiceSched (buildGraph edges) σ τ fuel choice start (reset_visited n vis)
      = some t ∧ t.2.head? = some start := by
    unfold runChoiceSched
    rcases hc with hc | hc
    · rw [if_pos hc]
      obtain ⟨t, ht⟩ := parallel_bfs_sched_total edges σ hσ fuel start (reset_visited n vis) hfuel
      exact ⟨t, ht, parallel_bfs_sched_head σ fuel start _ t.1 t.2 ht⟩
    · have h21 : ¬ (choice = 1) := by omega
      rw [if_neg h21, if_pos hc]
      obtain ⟨t, ht⟩ := parallel_dfs_sched_total edges τ hτ fuel start (reset_visited n vis) hfuel
      exact ⟨t, ht, parallel_dfs_sched_head _ τ fuel start _ t.1 t.2 ht⟩
  obtain ⟨t, ht, hh⟩ := hrun
  unfold handleChoiceSched
  rw [ht]
  obtain ⟨r2, h1, h2⟩ := sweepSched_total edges σ τ hσ hτ fuel choice hfuel n 1
    { visited := t.1, out := t.2, restarts := [] }
  refine ⟨r2, h1, ?_⟩
  obtain ⟨tl, htl⟩ := h2
  rw [← htl]
  show (t.2 ++ tl).head? = some start
  cases h2 : t.2 with
  | nil => rw [h2] at hh; cases hh
  | cons a l => rw [h2] at hh; exact hh

/-- C8 amended, on N = 3, the pair (4, 1) and the start node 5, under the
reversed schedulers. -/
theorem C8_no_range_check_witness :
    ((4, 1) ∈ [((4 : Nat), (1 : Nat))] ∧ ((1 : Nat) = 1 ∨ (1 : Nat) = 2) ∧
      2 * [((4 : Nat), (1 : Nat))].length + 2 ≤ 4) ∧
    ((1 ∈ buildGraph [(4, 1)] 4 ∧ 4 ∈ buildGraph [(4, 1)] 1) ∧
      ∃ r, handleChoiceSched (buildGraph [(4, 1)]) (reverseBfsScheduler (buildGraph [(4, 1)]))
          (reverseDfsScheduler (buildGraph [(4, 1)])) 4 3 1 5 allFalse = some r ∧
        r.out.head? = some 5) :=
  ⟨⟨by decide, by decide, by decide⟩,
    C8_no_range_check [(4, 1)] (reverseBfsScheduler _) (reverseDfsScheduler _)
      (reverseBfsScheduler_ok _) (reverseDfsScheduler_ok _) 4 1 4 3 1 5 allFalse
      (by decide) (by decide) (by decide)⟩

end BfsDfs
